import Mathlib

/-!
# The buddy allocator of `threads/malloc.c`

A shallow embedding of the allocator: the descriptor table, the arena headers,
the byte memory that holds block headers and user data, the arena registry and
the pages held from the page source are explicit state; every routine of
`malloc.c` is a function on that state.

Conventions.

* Addresses and `size_t` values are natural numbers; the target is the 32-bit
  kernel, so `size_t` arithmetic is taken modulo `2^32` where the source can
  wrap.
* A failed `ASSERT`, a null dereference and a use of a descriptor that
  `malloc_init` never initialised end the run: the routine returns a `Fault`.
* Free lists are lists of block addresses, front first.  A block that is linked
  while it is on the list appears a second time; in the C list the element then
  follows itself, so the list of addresses is exact as long as no block is
  linked twice.
* The locks are not part of the state; the section on lock events repeats the
  routines with their calls of `lock_acquire` and `lock_release` written out.
* The page source is external: the page it would hand out is an argument of the
  routine that may ask for one (`0` is the null pointer, a refusal).  A page
  that is given back keeps its contents.
-/

namespace Malloc

/-! ## Constants and layout -/

/-- Page size (`vaddr.h`). -/
def PGSIZE : Nat := 4096

/-- Largest `size_t`. -/
def SIZE_MAX : Nat := 4294967295

/-- Number of `size_t` values, `2^32`. -/
def WORD : Nat := 4294967296

/-- Magic number for detecting arena corruption. -/
def ARENA_MAGIC : Nat := 0x9a548eed

/-- The value of `sizeof (struct arena)`: a list element (two pointers), `magic`, `desc`,
`free_cnt`. -/
def SIZEOF_ARENA : Nat := 20

/-- The value of `sizeof (struct block)`: a list element (two pointers) and `size`. -/
def SIZEOF_BLOCK : Nat := 12

/-- Offset of the field `size` inside `struct block`. -/
def OFS_SIZE : Nat := 8

/-- Length of the static array `descs`. -/
def DESCS_LEN : Nat := 10

/-- Reasons for which a run ends fatally. -/
inductive Fault where
  /-- The check `ASSERT (desc_cnt <= sizeof descs / sizeof *descs)`. -/
  | assert_desc_cnt
  /-- The check `ASSERT (a != NULL)`. -/
  | assert_arena_null
  /-- The check `ASSERT (a->magic == ARENA_MAGIC)`. -/
  | assert_magic
  /-- The alignment check of `block_to_arena` for a split page. -/
  | assert_align
  /-- The check `ASSERT (a->desc != NULL || pg_ofs (b) == sizeof *a)`. -/
  | assert_big_block
  /-- The check `ASSERT (idx < a->desc->blocks_per_arena)`. -/
  | assert_idx
  /-- A list element that is the null pointer is linked into a list. -/
  | null_elem
  /-- The front of an empty list is popped. -/
  | pop_empty
  /-- A descriptor slot that `malloc_init` did not initialise is used. -/
  | uninit_desc
  /-- A descriptor pointer leaves the table. -/
  | desc_range
  /-- Division by a zero block size. -/
  | div_zero
  /-- The block handed to `free_buildup` is not on the list it is searched in. -/
  | not_linked
  /-- The recursion budget of the model is used up. -/
  | out_of_fuel
deriving DecidableEq, Repr

/-- Descriptor. The lock is not modelled. -/
structure desc where
  /-- Size of each element in bytes. -/
  block_size : Nat
  /-- Number of blocks in an arena. -/
  blocks_per_arena : Nat
  /-- List of free blocks, front first. -/
  free_list : List Nat
deriving DecidableEq, Repr

/-- Arena header. The registry linkage `free_elem` is kept in `State.arena_list`. -/
structure arena where
  /-- Always set to `ARENA_MAGIC`. -/
  magic : Nat
  /-- Owning descriptor as an index into `descs`, `none` (null) for a big block. -/
  desc : Option Nat
  /-- Free blocks; pages in a big block. -/
  free_cnt : Nat
deriving DecidableEq, Repr

/-- The allocator state. -/
structure State where
  /-- The initialised entries of `descs`; their number is `desc_cnt`. -/
  descs : List desc
  /-- The arena registry `arena_list`, front first. -/
  arena_list : List Nat
  /-- The arena header stored at each page base. -/
  arenas : Nat → arena
  /-- Byte memory: block headers (the field `size`) and user data. -/
  mem : Nat → Nat
  /-- Base addresses of the pages currently held from the page source. -/
  pages : List Nat

/-- The variable `desc_cnt`. -/
def State.desc_cnt (s : State) : Nat := s.descs.length

/-! ## Memory and address helpers -/

/-- Offset of an address in its page (`pg_ofs`). -/
def pg_ofs (va : Nat) : Nat := va % PGSIZE

/-- Base of the page of an address (`pg_round_down`). -/
def pg_round_down (va : Nat) : Nat := va - va % PGSIZE

/-- Modelled from the spec: `DIV_ROUND_UP` of `round.h`, the ceiling of `x / step`. -/
def DIV_ROUND_UP (x step : Nat) : Nat := (x + step - 1) / step

/-- Little-endian load of a 32-bit word. -/
def read32 (m : Nat → Nat) (a : Nat) : Nat :=
  m a % 256 + 256 * (m (a + 1) % 256) + 65536 * (m (a + 2) % 256) + 16777216 * (m (a + 3) % 256)

/-- Little-endian store of a 32-bit word. -/
def write32 (m : Nat → Nat) (a v : Nat) : Nat → Nat := fun x =>
  if x = a then v % 256
  else if x = a + 1 then v / 256 % 256
  else if x = a + 2 then v / 65536 % 256
  else if x = a + 3 then v / 16777216 % 256
  else m x

/-- The effect of `memset (dst, c, n)`. -/
def memset (m : Nat → Nat) (dst c n : Nat) : Nat → Nat := fun x =>
  if dst ≤ x ∧ x < dst + n then c else m x

/-- The effect of `memcpy (dst, src, n)`. -/
def memcpy (m : Nat → Nat) (dst src n : Nat) : Nat → Nat := fun x =>
  if dst ≤ x ∧ x < dst + n then m (src + (x - dst)) else m x

/-- The pages of a run of `n` pages that starts at `a`. -/
def page_run (a : Nat) : Nat → List Nat
  | 0 => []
  | n + 1 => a :: page_run (a + PGSIZE) n

/-! ## State accessors -/

/-- Descriptor `descs[i]`; a slot beyond `desc_cnt` was never initialised. -/
def getDesc (s : State) (i : Nat) : Except Fault desc :=
  match s.descs[i]? with
  | some d => .ok d
  | none => .error .uninit_desc

/-- Replace the free list of entry `i` of a descriptor table. -/
def setFL : List desc → Nat → List Nat → List desc
  | [], _, _ => []
  | d :: ds, 0, l => { d with free_list := l } :: ds
  | d :: ds, i + 1, l => d :: setFL ds i l

/-- Replace the free list of `descs[i]`. -/
def State.setFreeList (s : State) (i : Nat) (l : List Nat) : State :=
  { s with descs := setFL s.descs i l }

/-- The free list of `descs[i]` (empty for a slot that is not there). -/
def State.freeList (s : State) (i : Nat) : List Nat :=
  match s.descs[i]? with
  | some d => d.free_list
  | none => []

/-- Overwrite the arena header at `a`. -/
def State.setArena (s : State) (a : Nat) (h : arena) : State :=
  { s with arenas := fun x => if x = a then h else s.arenas x }

/-- The statement `a->free_cnt++`. -/
def State.incFreeCnt (s : State) (a : Nat) : State :=
  s.setArena a { s.arenas a with free_cnt := ((s.arenas a).free_cnt + 1) % WORD }

/-- The statement `a->free_cnt--`. -/
def State.decFreeCnt (s : State) (a : Nat) : State :=
  s.setArena a { s.arenas a with free_cnt := ((s.arenas a).free_cnt + (WORD - 1)) % WORD }

/-- The statement `b->size = v`. -/
def State.storeSize (s : State) (b v : Nat) : State :=
  { s with mem := write32 s.mem (b + OFS_SIZE) v }

/-- Replace the byte memory. -/
def State.setMem (s : State) (m : Nat → Nat) : State := { s with mem := m }

/-- The value of `b->size`. -/
def State.loadSize (s : State) (b : Nat) : Nat := read32 s.mem (b + OFS_SIZE)

/-- The walk `for (e = list_begin; e != list_end; e = list_next (e)) if (b < e) break;`
followed by `list_insert (e, b)`: `b` goes in front of the first larger element. -/
def insert_sorted (b : Nat) : List Nat → List Nat
  | [] => [b]
  | e :: es => if b < e then b :: e :: es else e :: insert_sorted b es

/-- Sorted insertion of block `b` into the free list of `descs[i]`. -/
def State.insertFree (s : State) (i b : Nat) : State :=
  s.setFreeList i (insert_sorted b (s.freeList i))

/-- The call `list_remove (&b->free_elem)`, which names no list: the element leaves
whichever free list links it. -/
def State.unlinkBlock (s : State) (b : Nat) : State :=
  { s with descs := s.descs.map fun d => { d with free_list := d.free_list.erase b } }

/-! ## The routines of `malloc.c` -/

/-- The loop of `malloc_init`, with the table built so far. -/
def malloc_init_loop : Nat → Nat → List desc → Except Fault (List desc)
  | 0, _, _ => .error .out_of_fuel
  | fuel + 1, block_size, ds =>
    if block_size < PGSIZE / 2 then
      let ds1 := ds ++ [{ block_size := block_size,
                          blocks_per_arena := (PGSIZE - SIZEOF_ARENA) / block_size,
                          free_list := [] }]
      if ds1.length ≤ DESCS_LEN then malloc_init_loop fuel (block_size * 2 % WORD) ds1
      else .error .assert_desc_cnt
    else .ok ds

/-- Initializes the malloc() descriptors. The contents of memory are arbitrary. -/
def malloc_init (arenas : Nat → arena) (mem : Nat → Nat) : Except Fault State :=
  match malloc_init_loop 32 16 [] with
  | .ok ds => .ok { descs := ds, arena_list := [], arenas := arenas, mem := mem, pages := [] }
  | .error e => .error e

/-- Returns the arena that block `b` is inside. -/
def block_to_arena (s : State) (b : Nat) : Except Fault Nat :=
  let a := pg_round_down b
  if a = 0 then .error .assert_arena_null
  else if (s.arenas a).magic ≠ ARENA_MAGIC then .error .assert_magic
  else
    match (s.arenas a).desc with
    | some i =>
      match s.descs[i]? with
      | none => .error .desc_range
      | some d =>
        if d.block_size = 0 then .error .div_zero
        else if (pg_ofs b + WORD - SIZEOF_ARENA) % WORD % d.block_size = 0 then .ok a
        else .error .assert_align
    | none => if pg_ofs b = SIZEOF_ARENA then .ok a else .error .assert_big_block

/-- Returns the block of index `idx` within arena `a`. -/
def arena_to_block (s : State) (a idx : Nat) : Except Fault Nat :=
  if a = 0 then .error .assert_arena_null
  else if (s.arenas a).magic ≠ ARENA_MAGIC then .error .assert_magic
  else
    match (s.arenas a).desc with
    | none => .error .desc_range
    | some i =>
      match s.descs[i]? with
      | none => .error .desc_range
      | some d =>
        if idx < d.blocks_per_arena then .ok (a + SIZEOF_ARENA + idx * d.block_size)
        else .error .assert_idx

/-- The checks `printMemory` performs: for every registered arena and every size class it
calls `block_to_arena` on every block of the class's free list. -/
def printMemory (s : State) : Except Fault Unit :=
  if s.arena_list.all (fun _ =>
      (List.range 7).all fun j =>
        (s.freeList j).all fun f =>
          match block_to_arena s f with
          | .ok _ => true
          | .error _ => false)
  then .ok ()
  else .error .assert_magic

/-- Helper of `malloc`: splits the front block of class `t` down to class `d`. -/
def malloc_breakdown : Nat → Nat → State → Except Fault State
  | 0, d, s => do
    let td ← getDesc s 0
    let dd ← getDesc s d
    if td.block_size = dd.block_size then pure s else .error .desc_range
  | t + 1, d, s => do
    let td ← getDesc s (t + 1)
    let dd ← getDesc s d
    if td.block_size = dd.block_size then pure s
    else
      match td.free_list with
      | [] => .error .pop_empty
      | b :: rest => do
        let s1 := s.setFreeList (t + 1) rest
        let a ← block_to_arena s1 b
        let s2 := s1.decFreeCnt a
        let nd ← getDesc s2 t
        let b2 := b + nd.block_size
        let s3 := (s2.storeSize b nd.block_size).storeSize b2 nd.block_size
        let a1 ← block_to_arena s3 b
        let s4 := (s3.insertFree t b).incFreeCnt a1
        let a2 ← block_to_arena s4 b2
        let s5 := (s4.insertFree t b2).incFreeCnt a2
        malloc_breakdown t d s5

/-- The search `for (d = descs; d < descs + desc_cnt; d++) if (d->block_size >= size) break;`
over the table from index `i` on: the index it stops at. -/
def find_desc (size : Nat) : List desc → Nat → Nat
  | [], i => i
  | d :: ds, i => if d.block_size ≥ size then i else find_desc size ds (i + 1)

/-- The search `for (t = d; t < descs + desc_cnt; t++) if (!list_empty (&t->free_list)) ...`
over the table from index `i` on: the index it stops at (`desc_cnt` when `result` stays 0). -/
def find_nonempty : List desc → Nat → Nat
  | [], i => i
  | d :: ds, i => if d.free_list ≠ [] then i else find_nonempty ds (i + 1)

/-- Obtains and returns a new block of at least `size` bytes; returns the null pointer `0`
if memory is not available. `pg` is what the page source answers if it is asked. -/
def malloc (pg : Nat) (size : Nat) (s : State) : Except Fault (Nat × State) :=
  if size = 0 then .ok (0, s)
  else
    let size := (size + SIZEOF_BLOCK) % WORD
    let d := find_desc size s.descs 0
    if d = s.desc_cnt then
      let page_cnt := DIV_ROUND_UP ((size + SIZEOF_ARENA) % WORD) PGSIZE
      let a := pg
      if a = 0 then .ok (0, s)
      else
        .ok (a + SIZEOF_ARENA,
          { s.setArena a { magic := ARENA_MAGIC, desc := none, free_cnt := page_cnt } with
            pages := s.pages ++ page_run a page_cnt })
    else do
      let s1 ←
        if s.freeList d = [] then do
          let t := find_nonempty (s.descs.drop d) d
          if t = s.desc_cnt then
            let a := pg
            if a = 0 then .error .null_elem
            else do
              let s1 : State := { s with arena_list := s.arena_list ++ [a], pages := s.pages ++ [a] }
              let t := s.desc_cnt - 1
              let td ← getDesc s1 t
              let s2 := s1.setArena a
                { magic := ARENA_MAGIC, desc := some 0, free_cnt := td.blocks_per_arena }
              let b ← arena_to_block s2 a 0
              let s3 := s2.storeSize b td.block_size
              let s4 := s3.setFreeList t (s3.freeList t ++ [b])
              malloc_breakdown t d s4
          else malloc_breakdown t d s
        else pure s
      match s1.freeList d with
      | [] => .error .pop_empty
      | b :: rest => do
        let s2 := s1.setFreeList d rest
        let a ← block_to_arena s2 b
        let s3 := s2.decFreeCnt a
        printMemory s3
        pure (b + SIZEOF_BLOCK, s3)

/-- Allocates and returns `a` times `b` bytes initialized to zeroes; returns the null
pointer if memory is not available. -/
def calloc (pg : Nat) (a b : Nat) (s : State) : Except Fault (Nat × State) :=
  let size := a * b % WORD
  if size < a ∨ size < b then .ok (0, s)
  else do
    let (p, s1) ← malloc pg size s
    if p ≠ 0 then pure (p, s1.setMem (memset s1.mem p 0 size))
    else pure (p, s1)

/-- Returns the number of bytes allocated for `block`: the field `size` of the
`struct block` that starts at the pointer it is given. -/
def block_size (s : State) (block : Nat) : Nat := s.loadSize block

/-- The loop `for (block_size = 16; block_size < PGSIZE / 2; block_size *= 2)` of `free`,
which counts in `index` the classes smaller than `size`. -/
def free_index : Nat → Nat → Nat → Nat → Nat
  | 0, _, _, index => index
  | fuel + 1, size, block_size, index =>
    if block_size < PGSIZE / 2 then
      if block_size ≥ size then index
      else free_index fuel size (block_size * 2 % WORD) (index + 1)
    else index

/-- The merge step shared by the two branches of `free_buildup`: buddies `b1 < b2` leave
the list of class `d` (which becomes `l`), the freed block `b` is filled with `0xcc`, and
the parent `b1` enters class `d + 1`. -/
def merge_up (s : State) (d b b1 b2 : Nat) (l : List Nat) (bs : Nat) :
    Except Fault State := do
  let a1 ← block_to_arena s b1
  let s1 := (s.setFreeList d (l.erase b1)).decFreeCnt a1
  let a2 ← block_to_arena s1 b2
  let s2 := (s1.setFreeList d ((l.erase b1).erase b2)).decFreeCnt a2
  let s3 := s2.setMem (memset s2.mem b 204 bs)
  let s4 := s3.storeSize b1 (bs * 2 % WORD)
  let s5 := s4.insertFree (d + 1) b1
  let a ← block_to_arena s5 b1
  pure (s5.incFreeCnt a)

/-- The free helper that merges child blocks into bigger blocks. It returns 1 when it is
entered at the top class. Every other exit is a `return;` statement without a value, after
`lock_release` and after the recursive call alike: the caller then reads `junk`, the
value the return register happens to hold. -/
def free_buildup (junk : Int) : Nat → Nat → Nat → State → Except Fault (Int × State)
  | 0, _, _, _ => .error .out_of_fuel
  | fuel + 1, b, d, s => do
    let dd ← getDesc s d
    let top ← getDesc s (s.desc_cnt - 1)
    if dd.block_size = top.block_size then pure (1, s)
    else
      let l := dd.free_list
      if b ∉ l then .error .not_linked
      else do
        let pre := l.takeWhile (· ≠ b)
        let post := (l.dropWhile (· ≠ b)).tail
        let a ← block_to_arena s b
        if dd.block_size = 0 then .error .div_zero
        else
          let index := (b + WORD - (a + SIZEOF_ARENA)) % WORD / dd.block_size
          match (if index % 2 = 1 then pre.getLast? else none) with
          | some f =>
            if b = f + dd.block_size then do
              let s1 ← merge_up s d b f b l dd.block_size
              let r ← free_buildup junk fuel f (d + 1) s1
              pure (junk, r.2)
            else pure (junk, s)
          | none =>
            if index % 2 = 0 then
              match post with
              | [] => pure (junk, s)
              | f :: _ =>
                if f = b + dd.block_size then do
                  let s1 ← merge_up s d b b f l dd.block_size
                  let r ← free_buildup junk fuel b (d + 1) s1
                  pure (junk, r.2)
                else pure (junk, s)
            else pure (junk, s)

/-- Frees block `p`, which must have been previously allocated with malloc(), calloc(),
or realloc(). -/
def free (junk : Int) (p : Nat) (s : State) : Except Fault State :=
  if p = 0 then do
    printMemory s
    pure s
  else do
    let b := (p + WORD - SIZEOF_BLOCK) % WORD
    let a ← block_to_arena s b
    let size := s.loadSize b
    let size := if size ≥ 2147483648 then p % 256 else size
    let index := free_index 32 size 16 0
    match (s.arenas a).desc with
    | some _ => do
      let _ ← getDesc s index
      let s1 := (s.insertFree index b).incFreeCnt a
      let (res, s2) ← free_buildup junk s1.desc_cnt b index s1
      let top ← getDesc s2 (s2.desc_cnt - 1)
      let s3 ←
        if res = 1 ∧ (s2.arenas a).free_cnt = top.blocks_per_arena then do
          let b0 ← arena_to_block s2 a 0
          let s3 := s2.unlinkBlock b0
          pure { s3 with arena_list := s3.arena_list.erase a, pages := s3.pages.erase a }
        else pure s2
      printMemory s3
      pure s3
    | none =>
      pure { s with pages := s.pages.filter fun x => x ∉ page_run a (s.arenas a).free_cnt }

/-- Attempts to resize `old_block` to `new_size` bytes, possibly moving it in the process.
Returns the new block, or the null pointer on failure. -/
def realloc (junk : Int) (pg : Nat) (old_block new_size : Nat) (s : State) :
    Except Fault (Nat × State) :=
  if new_size = 0 then do
    let s1 ← free junk old_block s
    pure (0, s1)
  else do
    let (new_block, s1) ← malloc pg new_size s
    if old_block ≠ 0 ∧ new_block ≠ 0 then do
      let old_size := block_size s1 old_block
      let min_size := if new_size < old_size then new_size else old_size
      let s2 := s1.setMem (memcpy s1.mem new_block old_block min_size)
      let s3 ← free junk old_block s2
      pure (new_block, s3)
    else pure (new_block, s1)

/-! ## Observations -/

/-- What the allocator state shows between calls: the free list of every class, the
registry, the `free_cnt` of every registered arena, and the pages held. -/
structure View where
  /-- The free list of each class. -/
  free_lists : List (List Nat)
  /-- The arena registry. -/
  arena_list : List Nat
  /-- The field `free_cnt` of each registered arena, in registry order. -/
  free_cnts : List Nat
  /-- The pages held from the page source. -/
  pages : List Nat
deriving DecidableEq, Repr

/-- The observable part of a state. -/
def State.view (s : State) : View :=
  { free_lists := s.descs.map (·.free_list),
    arena_list := s.arena_list,
    free_cnts := s.arena_list.map fun a => (s.arenas a).free_cnt,
    pages := s.pages }

/-! ## Concrete states and scenarios -/

/-- The descriptor table and the empty registry that `malloc_init` leaves, with the given
contents of memory. -/
def post_init (ar : Nat → arena) (m : Nat → Nat) : State :=
  { descs := [⟨16, 254, []⟩, ⟨32, 127, []⟩, ⟨64, 63, []⟩, ⟨128, 31, []⟩, ⟨256, 15, []⟩,
              ⟨512, 7, []⟩, ⟨1024, 3, []⟩],
    arena_list := [], arenas := ar, mem := m, pages := [] }

/-- Arena headers of a memory that holds only zero bytes. -/
def arena0 : Nat → arena := fun _ => ⟨0, none, 0⟩

/-- A memory that holds only zero bytes. -/
def mem0 : Nat → Nat := fun _ => 0

/-- A page of the kernel pool, `0xc0100000`. -/
def pageA : Nat := 3222274048

/-- The post-init state over a zeroed memory. -/
def state0 : State := post_init arena0 mem0

/-- The caller stores the bytes `vs` from address `p` on. -/
def write_bytes (m : Nat → Nat) (p : Nat) : List Nat → Nat → Nat
  | [], x => m x
  | v :: vs, x => if x = p then v else write_bytes m (p + 1) vs x

/-- The `n` bytes from address `p` on. -/
def read_bytes (m : Nat → Nat) (p : Nat) : Nat → List Nat
  | 0 => []
  | n + 1 => m p :: read_bytes m (p + 1) n

/-- A 16-byte pattern whose bytes 8 to 11 are zero. -/
def pattern16 : List Nat := [165, 165, 165, 165, 165, 165, 165, 165, 0, 0, 0, 0, 165, 165, 165, 165]

/-- The state after `malloc (8)` in `state0`, served from the page `pageA`. -/
def state1 : State :=
  match malloc pageA 8 state0 with
  | .ok r => r.2
  | .error _ => state0

/-- The state after `malloc (8)` and `free` of the pointer it returned. -/
def state2 : State :=
  match free 0 (pageA + 32) state1 with
  | .ok s => s
  | .error _ => state0

/-- The state a call of `malloc` that returns leaves behind. -/
def after_malloc (pg n : Nat) (s : State) : State :=
  match malloc pg n s with
  | .ok r => r.2
  | .error _ => s

/-- The state a call of `free` that returns leaves behind. -/
def after_free (junk : Int) (p : Nat) (s : State) : State :=
  match free junk p s with
  | .ok s1 => s1
  | .error _ => s

/-- Both 512-byte blocks of the page `pageA` are live: `malloc (500)` twice in `state0`. -/
def two_live : State := after_malloc 0 500 (after_malloc pageA 500 state0)

/-- The first block is freed while the return register holds 1 at the value-less returns
of `free_buildup`: the page is given back with the second block live. -/
def released : State := after_free 1 (pageA + 32) two_live

/-- The second block is freed as well. -/
def all_freed : State := after_free 1 (pageA + 544) released

/-- After the early release, `malloc (1000)` is served from the page `pageA`, which the
page source hands out again. -/
def overlap : State := after_malloc pageA 1000 released

/-- After both blocks are freed, `malloc (1000)` is served from the page `pageA`, which
the page source hands out again. -/
def reissued : State := after_malloc pageA 1000 all_freed

/-- After the early release, `malloc (500)` is served from the page `pageA`, which the
page source hands out again. -/
def reused : State := after_malloc pageA 500 released

/-- From `overlap`, the block of the first round is freed: the page is given back a second
time, now with the 1024-byte block live. -/
def stranded : State := after_free 1 (pageA + 544) overlap

/-- The 1024-byte block is freed too: no pointer is live. -/
def top_stale : State := after_free 1 (pageA + 32) stranded

/-! ## Blocks, tilings and the invariant -/

/-- Block size of class `i`, as `malloc_init` sets it: 16, 32, ..., 1024 for `i < 7`. -/
def bsz (i : Nat) : Nat := 16 * 2 ^ i

/-- The descriptor table holds the seven classes of `malloc_init`. -/
def Table (s : State) : Prop :=
  s.descs.map (fun d => (d.block_size, d.blocks_per_arena)) =
    [(16, 254), (32, 127), (64, 63), (128, 31), (256, 15), (512, 7), (1024, 3)]

/-- Block `b` of class `i` is well placed in the page at `a`: it lies in the top block of
the page, at a multiple of its class size from the end of the arena header. -/
def Blk (a b i : Nat) : Prop :=
  i < 7 ∧ a + 20 ≤ b ∧ (b - (a + 20)) % bsz i = 0 ∧ b + bsz i ≤ a + 1044

/-- Block `b` is on the free list of class `i`. -/
def FreeB (s : State) (b i : Nat) : Prop := i < 7 ∧ b ∈ s.freeList i

/-- Block `b` is live with class `i`: its user pointer is in `L` and its header records the
block size of class `i`. -/
def LiveB (s : State) (L : List Nat) (b i : Nat) : Prop :=
  i < 7 ∧ b + 12 ∈ L ∧ s.loadSize b = bsz i

/-- Block `b` of class `i` is free or live. -/
def Used (s : State) (L : List Nat) (b i : Nat) : Prop := FreeB s b i ∨ LiveB s L b i

/-- The blocks `U` tile the top blocks of the pages `R`: each block is well placed in a
page of `R`, distinct blocks do not overlap, and every byte of a top block is in a
block. -/
structure Tiling (R : List Nat) (U : Nat → Nat → Prop) : Prop where
  /-- Every block is well placed in a registered page. -/
  place : ∀ b i, U b i → pg_round_down b ∈ R ∧ Blk (pg_round_down b) b i
  /-- Distinct blocks do not overlap. -/
  disj : ∀ b i b1 i1, U b i → U b1 i1 → (b ≠ b1 ∨ i ≠ i1) →
    b + bsz i ≤ b1 ∨ b1 + bsz i1 ≤ b
  /-- Every byte of a top block lies in a block. -/
  cover : ∀ a ∈ R, ∀ x, a + 20 ≤ x → x < a + 1044 → ∃ b i, U b i ∧ b ≤ x ∧ x < b + bsz i

/-- Number of blocks of the page at `a` on the free list of class `i`. -/
def cntAt (s : State) (i a : Nat) : Nat :=
  (s.freeList i).countP fun b => decide (pg_round_down b = a)

/-- Number of blocks of the page at `a` on all free lists. -/
def freeCount (s : State) (a : Nat) : Nat :=
  cntAt s 0 a + cntAt s 1 a + cntAt s 2 a + cntAt s 3 a + cntAt s 4 a + cntAt s 5 a + cntAt s 6 a

/-- Start of the buddy of block `b` at class `i`: the block after `b` when the buddy-index
of `b` is even, the block before it when the index is odd. -/
def buddy (b i : Nat) : Nat :=
  if (b - (pg_round_down b + 20)) / bsz i % 2 = 0 then b + bsz i else b - bsz i

/-- The structural part of the invariant, for the state `s` and the live user pointers
`L`. -/
structure WF (s : State) (L : List Nat) : Prop where
  /-- The descriptor table is the one of `malloc_init`. -/
  table : Table s
  /-- Every free list is strictly ascending. -/
  sorted : ∀ i, (s.freeList i).Pairwise (· < ·)
  /-- Every registered page is held from the page source. -/
  pages_eq : ∀ a ∈ s.arena_list, a ∈ s.pages
  /-- No page is registered twice. -/
  reg_nodup : s.arena_list.Nodup
  /-- Registered pages are page-aligned, non-null addresses of the 32-bit space. -/
  reg_ok : ∀ a ∈ s.arena_list, a ≠ 0 ∧ a % 4096 = 0 ∧ a + 4096 ≤ WORD
  /-- Headers of registered arenas: magic, descriptor, and `free_cnt`, which is the number
  of free blocks of the page plus two. -/
  hdr : ∀ a ∈ s.arena_list, (s.arenas a).magic = ARENA_MAGIC ∧ (s.arenas a).desc = some 0 ∧
    (s.arenas a).free_cnt = (freeCount s a + 2) % WORD
  /-- The header of a free block records the block size of its class. -/
  fsize : ∀ b i, FreeB s b i → s.loadSize b = bsz i
  /-- No pointer is live twice. -/
  live_nodup : L.Nodup
  /-- The header of a live block records the block size of some class. -/
  live_cls : ∀ p ∈ L, 12 ≤ p ∧ ∃ i, i < 7 ∧ s.loadSize (p - 12) = bsz i
  /-- A free block is not live. -/
  excl : ∀ b i, FreeB s b i → b + 12 ∉ L
  /-- Free and live blocks tile the top blocks of the registered pages. -/
  tiling : Tiling s.arena_list (Used s L)

/-- Every free block below the top class, other than the block `m` in transit, has a
live block (or `m`) inside its buddy: coalescing has been carried as far as possible. -/
def Paired (s : State) (L : List Nat) (m : Option (Nat × Nat)) : Prop :=
  ∀ b i, FreeB s b i → i < 6 → some (b, i) ≠ m →
    (∃ b1 i1, LiveB s L b1 i1 ∧ buddy b i ≤ b1 ∧ b1 + bsz i1 ≤ buddy b i + bsz i) ∨
    (∃ mb mi, m = some (mb, mi) ∧ buddy b i ≤ mb ∧ mb + bsz mi ≤ buddy b i + bsz i)

/-- The free list of the top class holds at most the block `m` in transit. -/
def TopFree (s : State) (m : Option (Nat × Nat)) : Prop :=
  ∀ x ∈ s.freeList 6, m = some (x, 6)

/-- The invariant while block `m` is in transit (`none` between calls). -/
structure Inv (s : State) (L : List Nat) (m : Option (Nat × Nat)) : Prop where
  /-- The structural part. -/
  wf : WF s L
  /-- Coalescing is complete, up to `m`. -/
  paired : Paired s L m
  /-- The top free list holds at most `m`. -/
  top : TopFree s m

/-- The page source answers with a page that is not null, page-aligned, inside the 32-bit
address space, and not already held. -/
def PageOK (s : State) (pg : Nat) : Prop :=
  pg ≠ 0 ∧ pg % 4096 = 0 ∧ pg + 4096 ≤ WORD ∧ pg ∉ s.pages

/-- The page source answers a request for `cnt` pages with a run that is not null,
page-aligned, inside the 32-bit address space, and of which no page is already held. -/
def RunOK (s : State) (pg cnt : Nat) : Prop :=
  0 < cnt ∧ pg ≠ 0 ∧ pg % 4096 = 0 ∧ pg + 4096 * cnt ≤ WORD ∧
    ∀ q ∈ page_run pg cnt, q ∉ s.pages

/-- The split path of `malloc (n)` has to ask for a page: no class that can serve the
request has a free block. -/
def NeedsPage (s : State) (n : Nat) : Prop :=
  ∀ j, find_desc ((n + SIZEOF_BLOCK) % WORD) s.descs 0 ≤ j → s.freeList j = []

/-- The number of pages the huge path of `malloc (n)` asks for. -/
def page_cnt (n : Nat) : Nat :=
  DIV_ROUND_UP (((n + SIZEOF_BLOCK) % WORD + SIZEOF_ARENA) % WORD) PGSIZE

/-- The state after the huge path of `malloc` has set up the run of `cnt` pages at `a`. -/
def huge_state (s : State) (a cnt : Nat) : State :=
  { s.setArena a { magic := ARENA_MAGIC, desc := none, free_cnt := cnt } with
    pages := s.pages ++ page_run a cnt }

/-- The caller stores the byte `v` at address `x`. -/
def State.poke (s : State) (x v : Nat) : State :=
  s.setMem fun y => if y = x then v else s.mem y

/-- Address `x` lies in a region `malloc` has handed out: behind the header of a live
block of a split page, or behind the arena header of a live run of pages. -/
def Writable (s : State) (L : List Nat) (H : List (Nat × Nat)) (x : Nat) : Prop :=
  (∃ p ∈ L, p ≤ x ∧ x < p - 12 + s.loadSize (p - 12)) ∨
  (∃ r ∈ H, r.1 + 20 ≤ x ∧ x < r.1 + 4096 * r.2)

/-- The states reachable from `malloc_init` by calls of `malloc` that succeed, calls of
`free` on live pointers of split pages that return, and stores of the caller into the
regions it has been given. `L` lists the live pointers of split pages, `H` the live runs
of pages of the huge path. The page source answers with pages it does not hold. Calls
that return the null pointer and `free (NULL)` leave the state as it is. -/
inductive Reach (junk : Int) : State → List Nat → List (Nat × Nat) → Prop where
  /-- The state after `malloc_init`, over any contents of memory. -/
  | init (ar : Nat → arena) (m : Nat → Nat) : Reach junk (post_init ar m) [] []
  /-- A call of `malloc` on the split path. -/
  | malloc {s : State} {L : List Nat} {H : List (Nat × Nat)} (pg n p : Nat) (s1 : State) :
      Reach junk s L H → n ≠ 0 → (n + SIZEOF_BLOCK) % WORD ≤ 1024 →
      (NeedsPage s n → PageOK s pg) → malloc pg n s = .ok (p, s1) →
      Reach junk s1 (p :: L) H
  /-- A call of `malloc` on the huge path that is given a run of pages. -/
  | malloc_huge {s : State} {L : List Nat} {H : List (Nat × Nat)} (pg n p : Nat)
      (s1 : State) :
      Reach junk s L H → n ≠ 0 → 1024 < (n + SIZEOF_BLOCK) % WORD →
      RunOK s pg (page_cnt n) → malloc pg n s = .ok (p, s1) →
      Reach junk s1 L ((pg, page_cnt n) :: H)
  /-- A call of `free` on a live pointer of a split page. -/
  | free {s : State} {L : List Nat} {H : List (Nat × Nat)} (p : Nat) (s1 : State) :
      Reach junk s L H → p ∈ L → free junk p s = .ok s1 → Reach junk s1 (L.erase p) H
  /-- A store of the caller into a region it has been given. -/
  | write {s : State} {L : List Nat} {H : List (Nat × Nat)} (x v : Nat) :
      Reach junk s L H → Writable s L H x → Reach junk (s.poke x v) L H

/-- The blocks of split pages that are free or live: the free lists of the seven classes
and the headers of the live pointers. -/
def all_blocks (s : State) (L : List Nat) : List Nat :=
  s.freeList 0 ++ s.freeList 1 ++ s.freeList 2 ++ s.freeList 3 ++ s.freeList 4 ++
    s.freeList 5 ++ s.freeList 6 ++ L.map (· - 12)

/-! ## The states between the steps of `malloc` and `free` -/

/-- The state after `malloc` has popped block `b` from the front of class `d`. -/
def alloc_state (s : State) (d b : Nat) : State :=
  (s.setFreeList d (s.freeList d).tail).decFreeCnt (pg_round_down b)

/-- The state after one round of `malloc_breakdown`: the front block `b` of class `t + 1`
is replaced by its two halves on the list of class `t`. -/
def split_state (s : State) (t b : Nat) : State :=
  let a := pg_round_down b
  let s2 := (s.setFreeList (t + 1) (s.freeList (t + 1)).tail).decFreeCnt a
  let s3 := (s2.storeSize b (bsz t)).storeSize (b + bsz t) (bsz t)
  let s4 := (s3.insertFree t b).incFreeCnt a
  (s4.insertFree t (b + bsz t)).incFreeCnt a

/-- The state after `malloc` has installed the new page `a` with one top block. -/
def newpage_state (s : State) (a : Nat) : State :=
  let s1 : State := { s with arena_list := s.arena_list ++ [a], pages := s.pages ++ [a] }
  let s2 := s1.setArena a { magic := ARENA_MAGIC, desc := some 0, free_cnt := 3 }
  let s3 := s2.storeSize (a + 20) 1024
  s3.setFreeList 6 (s3.freeList 6 ++ [a + 20])

/-- The state after `free` has put block `b` on the list of class `i`. -/
def free_state (s : State) (i b : Nat) : State :=
  (s.insertFree i b).incFreeCnt (pg_round_down b)

/-- The state after one merge of `free_buildup`: the buddies `b1` and `b1 + bsz c` leave
class `c`, the freed block `b` is filled, and `b1` enters class `c + 1`. -/
def merge_state (s : State) (c b b1 : Nat) : State :=
  let a := pg_round_down b1
  let l := s.freeList c
  let s1 := (s.setFreeList c (l.erase b1)).decFreeCnt a
  let s2 := (s1.setFreeList c ((l.erase b1).erase (b1 + bsz c))).decFreeCnt a
  let s3 := s2.setMem (memset s2.mem b 204 (bsz c))
  let s4 := s3.storeSize b1 (bsz c * 2 % WORD)
  (s4.insertFree (c + 1) b1).incFreeCnt a

/-- The state after `free` has released the page `a`. -/
def release_state (s : State) (a : Nat) : State :=
  let s3 := s.unlinkBlock (a + 20)
  { s3 with arena_list := s3.arena_list.erase a, pages := s3.pages.erase a }

/-- The first half of the split path of `malloc`, for the chosen class `d`: when the free
list of `d` is empty, split a larger free block, or a new page, down to `d`. -/
def malloc_refill (pg d : Nat) (s : State) : Except Fault State :=
  if s.freeList d = [] then
    let t := find_nonempty (s.descs.drop d) d
    if t = s.desc_cnt then
      let a := pg
      if a = 0 then .error .null_elem
      else do
        let s1 : State := { s with arena_list := s.arena_list ++ [a], pages := s.pages ++ [a] }
        let t := s.desc_cnt - 1
        let td ← getDesc s1 t
        let s2 := s1.setArena a
          { magic := ARENA_MAGIC, desc := some 0, free_cnt := td.blocks_per_arena }
        let b ← arena_to_block s2 a 0
        let s3 := s2.storeSize b td.block_size
        let s4 := s3.setFreeList t (s3.freeList t ++ [b])
        malloc_breakdown t d s4
    else malloc_breakdown t d s
  else pure s

/-- The second half of the split path of `malloc`: pop the front block of class `d`. -/
def malloc_take (d : Nat) (s1 : State) : Except Fault (Nat × State) :=
  match s1.freeList d with
  | [] => .error .pop_empty
  | b :: rest => do
    let s2 := s1.setFreeList d rest
    let a ← block_to_arena s2 b
    let s3 := s2.decFreeCnt a
    printMemory s3
    pure (b + SIZEOF_BLOCK, s3)

/-- The state after `k` rounds of `malloc_breakdown` on the block `b` of class `d + k`. -/
def splits (d b : Nat) : Nat → State → State
  | 0, s => s
  | k + 1, s => splits d b k (split_state s (d + k) b)

/-! ## Lock events

The routines once more, with the calls of `lock_acquire` and `lock_release` written out.
Each routine takes the events recorded so far and returns the events recorded when it
returns or stops, together with its outcome. The steps between the events are those of the
routines above. -/

/-- A lock event of a call, on the lock of `descs[i]`. -/
inductive LockEv where
  /-- The call `lock_acquire (&descs[i].lock)`. -/
  | acquire (i : Nat)
  /-- The call `lock_release (&descs[i].lock)`. -/
  | release (i : Nat)
deriving DecidableEq, Repr

/-- A step that takes no lock, followed by the rest of the routine: a fault ends the call
with the events `tr` recorded so far. -/
def andThen {α β : Type} (x : Except Fault α) (tr : List LockEv)
    (k : α → List LockEv × Except Fault β) : List LockEv × Except Fault β :=
  match x with
  | .ok a => k a
  | .error e => (tr, .error e)

/-- A nested call, followed by the rest of the routine, which goes on from the events and
the value of the call: a fault in the call ends the routine with the events of the call. -/
def afterCall {α β : Type} (x : List LockEv × Except Fault α)
    (k : List LockEv → α → List LockEv × Except Fault β) : List LockEv × Except Fault β :=
  match x.2 with
  | .ok a => k x.1 a
  | .error e => (x.1, .error e)

/-- The routine `malloc_breakdown` with its lock events: the lock of `t` is held for the pop
and the decrement, the lock of the class below for the two inserts. At class 0 the
descriptor pointer leaves the table after the lock of class 0 is released. -/
def malloc_breakdown_locks :
    Nat → Nat → State → List LockEv → List LockEv × Except Fault State
  | 0, d, s, tr =>
    andThen (getDesc s 0) tr fun td =>
    andThen (getDesc s d) tr fun dd =>
    if td.block_size = dd.block_size then (tr, .ok s)
    else
      let tr1 := tr ++ [.acquire 0]
      match td.free_list with
      | [] => (tr1, .error .pop_empty)
      | b :: rest =>
        andThen (block_to_arena (s.setFreeList 0 rest) b) tr1 fun _ =>
        (tr1 ++ [.release 0], .error .desc_range)
  | t + 1, d, s, tr =>
    andThen (getDesc s (t + 1)) tr fun td =>
    andThen (getDesc s d) tr fun dd =>
    if td.block_size = dd.block_size then (tr, .ok s)
    else
      let tr1 := tr ++ [.acquire (t + 1)]
      match td.free_list with
      | [] => (tr1, .error .pop_empty)
      | b :: rest =>
        let s1 := s.setFreeList (t + 1) rest
        andThen (block_to_arena s1 b) tr1 fun a =>
        let s2 := s1.decFreeCnt a
        let tr2 := tr1 ++ [.release (t + 1)]
        andThen (getDesc s2 t) tr2 fun nd =>
        let b2 := b + nd.block_size
        let s3 := (s2.storeSize b nd.block_size).storeSize b2 nd.block_size
        let tr3 := tr2 ++ [.acquire t]
        andThen (block_to_arena s3 b) tr3 fun a1 =>
        let s4 := (s3.insertFree t b).incFreeCnt a1
        andThen (block_to_arena s4 b2) tr3 fun a2 =>
        let s5 := (s4.insertFree t b2).incFreeCnt a2
        malloc_breakdown_locks t d s5 (tr3 ++ [.release t])

/-- The routine `malloc` with its lock events. The lock of `d` is held while the free lists
are searched, the lock of the top class while the block of a new page is set up, the lock
of `d` once more for the final pop. The huge path and the null returns take no lock. -/
def malloc_locks (pg : Nat) (size : Nat) (s : State) :
    List LockEv × Except Fault (Nat × State) :=
  if size = 0 then ([], .ok (0, s))
  else
    let size := (size + SIZEOF_BLOCK) % WORD
    let d := find_desc size s.descs 0
    if d = s.desc_cnt then
      let page_cnt := DIV_ROUND_UP ((size + SIZEOF_ARENA) % WORD) PGSIZE
      let a := pg
      if a = 0 then ([], .ok (0, s))
      else
        ([], .ok (a + SIZEOF_ARENA,
          { s.setArena a { magic := ARENA_MAGIC, desc := none, free_cnt := page_cnt } with
            pages := s.pages ++ page_run a page_cnt }))
    else
      let tr1 : List LockEv := [.acquire d]
      afterCall
        (if s.freeList d = [] then
          let t := find_nonempty (s.descs.drop d) d
          let tr2 := tr1 ++ [.release d]
          if t = s.desc_cnt then
            let a := pg
            if a = 0 then (tr2, .error .null_elem)
            else
              let s1 : State :=
                { s with arena_list := s.arena_list ++ [a], pages := s.pages ++ [a] }
              let t := s.desc_cnt - 1
              andThen (getDesc s1 t) tr2 fun td =>
              let tr3 := tr2 ++ [.acquire t]
              let s2 := s1.setArena a
                { magic := ARENA_MAGIC, desc := some 0, free_cnt := td.blocks_per_arena }
              andThen (arena_to_block s2 a 0) tr3 fun b =>
              let s3 := s2.storeSize b td.block_size
              let s4 := s3.setFreeList t (s3.freeList t ++ [b])
              malloc_breakdown_locks t d s4 (tr3 ++ [.release t])
          else malloc_breakdown_locks t d s tr2
        else (tr1 ++ [.release d], .ok s))
        fun tr4 s1 =>
        let tr5 := tr4 ++ [.acquire d]
        match s1.freeList d with
        | [] => (tr5, .error .pop_empty)
        | b :: rest =>
          let s2 := s1.setFreeList d rest
          andThen (block_to_arena s2 b) tr5 fun a =>
          let s3 := s2.decFreeCnt a
          let tr6 := tr5 ++ [.release d]
          andThen (printMemory s3) tr6 fun _ =>
          (tr6, .ok (b + SIZEOF_BLOCK, s3))

/-- The merge step of `free_buildup` with its lock events: it is entered with the lock of
`d` held; the buddies leave the list under that lock, and the parent enters the list of
class `d + 1` under the lock of `d + 1`. -/
def merge_up_locks (s : State) (d b b1 b2 : Nat) (l : List Nat) (bs : Nat)
    (tr : List LockEv) : List LockEv × Except Fault State :=
  andThen (block_to_arena s b1) tr fun a1 =>
  let s1 := (s.setFreeList d (l.erase b1)).decFreeCnt a1
  andThen (block_to_arena s1 b2) tr fun a2 =>
  let s2 := (s1.setFreeList d ((l.erase b1).erase b2)).decFreeCnt a2
  let tr1 := tr ++ [.release d]
  let s3 := s2.setMem (memset s2.mem b 204 bs)
  let s4 := s3.storeSize b1 (bs * 2 % WORD)
  let tr2 := tr1 ++ [.acquire (d + 1)]
  let s5 := s4.insertFree (d + 1) b1
  andThen (block_to_arena s5 b1) tr2 fun a =>
  (tr2 ++ [.release (d + 1)], .ok (s5.incFreeCnt a))

/-- The routine `free_buildup` with its lock events: at the top class it takes no lock;
below, the lock of `d` is taken before the list is searched and released on every way
out, before the `return;` and, in a merge, before the lock of `d + 1` is taken. -/
def free_buildup_locks (junk : Int) :
    Nat → Nat → Nat → State → List LockEv → List LockEv × Except Fault (Int × State)
  | 0, _, _, _, tr => (tr, .error .out_of_fuel)
  | fuel + 1, b, d, s, tr =>
    andThen (getDesc s d) tr fun dd =>
    andThen (getDesc s (s.desc_cnt - 1)) tr fun top =>
    if dd.block_size = top.block_size then (tr, .ok (1, s))
    else
      let tr1 := tr ++ [.acquire d]
      let l := dd.free_list
      if b ∉ l then (tr1, .error .not_linked)
      else
        let pre := l.takeWhile (· ≠ b)
        let post := (l.dropWhile (· ≠ b)).tail
        andThen (block_to_arena s b) tr1 fun a =>
        if dd.block_size = 0 then (tr1, .error .div_zero)
        else
          let index := (b + WORD - (a + SIZEOF_ARENA)) % WORD / dd.block_size
          match (if index % 2 = 1 then pre.getLast? else none) with
          | some f =>
            if b = f + dd.block_size then
              afterCall (merge_up_locks s d b f b l dd.block_size tr1) fun tr2 s1 =>
              afterCall (free_buildup_locks junk fuel f (d + 1) s1 tr2) fun tr3 r =>
              (tr3, .ok (junk, r.2))
            else (tr1 ++ [.release d], .ok (junk, s))
          | none =>
            if index % 2 = 0 then
              match post with
              | [] => (tr1 ++ [.release d], .ok (junk, s))
              | f :: _ =>
                if f = b + dd.block_size then
                  afterCall (merge_up_locks s d b b f l dd.block_size tr1) fun tr2 s1 =>
                  afterCall (free_buildup_locks junk fuel b (d + 1) s1 tr2) fun tr3 r =>
                  (tr3, .ok (junk, r.2))
                else (tr1 ++ [.release d], .ok (junk, s))
            else (tr1 ++ [.release d], .ok (junk, s))

/-- The routine `free` with its lock events: the lock of the block's class for the insert,
the locks of `free_buildup`, and the lock of the top class for the test and the release
of the page. The null pointer and a big block take no lock. -/
def free_locks (junk : Int) (p : Nat) (s : State) : List LockEv × Except Fault State :=
  if p = 0 then
    andThen (printMemory s) [] fun _ => ([], .ok s)
  else
    let b := (p + WORD - SIZEOF_BLOCK) % WORD
    andThen (block_to_arena s b) [] fun a =>
    let size := s.loadSize b
    let size := if size ≥ 2147483648 then p % 256 else size
    let index := free_index 32 size 16 0
    match (s.arenas a).desc with
    | some _ =>
      andThen (getDesc s index) [] fun _ =>
      let tr1 : List LockEv := [.acquire index]
      let s1 := (s.insertFree index b).incFreeCnt a
      let tr2 := tr1 ++ [.release index]
      afterCall (free_buildup_locks junk s1.desc_cnt b index s1 tr2) fun tr3 r =>
      andThen (getDesc r.2 (r.2.desc_cnt - 1)) tr3 fun top =>
      let tr4 := tr3 ++ [.acquire (r.2.desc_cnt - 1)]
      afterCall
        (if r.1 = 1 ∧ (r.2.arenas a).free_cnt = top.blocks_per_arena then
          andThen (arena_to_block r.2 a 0) tr4 fun b0 =>
          let s3 := r.2.unlinkBlock b0
          (tr4, .ok { s3 with arena_list := s3.arena_list.erase a, pages := s3.pages.erase a })
        else (tr4, .ok r.2))
        fun tr5 s3 =>
        let tr6 := tr5 ++ [.release (r.2.desc_cnt - 1)]
        andThen (printMemory s3) tr6 fun _ => (tr6, .ok s3)
    | none =>
      ([], .ok { s with pages := s.pages.filter fun x => x ∉ page_run a (s.arenas a).free_cnt })

/-- The locks held after one more lock event, the latest first: `lock_acquire` adds its lock,
`lock_release` takes one occurrence of its lock away. -/
def heldStep (h : List Nat) : LockEv → List Nat
  | .acquire i => i :: h
  | .release i => h.erase i

/-- The locks held after a sequence of lock events that starts with no lock held. -/
def held (tr : List LockEv) : List Nat := tr.foldl heldStep []

/-- The lock discipline of a sequence of lock events: before and after every event at most
one lock is held, and no `lock_acquire` is on a lock that is held. -/
def Disciplined (tr : List LockEv) : Prop :=
  ∀ k, (held (tr.take k)).length ≤ 1 ∧
    ∀ i, tr[k]? = some (.acquire i) → i ∉ held (tr.take k)

/-- The lock held after the events `tr`, when `h` is held before them: `none` once an event
breaks the discipline, a `lock_acquire` while a lock is held or a `lock_release` of a lock
that is not held. -/
def lockRun : Option Nat → List LockEv → Option (Option Nat)
  | h, [] => some h
  | none, .acquire i :: es => lockRun (some i) es
  | some _, .acquire _ :: _ => none
  | some j, .release i :: es => if i = j then lockRun none es else none
  | none, .release _ :: _ => none

/-- A routine with lock events has come to rest: if it returned, no lock is held and the
discipline was kept; if it stopped in a fault, the discipline was kept up to the fault. -/
def Settled {α : Type} (out : List LockEv × Except Fault α) : Prop :=
  match out.2 with
  | .ok _ => lockRun none out.1 = some none
  | .error _ => ∃ hh, lockRun none out.1 = some hh

/-- A routine with lock events agrees with the routine `r` without them: it returns what
`r` returns and stops in a fault where `r` does, and it has come to rest. -/
def Agrees {α : Type} (out : List LockEv × Except Fault α) (r : Except Fault α) : Prop :=
  out.2.toOption = r.toOption ∧ Settled out

/-! ## Basic facts -/

@[simp] theorem ok_bind {ε α β : Type} (a : α) (f : α → Except ε β) :
    (Except.ok a >>= f) = f a := rfl

@[simp] theorem error_bind {ε α β : Type} (e : ε) (f : α → Except ε β) :
    ((Except.error e : Except ε α) >>= f) = Except.error e := rfl

@[simp] theorem pure_eq_ok {ε α : Type} (a : α) : (pure a : Except ε α) = Except.ok a := rfl

theorem malloc_init_eq (ar : Nat → arena) (m : Nat → Nat) :
    malloc_init ar m = .ok (post_init ar m) := rfl

theorem find_nonempty_all_empty (ds : List desc) (i : Nat)
    (h : ∀ x ∈ ds, x.free_list = []) : find_nonempty ds i = i + ds.length := by
  induction ds generalizing i with
  | nil => simp [find_nonempty]
  | cons d ds ih =>
    have hd : d.free_list = [] := h d (List.mem_cons_self _ _)
    have ht : ∀ x ∈ ds, x.free_list = [] := fun x hx => h x (List.mem_cons_of_mem _ hx)
    simp only [find_nonempty, hd, ne_eq, not_true_eq_false, if_false, ih (i + 1) ht,
      List.length_cons]
    omega

theorem mem_drop_freeList_nil (s : State) (d : Nat)
    (h : ∀ i, d ≤ i → s.freeList i = []) : ∀ x ∈ s.descs.drop d, x.free_list = [] := by
  intro x hx
  obtain ⟨k, hk⟩ := List.getElem?_of_mem hx
  rw [List.getElem?_drop] at hk
  have := h (d + k) (Nat.le_add_right _ _)
  simpa [State.freeList, hk] using this

theorem free_index_big (size : Nat) (h : 1024 < size) : free_index 32 size 16 0 = 7 := by
  simp only [free_index, PGSIZE, WORD]
  norm_num
  repeat (first | omega | (rw [if_neg (by omega)]))

/-- A request of the huge path: `malloc` returns the address after the arena header of the
page run it is given, and `free` of that address stops at the second alignment assertion
of `block_to_arena`, because `free` steps back by one block header first. -/
theorem huge_malloc_then_free (junk : Int) (s : State) (pg n : Nat) (hn : 0 < n)
    (hhuge : find_desc ((n + SIZEOF_BLOCK) % WORD) s.descs 0 = s.desc_cnt)
    (hpg : pg ≠ 0) (hal : pg % PGSIZE = 0) (hhi : pg + PGSIZE ≤ WORD) :
    ∃ s1, malloc pg n s = .ok (pg + SIZEOF_ARENA, s1) ∧
      s1.arenas pg = ⟨ARENA_MAGIC, none,
        DIV_ROUND_UP (((n + SIZEOF_BLOCK) % WORD + SIZEOF_ARENA) % WORD) PGSIZE⟩ ∧
      s1.descs = s.descs ∧ s1.arena_list = s.arena_list ∧
      block_to_arena s1 ((pg + SIZEOF_ARENA + WORD - SIZEOF_BLOCK) % WORD)
        = .error .assert_big_block ∧
      free junk (pg + SIZEOF_ARENA) s1 = .error .assert_big_block := by
  have hb : (pg + SIZEOF_ARENA + WORD - SIZEOF_BLOCK) % WORD = pg + 8 := by
    simp only [SIZEOF_ARENA, SIZEOF_BLOCK, WORD, PGSIZE] at *; omega
  have hrd : pg_round_down (pg + 8) = pg := by
    simp only [pg_round_down, PGSIZE] at *; omega
  have hofs : pg_ofs (pg + 8) = 8 := by
    simp only [pg_ofs, PGSIZE] at *; omega
  have hbta : ∀ s1 : State, s1.arenas pg = ⟨ARENA_MAGIC, none,
        DIV_ROUND_UP (((n + SIZEOF_BLOCK) % WORD + SIZEOF_ARENA) % WORD) PGSIZE⟩ →
      block_to_arena s1 (pg + 8) = .error .assert_big_block := by
    intro s1 h1
    simp [block_to_arena, hrd, hofs, h1, hpg, SIZEOF_ARENA]
  refine ⟨{ s.setArena pg ⟨ARENA_MAGIC, none,
        DIV_ROUND_UP (((n + SIZEOF_BLOCK) % WORD + SIZEOF_ARENA) % WORD) PGSIZE⟩ with
      pages := s.pages ++ page_run pg
        (DIV_ROUND_UP (((n + SIZEOF_BLOCK) % WORD + SIZEOF_ARENA) % WORD) PGSIZE) },
    ?_, ?_, ?_, ?_, ?_, ?_⟩
  · simp only [malloc, Nat.pos_iff_ne_zero.mp hn, hhuge, hpg, if_true, if_false]
  · simp [State.setArena]
  · simp [State.setArena]
  · simp [State.setArena]
  · rw [hb]; exact hbta _ (by simp [State.setArena])
  · have hne : pg + SIZEOF_ARENA ≠ 0 := by simp [SIZEOF_ARENA]
    simp only [free, hne, if_false, hb]
    rw [hbta _ (by simp [State.setArena])]
    rfl

/-! ## The claims -/

/-- C1 (fails on the code): `malloc (4096)` in the post-init state succeeds on the huge
path and holds two pages, but `free` of the pointer it returned ends at an assertion of
`block_to_arena`; the pages are never given back, so the state before the `malloc` is not
restored. -/
theorem malloc_free_huge_not_restored :
    ∃ s1, malloc pageA 4096 state0 = .ok (pageA + 20, s1) ∧
      s1.pages = [pageA, pageA + 4096] ∧ state0.pages = [] ∧
      free 0 (pageA + 20) s1 = .error .assert_big_block :=
  ⟨_, rfl, rfl, rfl, rfl⟩

/-- C2 (fails on the code): when the size class of the request and all larger classes have
empty free lists and the page source refuses (`pg = 0`), `malloc` links the null arena
into the registry before it tests the pointer, which is fatal; it does not return null. -/
theorem malloc_refused_is_fatal (s : State) (n : Nat) (hn : 0 < n)
    (hsplit : find_desc ((n + SIZEOF_BLOCK) % WORD) s.descs 0 < s.desc_cnt)
    (hempty : ∀ i, find_desc ((n + SIZEOF_BLOCK) % WORD) s.descs 0 ≤ i → s.freeList i = []) :
    malloc 0 n s = .error .null_elem := by
  have h1 := find_nonempty_all_empty _ (find_desc ((n + SIZEOF_BLOCK) % WORD) s.descs 0)
    (mem_drop_freeList_nil s _ hempty)
  have h2 : (find_desc ((n + SIZEOF_BLOCK) % WORD) s.descs 0) +
      (s.descs.drop (find_desc ((n + SIZEOF_BLOCK) % WORD) s.descs 0)).length = s.desc_cnt := by
    simp only [List.length_drop, State.desc_cnt] at *; omega
  simp only [malloc, Nat.pos_iff_ne_zero.mp hn, Nat.ne_of_lt hsplit, hempty _ (Nat.le_refl _),
    h1, h2, if_true, if_false]
  rfl

/-- C2, at the input of the spec: the post-init state, `malloc (8)`, a refusing page
source. -/
theorem malloc_refused_is_fatal_witness : malloc 0 8 state0 = .error .null_elem :=
  malloc_refused_is_fatal state0 8 (by decide) (by decide) (by
    intro i hi
    have h : (1 : Nat) ≤ i := hi
    simp [State.freeList, state0, post_init]
    rcases i with _ | _ | _ | _ | _ | _ | _ | i <;> simp_all)

/-- C3 (fails on the code): for every pointer a successful huge-path `malloc` returns,
`free` computes the block `p - sizeof (struct block)`, whose page offset is 8 and not
`sizeof (struct arena)`, so the arena check `ASSERT (a->desc != NULL || pg_ofs (b) ==
sizeof *a)` of `block_to_arena` fails and no page is returned to the page source. -/
theorem free_huge_block_fails_arena_check (junk : Int) (s : State) (pg n : Nat) (hn : 0 < n)
    (hhuge : find_desc ((n + SIZEOF_BLOCK) % WORD) s.descs 0 = s.desc_cnt)
    (hpg : pg ≠ 0) (hal : pg % PGSIZE = 0) (hhi : pg + PGSIZE ≤ WORD) :
    ∃ s1, malloc pg n s = .ok (pg + SIZEOF_ARENA, s1) ∧
      (s1.arenas pg).desc = none ∧
      block_to_arena s1 ((pg + SIZEOF_ARENA + WORD - SIZEOF_BLOCK) % WORD)
        = .error .assert_big_block ∧
      free junk (pg + SIZEOF_ARENA) s1 = .error .assert_big_block := by
  obtain ⟨s1, h1, h2, _, _, h5, h6⟩ := huge_malloc_then_free junk s pg n hn hhuge hpg hal hhi
  exact ⟨s1, h1, by rw [h2], h5, h6⟩

/-- C3, at `malloc (PGSIZE)` in the post-init state. -/
theorem free_huge_block_fails_arena_check_witness :
    ∃ s1, malloc pageA 4096 state0 = .ok (pageA + SIZEOF_ARENA, s1) ∧
      (s1.arenas pageA).desc = none ∧
      block_to_arena s1 ((pageA + SIZEOF_ARENA + WORD - SIZEOF_BLOCK) % WORD)
        = .error .assert_big_block ∧
      free 0 (pageA + SIZEOF_ARENA) s1 = .error .assert_big_block :=
  free_huge_block_fails_arena_check 0 state0 pageA 4096 (by decide) (by decide) (by decide)
    (by decide) (by decide)

/-- C4 (fails on the code): for `n = SIZE_MAX` the sum `n + sizeof (struct block)` wraps to
11, so `malloc` takes the split path and hands out a block of the 16-byte class, whose
user region is 4 bytes long; the request is neither served in full nor sent to the huge
path. -/
theorem malloc_size_max_gets_16_byte_block :
    ∃ s1, malloc pageA SIZE_MAX state0 = .ok (pageA + 20 + SIZEOF_BLOCK, s1) ∧
      s1.loadSize (pageA + 20) = 16 ∧ s1.arena_list = [pageA] ∧
      (s1.arenas pageA).desc = some 0 ∧
      s1.freeList 0 = [pageA + 36] :=
  ⟨_, rfl, rfl, rfl, rfl, rfl⟩

/-- C5 (fails on the code): `p = malloc (16)` is filled with a 16-byte pattern whose bytes
8 to 11 are zero and `q = realloc (p, 64)` succeeds. `block_size` reads the field `size`
through the user pointer, that is the pattern bytes 8 to 11, and finds 0 where the block
header of `p` records 32; nothing is copied and the first 16 bytes of `q` are not the
pattern. -/
theorem realloc_loses_pattern :
    (do let (p, s1) ← malloc pageA 16 state0
        let s2 := s1.setMem (write_bytes s1.mem p pattern16)
        let (q, s3) ← realloc 0 0 p 64 s2
        pure (p, block_size s2 p, s2.loadSize (p - SIZEOF_BLOCK), read_bytes s2.mem p 16,
              q, read_bytes s3.mem q 16)) =
    .ok (pageA + 32, 0, 32, pattern16,
         pageA + 160, [0, 0, 0, 0, 0, 0, 0, 0, 0, 0, 0, 0, 0, 0, 0, 0]) := by
  rfl

/-- C6 (fails on the code): `65537 * 65537` exceeds `SIZE_MAX`, the wrapped product 131073
is smaller than neither factor, and `calloc (65537, 65537)` calls `malloc (131073)`, which
returns a run of 33 pages instead of null. -/
theorem calloc_misses_overflow :
    65537 * 65537 > SIZE_MAX ∧ 65537 * 65537 % WORD = 131073 ∧
    (calloc pageA 65537 65537 state0).toOption.map (fun r => (r.1, r.2.pages.length))
      = some (pageA + 20, 33) := by
  decide

/-- C8 (fails on the code): for `n = 2^32 - 13` the request takes the huge path, the sum
`size + sizeof (struct arena)` wraps to 19 and `malloc` asks for a single page, where the
ceiling of `(n + 12 + 20) / PGSIZE` is 1048577. -/
theorem malloc_huge_page_count_wraps :
    ∃ s1, malloc pageA 4294967283 state0 = .ok (pageA + SIZEOF_ARENA, s1) ∧
      s1.arenas pageA = ⟨ARENA_MAGIC, none, 1⟩ ∧ s1.pages = [pageA] ∧
      DIV_ROUND_UP (4294967283 + SIZEOF_BLOCK + SIZEOF_ARENA) PGSIZE = 1048577 :=
  ⟨_, rfl, rfl, rfl, rfl⟩

/-- C10 (fails as stated): two blocks of the 32-byte class are live, the header of the
second is overwritten with the size `0x80000000`, negative as an `int`. `free` does not
stop: it takes the low byte of the pointer, 64, as the size, puts the 32-byte block on the
free list of the 64-byte class and increments the arena's `free_cnt`. -/
theorem free_negative_size_inserts :
    (do let (_, s1) ← malloc pageA 8 state0
        let (p2, s2) ← malloc 0 8 s1
        let s3 ← free 0 p2 (s2.setMem (write32 s2.mem (p2 - SIZEOF_BLOCK + OFS_SIZE) 2147483648))
        pure (p2, s2.view, s3.view)) =
    .ok (pageA + 64,
      ⟨[[], [], [pageA + 84], [pageA + 148], [pageA + 276], [pageA + 532], []],
        [pageA], [6], [pageA]⟩,
      ⟨[[], [], [pageA + 52, pageA + 84], [pageA + 148], [pageA + 276], [pageA + 532], []],
        [pageA], [7], [pageA]⟩) := by
  rfl

/-- C10 (amended): a `free` of a split-page block whose header size is larger than the top
class's block size and not negative as an `int` is fatal: the class index runs to 7, past
the initialised descriptors, and `free` stops at that descriptor before it changes a free
list, a `free_cnt` or the registry. -/
theorem free_oversize_is_fatal (junk : Int) (s : State) (p a : Nat)
    (hp : SIZEOF_BLOCK ≤ p) (hpw : p < WORD)
    (hcnt : s.desc_cnt = 7)
    (hbta : block_to_arena s (p - SIZEOF_BLOCK) = .ok a)
    (hdesc : (s.arenas a).desc ≠ none)
    (hbig : 1024 < s.loadSize (p - SIZEOF_BLOCK))
    (hpos : s.loadSize (p - SIZEOF_BLOCK) < 2147483648) :
    free junk p s = .error .uninit_desc := by
  have hb : (p + WORD - SIZEOF_BLOCK) % WORD = p - SIZEOF_BLOCK := by
    simp only [SIZEOF_BLOCK, WORD] at *; omega
  have hp0 : p ≠ 0 := by simp only [SIZEOF_BLOCK] at hp; omega
  have hidx : free_index 32 (s.loadSize (p - SIZEOF_BLOCK)) 16 0 = 7 := free_index_big _ hbig
  have hget : getDesc s 7 = .error .uninit_desc := by
    have h7 : s.descs[7]? = none := List.getElem?_eq_none (Nat.le_of_eq hcnt)
    simp [getDesc, h7]
  obtain ⟨i, hi⟩ := Option.ne_none_iff_exists.mp hdesc
  simp only [free, hp0, if_false, hb, hbta, ge_iff_le, Nat.not_le.mpr hpos, hidx, hget, ok_bind,
    error_bind, ← hi]

/-- C10 (amended), at a live 32-byte block whose header is overwritten with 4096. -/
theorem free_oversize_is_fatal_witness :
    ∃ s1, malloc pageA 8 state0 = .ok (pageA + 32, s1) ∧
      free 0 (pageA + 32) (s1.setMem (write32 s1.mem (pageA + 20 + OFS_SIZE) 4096))
        = .error .uninit_desc := by
  refine ⟨(match malloc pageA 8 state0 with | .ok r => r.2 | .error _ => state0), rfl, ?_⟩
  exact free_oversize_is_fatal 0 _ (pageA + 32) pageA (by decide) (by decide) rfl rfl
    (by decide) (by decide) (by decide)

/-! ## Block sizes and page arithmetic -/

theorem bsz_succ (c : Nat) : bsz (c + 1) = 2 * bsz c := by
  simp only [bsz, pow_succ]; ring

theorem bsz_ge (i : Nat) : 16 ≤ bsz i := by
  have : 1 ≤ 2 ^ i := Nat.one_le_two_pow
  simp only [bsz]; omega

theorem bsz_le (i : Nat) (h : i < 7) : bsz i ≤ 1024 := by
  interval_cases i <;> simp [bsz]

theorem bsz_inj (i j : Nat) (hi : i < 7) (hj : j < 7) (h : bsz i = bsz j) : i = j := by
  interval_cases i <;> interval_cases j <;> simp_all [bsz]

theorem bsz_lt_of_lt (i j : Nat) (hj : j < 7) (h : i < j) : 2 * bsz i ≤ bsz j := by
  interval_cases j <;> interval_cases i <;> simp [bsz]

theorem pg_round_down_eq (a b : Nat) (hal : a % 4096 = 0) (h1 : a ≤ b) (h2 : b < a + 4096) :
    pg_round_down b = a := by
  simp only [pg_round_down, PGSIZE]; omega

theorem pg_ofs_eq (a b : Nat) (hal : a % 4096 = 0) (h1 : a ≤ b) (h2 : b < a + 4096) :
    pg_ofs b = b - a := by
  simp only [pg_ofs, PGSIZE]; omega

theorem pg_round_down_mod (b : Nat) : pg_round_down b % 4096 = 0 := by
  simp only [pg_round_down, PGSIZE]; omega

theorem pg_round_down_le (b : Nat) : pg_round_down b ≤ b := by
  simp only [pg_round_down, PGSIZE]; omega

theorem lt_pg_round_down_add (b : Nat) : b < pg_round_down b + 4096 := by
  simp only [pg_round_down, PGSIZE]; omega

theorem Blk.page (a b i : Nat) (hal : a % 4096 = 0) (h : Blk a b i) : pg_round_down b = a := by
  obtain ⟨hi, h1, _, h3⟩ := h
  have := bsz_ge i
  exact pg_round_down_eq a b hal (by omega) (by omega)

/-! ## Sorted insertion -/

theorem mem_insert_sorted (b x : Nat) (l : List Nat) :
    x ∈ insert_sorted b l ↔ x = b ∨ x ∈ l := by
  induction l with
  | nil => simp [insert_sorted]
  | cons e es ih =>
    simp only [insert_sorted]
    split
    · simp
    · simp only [List.mem_cons, ih]; tauto

theorem insert_sorted_perm (b : Nat) (l : List Nat) : (insert_sorted b l).Perm (b :: l) := by
  induction l with
  | nil => simp [insert_sorted]
  | cons e es ih =>
    simp only [insert_sorted]
    split
    · exact List.Perm.refl _
    · exact (List.Perm.cons e ih).trans (List.Perm.swap b e es)

theorem pairwise_insert_sorted (b : Nat) (l : List Nat) (h : l.Pairwise (· < ·))
    (hb : b ∉ l) : (insert_sorted b l).Pairwise (· < ·) := by
  induction l with
  | nil => simp [insert_sorted]
  | cons e es ih =>
    simp only [insert_sorted]
    rw [List.pairwise_cons] at h
    simp only [List.mem_cons, not_or] at hb
    split
    · rename_i hlt
      refine List.pairwise_cons.mpr ⟨?_, List.pairwise_cons.mpr h⟩
      intro x hx
      rcases List.mem_cons.mp hx with rfl | hx
      · exact hlt
      · exact Nat.lt_trans hlt (h.1 x hx)
    · rename_i hlt
      refine List.pairwise_cons.mpr ⟨?_, ih h.2 hb.2⟩
      intro x hx
      rcases (mem_insert_sorted b x es).mp hx with rfl | hx
      · omega
      · exact h.1 x hx

theorem countP_insert_sorted (p : Nat → Bool) (b : Nat) (l : List Nat) :
    (insert_sorted b l).countP p = l.countP p + (if p b then 1 else 0) := by
  rw [(insert_sorted_perm b l).countP_eq, List.countP_cons]

theorem insert_sorted_nil (b : Nat) : insert_sorted b [] = [b] := rfl

theorem insert_sorted_singleton (b e : Nat) (h : e < b) : insert_sorted b [e] = [e, b] := by
  simp [insert_sorted, Nat.lt_asymm h]

/-! ## The descriptor table -/

theorem table_descs (s : State) (h : Table s) :
    ∃ l0 l1 l2 l3 l4 l5 l6, s.descs = [⟨16, 254, l0⟩, ⟨32, 127, l1⟩, ⟨64, 63, l2⟩,
      ⟨128, 31, l3⟩, ⟨256, 15, l4⟩, ⟨512, 7, l5⟩, ⟨1024, 3, l6⟩] := by
  unfold Table at h
  rcases hds : s.descs with _ | ⟨d0, _ | ⟨d1, _ | ⟨d2, _ | ⟨d3, _ | ⟨d4, _ | ⟨d5, _ | ⟨d6, _ | ⟨d7, r⟩⟩⟩⟩⟩⟩⟩⟩ <;>
    rw [hds] at h <;> simp at h
  obtain ⟨h0, h1, h2, h3, h4, h5, h6⟩ := h
  rcases d0 with ⟨x0, y0, l0⟩
  rcases d1 with ⟨x1, y1, l1⟩
  rcases d2 with ⟨x2, y2, l2⟩
  rcases d3 with ⟨x3, y3, l3⟩
  rcases d4 with ⟨x4, y4, l4⟩
  rcases d5 with ⟨x5, y5, l5⟩
  rcases d6 with ⟨x6, y6, l6⟩
  simp only at h0 h1 h2 h3 h4 h5 h6
  refine ⟨l0, l1, l2, l3, l4, l5, l6, ?_⟩
  simp [h0.1, h0.2, h1.1, h1.2, h2.1, h2.2, h3.1, h3.2, h4.1, h4.2, h5.1, h5.2, h6.1, h6.2]

theorem table_length (s : State) (h : Table s) : s.descs.length = 7 := by
  obtain ⟨l0, l1, l2, l3, l4, l5, l6, hds⟩ := table_descs s h
  simp [hds]

theorem table_desc_cnt (s : State) (h : Table s) : s.desc_cnt = 7 := table_length s h

theorem table_getDesc (s : State) (h : Table s) (i : Nat) (hi : i < 7) :
    ∃ bpa, getDesc s i = .ok ⟨bsz i, bpa, s.freeList i⟩ ∧ (i = 6 → bpa = 3) := by
  obtain ⟨l0, l1, l2, l3, l4, l5, l6, hds⟩ := table_descs s h
  interval_cases i <;> simp [getDesc, State.freeList, hds, bsz]

theorem table_get0 (s : State) (h : Table s) :
    ∃ l, s.descs[0]? = some ⟨16, 254, l⟩ := by
  obtain ⟨l0, l1, l2, l3, l4, l5, l6, hds⟩ := table_descs s h
  exact ⟨l0, by simp [hds]⟩

theorem freeList_of_ge (s : State) (h : Table s) (i : Nat) (hi : 7 ≤ i) : s.freeList i = [] := by
  have hl := table_length s h
  have : s.descs[i]? = none := List.getElem?_eq_none (by omega)
  simp [State.freeList, this]

theorem setFL_map (ds : List desc) (i : Nat) (l : List Nat) :
    (setFL ds i l).map (fun d => (d.block_size, d.blocks_per_arena)) =
      ds.map (fun d => (d.block_size, d.blocks_per_arena)) := by
  induction ds generalizing i with
  | nil => simp [setFL]
  | cons d ds ih =>
    cases i with
    | zero => simp [setFL]
    | succ i => simp [setFL, ih]

theorem getElem?_setFL (ds : List desc) (i j : Nat) (l : List Nat) :
    (setFL ds i l)[j]? =
      if j = i then (ds[j]?).map (fun d => { d with free_list := l }) else ds[j]? := by
  induction ds generalizing i j with
  | nil => simp [setFL]
  | cons d ds ih =>
    cases i with
    | zero =>
      cases j with
      | zero => simp [setFL]
      | succ j => simp [setFL]
    | succ i =>
      cases j with
      | zero => simp [setFL]
      | succ j => simp [setFL, ih]

theorem table_setFreeList (s : State) (i : Nat) (l : List Nat) (h : Table s) :
    Table (s.setFreeList i l) := by
  simp only [Table, State.setFreeList, setFL_map]; exact h

theorem freeList_setFreeList (s : State) (h : Table s) (i j : Nat) (l : List Nat)
    (hi : i < 7) : (s.setFreeList i l).freeList j = if j = i then l else s.freeList j := by
  have hl := table_length s h
  simp only [State.freeList, State.setFreeList, getElem?_setFL]
  by_cases hji : j = i
  · subst hji
    have hj : j < s.descs.length := by omega
    simp [List.getElem?_eq_getElem hj]
  · simp [hji]

/-! ## Memory -/

theorem read32_congr (m1 m2 : Nat → Nat) (a : Nat)
    (h : ∀ x, a ≤ x → x < a + 4 → m1 x = m2 x) : read32 m1 a = read32 m2 a := by
  simp only [read32]
  rw [h a (by omega) (by omega), h (a + 1) (by omega) (by omega),
    h (a + 2) (by omega) (by omega), h (a + 3) (by omega) (by omega)]

theorem read32_write32_self (m : Nat → Nat) (a v : Nat) (hv : v < WORD) :
    read32 (write32 m a v) a = v := by
  simp only [read32, write32, WORD] at *
  simp
  omega

theorem write32_far (m : Nat → Nat) (a v x : Nat) (h : x < a ∨ a + 4 ≤ x) :
    write32 m a v x = m x := by
  simp only [write32]
  rw [if_neg (by omega), if_neg (by omega), if_neg (by omega), if_neg (by omega)]

theorem memset_far (m : Nat → Nat) (d c n x : Nat) (h : x < d ∨ d + n ≤ x) :
    memset m d c n x = m x := by
  simp only [memset]
  rw [if_neg (by omega)]

theorem loadSize_storeSize_self (s : State) (b v : Nat) (hv : v < WORD) :
    (s.storeSize b v).loadSize b = v := by
  simp only [State.loadSize, State.storeSize]
  exact read32_write32_self _ _ _ hv

theorem loadSize_storeSize_far (s : State) (b v x : Nat) (h : x + 4 ≤ b ∨ b + 4 ≤ x) :
    (s.storeSize b v).loadSize x = s.loadSize x := by
  simp only [State.loadSize, State.storeSize, OFS_SIZE]
  apply read32_congr
  intro y h1 h2
  exact write32_far _ _ _ _ (by omega)

theorem loadSize_congr (s1 s2 : State) (b : Nat)
    (h : ∀ x, b + 8 ≤ x → x < b + 12 → s1.mem x = s2.mem x) : s1.loadSize b = s2.loadSize b := by
  simp only [State.loadSize, OFS_SIZE]
  exact read32_congr _ _ _ (fun x h1 h2 => h x h1 (by omega))

theorem bsz_lt_word (i : Nat) (h : i < 7) : bsz i < WORD := by
  have := bsz_le i h
  simp only [WORD]; omega

/-! ## The arena of a block -/

theorem block_to_arena_ok (s : State) (a b : Nat) (ht : Table s) (ha0 : a ≠ 0)
    (hal : a % 4096 = 0) (hm : (s.arenas a).magic = ARENA_MAGIC)
    (hd : (s.arenas a).desc = some 0) (h1 : a + 20 ≤ b) (h2 : b < a + 4096)
    (h3 : (b - (a + 20)) % 16 = 0) : block_to_arena s b = .ok a := by
  obtain ⟨l, h0⟩ := table_get0 s ht
  have hrd := pg_round_down_eq a b hal (by omega) h2
  have hofs := pg_ofs_eq a b hal (by omega) h2
  have h4 : (b - a + WORD - SIZEOF_ARENA) % WORD % 16 = 0 := by
    simp only [WORD, SIZEOF_ARENA]; omega
  simp [block_to_arena, hrd, hofs, ha0, hm, hd, h0, h4]

theorem block_to_arena_blk (s : State) (a b i : Nat) (ht : Table s) (ha0 : a ≠ 0)
    (hal : a % 4096 = 0) (hm : (s.arenas a).magic = ARENA_MAGIC)
    (hd : (s.arenas a).desc = some 0) (hb : Blk a b i) : block_to_arena s b = .ok a := by
  obtain ⟨hi, h1, h2, h3⟩ := hb
  have := bsz_ge i
  refine block_to_arena_ok s a b ht ha0 hal hm hd h1 (by omega) ?_
  interval_cases i <;> simp only [bsz] at h2 <;> norm_num at h2 <;> omega

/-! ## Arithmetic of buddies -/

theorem mod_bsz_of_succ (x c : Nat) (hc : c < 6) (h : x % bsz (c + 1) = 0) : x % bsz c = 0 := by
  interval_cases c <;> simp only [bsz] at * <;> norm_num at * <;> omega

theorem parity_iff (x c : Nat) (hc : c < 6) (h : x % bsz c = 0) :
    x / bsz c % 2 = 0 ↔ x % bsz (c + 1) = 0 := by
  interval_cases c <;> simp only [bsz] at * <;> norm_num at * <;> omega

theorem odd_pred (x c : Nat) (hc : c < 6) (h : x % bsz c = 0) (ho : x / bsz c % 2 = 1) :
    bsz c ≤ x ∧ (x - bsz c) % bsz (c + 1) = 0 := by
  interval_cases c <;> simp only [bsz] at * <;> norm_num at * <;> omega

theorem even_succ (x c : Nat) (hc : c < 6) (h : x % bsz (c + 1) = 0) :
    (x + bsz c) % bsz c = 0 ∧ (x + bsz c) / bsz c % 2 = 1 := by
  interval_cases c <;> simp only [bsz] at * <;> norm_num at * <;> omega

/-! ## Tilings -/

theorem Tiling.congr (R : List Nat) (U V : Nat → Nat → Prop) (h : ∀ b i, V b i ↔ U b i)
    (t : Tiling R U) : Tiling R V where
  place := fun b i hb => t.place b i ((h b i).mp hb)
  disj := fun b i b1 i1 hb hb1 hne => t.disj b i b1 i1 ((h b i).mp hb) ((h b1 i1).mp hb1) hne
  cover := fun a ha x h1 h2 => by
    obtain ⟨b, i, hb, h3, h4⟩ := t.cover a ha x h1 h2
    exact ⟨b, i, (h b i).mpr hb, h3, h4⟩

/-- Splitting block `b` of class `c + 1` into its two halves keeps the tiling. -/
theorem Tiling.split (R : List Nat) (U V : Nat → Nat → Prop) (t : Tiling R U) (b c : Nat)
    (hc : c < 6) (hb : U b (c + 1))
    (h : ∀ x i, V x i ↔ (U x i ∧ ¬ (x = b ∧ i = c + 1)) ∨ (i = c ∧ (x = b ∨ x = b + bsz c))) :
    Tiling R V := by
  obtain ⟨haR, hc1, hlo, hmod, hhi⟩ := t.place b (c + 1) hb
  have h2 := bsz_succ c
  have hge := bsz_ge c
  have hmod0 := mod_bsz_of_succ _ c hc hmod
  have hpm := pg_round_down_mod b
  have hp2 : pg_round_down (b + bsz c) = pg_round_down b :=
    pg_round_down_eq _ _ hpm (by omega) (by omega)
  have hnew : ∀ x, x = b ∨ x = b + bsz c →
      pg_round_down x = pg_round_down b ∧ Blk (pg_round_down b) x c ∧
      b ≤ x ∧ x + bsz c ≤ b + bsz (c + 1) := by
    intro x hx
    rcases hx with rfl | rfl
    · exact ⟨rfl, ⟨by omega, hlo, hmod0, by omega⟩, by omega, by omega⟩
    · refine ⟨hp2, ⟨by omega, by omega, ?_, by omega⟩, by omega, by omega⟩
      have e : b + bsz c - (pg_round_down b + 20) = (b - (pg_round_down b + 20)) + bsz c := by
        omega
      rw [e, Nat.add_mod_right]; exact hmod0
  constructor
  · intro x i hx
    rcases (h x i).mp hx with ⟨hu, _⟩ | ⟨hic, hx⟩
    · exact t.place x i hu
    · obtain ⟨e, hblk, _, _⟩ := hnew x hx
      rw [e, hic]; exact ⟨haR, hblk⟩
  · intro x i y j hx hy hne
    rcases (h x i).mp hx with ⟨hux, hnx⟩ | ⟨hic, hx⟩
    · rcases (h y j).mp hy with ⟨huy, hny⟩ | ⟨hjc, hy⟩
      · exact t.disj x i y j hux huy hne
      · obtain ⟨_, _, h5, h6⟩ := hnew y hy
        have := t.disj x i b (c + 1) hux hb (by tauto)
        rw [hjc]; omega
    · obtain ⟨_, _, h5, h6⟩ := hnew x hx
      rcases (h y j).mp hy with ⟨huy, hny⟩ | ⟨hjc, hy⟩
      · have := t.disj y j b (c + 1) huy hb (by tauto)
        rw [hic]; omega
      · rw [hic, hjc]
        rcases hx with hx | hx <;> rcases hy with hy | hy <;> subst hx hy hic hjc <;>
          simp at hne <;> omega
  · intro a ha x h3 h4
    obtain ⟨y, j, hy, h5, h6⟩ := t.cover a ha x h3 h4
    by_cases hyb : y = b ∧ j = c + 1
    · obtain ⟨hyb1, hyb2⟩ := hyb
      subst hyb1 hyb2
      by_cases hx : x < y + bsz c
      · exact ⟨y, c, (h _ _).mpr (Or.inr ⟨rfl, Or.inl rfl⟩), h5, hx⟩
      · exact ⟨y + bsz c, c, (h _ _).mpr (Or.inr ⟨rfl, Or.inr rfl⟩), by omega, by omega⟩
    · exact ⟨y, j, (h _ _).mpr (Or.inl ⟨hy, hyb⟩), h5, h6⟩

/-- Merging the buddies `b` and `b + bsz c` of class `c` into their parent keeps the
tiling. -/
theorem Tiling.merge (R : List Nat) (U V : Nat → Nat → Prop) (t : Tiling R U) (b c : Nat)
    (hc : c < 6) (hb : U b c) (hb2 : U (b + bsz c) c)
    (hev : (b - (pg_round_down b + 20)) % bsz (c + 1) = 0)
    (h : ∀ x i, V x i ↔ (U x i ∧ ¬ (i = c ∧ (x = b ∨ x = b + bsz c))) ∨ (x = b ∧ i = c + 1)) :
    Tiling R V := by
  obtain ⟨haR, _, hlo, hmod, hhi⟩ := t.place b c hb
  obtain ⟨_, _, hlo2, _, hhi2⟩ := t.place (b + bsz c) c hb2
  have h2 := bsz_succ c
  have hge := bsz_ge c
  have hpm := pg_round_down_mod b
  have hp2 : pg_round_down (b + bsz c) = pg_round_down b :=
    pg_round_down_eq _ _ hpm (by omega) (by omega)
  rw [hp2] at hhi2
  constructor
  · intro x i hx
    rcases (h x i).mp hx with ⟨hu, _⟩ | ⟨hxb, hic⟩
    · exact t.place x i hu
    · rw [hxb, hic]; exact ⟨haR, by omega, hlo, hev, by omega⟩
  · intro x i y j hx hy hne
    rcases (h x i).mp hx with ⟨hux, hnx⟩ | ⟨hxb, hic⟩
    · rcases (h y j).mp hy with ⟨huy, hny⟩ | ⟨hyb, hjc⟩
      · exact t.disj x i y j hux huy hne
      · have d1 := t.disj x i b c hux hb (by tauto)
        have d2 := t.disj x i (b + bsz c) c hux hb2 (by tauto)
        have := bsz_ge i
        rw [hyb, hjc]; omega
    · rcases (h y j).mp hy with ⟨huy, hny⟩ | ⟨hyb, hjc⟩
      · have d1 := t.disj y j b c huy hb (by tauto)
        have d2 := t.disj y j (b + bsz c) c huy hb2 (by tauto)
        have := bsz_ge j
        rw [hxb, hic]; omega
      · subst hxb hic hyb hjc; simp at hne
  · intro a ha x h3 h4
    obtain ⟨y, j, hy, h5, h6⟩ := t.cover a ha x h3 h4
    by_cases hyb : j = c ∧ (y = b ∨ y = b + bsz c)
    · obtain ⟨hjc, hy2⟩ := hyb
      subst hjc
      refine ⟨b, j + 1, (h _ _).mpr (Or.inr ⟨rfl, rfl⟩), ?_, ?_⟩ <;>
        rcases hy2 with hy2 | hy2 <;> subst hy2 <;> omega
    · exact ⟨y, j, (h _ _).mpr (Or.inl ⟨hy, hyb⟩), h5, h6⟩

/-- A new page with its top block extends the tiling. -/
theorem Tiling.newpage (R : List Nat) (U V : Nat → Nat → Prop) (t : Tiling R U) (a : Nat)
    (hal : a % 4096 = 0) (haR : a ∉ R)
    (h : ∀ x i, V x i ↔ U x i ∨ (x = a + 20 ∧ i = 6)) : Tiling (R ++ [a]) V := by
  have hpa : pg_round_down (a + 20) = a := pg_round_down_eq a _ hal (by omega) (by omega)
  have h6 : bsz 6 = 1024 := by simp [bsz]
  have hfar : ∀ x i, U x i → x + bsz i ≤ a + 20 ∨ a + 20 + bsz 6 ≤ x := by
    intro x i hx
    obtain ⟨hxR, _, h1, _, h2⟩ := t.place x i hx
    have hne : pg_round_down x ≠ a := fun e => haR (e ▸ hxR)
    have := pg_round_down_mod x
    omega
  constructor
  · intro x i hx
    rcases (h x i).mp hx with hu | ⟨hxa, hi6⟩
    · obtain ⟨h1, h2⟩ := t.place x i hu
      exact ⟨List.mem_append_left _ h1, h2⟩
    · rw [hxa, hi6, hpa]
      exact ⟨by simp, by omega, by omega, by simp, by omega⟩
  · intro x i y j hx hy hne
    rcases (h x i).mp hx with hux | ⟨hxa, hi6⟩
    · rcases (h y j).mp hy with huy | ⟨hya, hj6⟩
      · exact t.disj x i y j hux huy hne
      · have := hfar x i hux; rw [hya, hj6]; omega
    · rcases (h y j).mp hy with huy | ⟨hya, hj6⟩
      · have := hfar y j huy; rw [hxa, hi6]; omega
      · subst hxa hi6 hya hj6; simp at hne
  · intro a1 ha1 x h3 h4
    rcases List.mem_append.mp ha1 with ha1 | ha1
    · obtain ⟨y, j, hy, h5, h6⟩ := t.cover a1 ha1 x h3 h4
      exact ⟨y, j, (h _ _).mpr (Or.inl hy), h5, h6⟩
    · have e : a1 = a := by simpa using ha1
      subst e
      exact ⟨a1 + 20, 6, (h _ _).mpr (Or.inr ⟨rfl, rfl⟩), h3, by omega⟩

/-- Removing a page whose top block is a single block keeps the tiling of the others. -/
theorem Tiling.release (R : List Nat) (U V : Nat → Nat → Prop) (t : Tiling R U) (a : Nat)
    (hal : ∀ a1 ∈ R, a1 % 4096 = 0) (haR : a ∈ R) (hnd : R.Nodup) (hb : U (a + 20) 6)
    (h : ∀ x i, V x i ↔ U x i ∧ ¬ (x = a + 20 ∧ i = 6)) : Tiling (R.erase a) V := by
  have h6 : bsz 6 = 1024 := by simp [bsz]
  have hother : ∀ x i, U x i → ¬ (x = a + 20 ∧ i = 6) → pg_round_down x ≠ a := by
    intro x i hx hne e
    obtain ⟨_, _, h1, _, h2⟩ := t.place x i hx
    rw [e] at h1 h2
    have := t.disj x i (a + 20) 6 hx hb (by tauto)
    have := bsz_ge i
    omega
  constructor
  · intro x i hx
    obtain ⟨hu, hne⟩ := (h x i).mp hx
    obtain ⟨h1, h2⟩ := t.place x i hu
    exact ⟨(List.mem_erase_of_ne (hother x i hu hne)).mpr h1, h2⟩
  · intro x i y j hx hy hne
    exact t.disj x i y j ((h x i).mp hx).1 ((h y j).mp hy).1 hne
  · intro a1 ha1 x h3 h4
    have ha1R : a1 ∈ R := List.mem_of_mem_erase ha1
    have hne : a1 ≠ a := fun e => by
      subst e
      exact (List.Nodup.not_mem_erase hnd) ha1
    obtain ⟨y, j, hy, h5, h6⟩ := t.cover a1 ha1R x h3 h4
    refine ⟨y, j, (h _ _).mpr ⟨hy, ?_⟩, h5, h6⟩
    rintro ⟨hya, hj6⟩
    subst hya hj6
    have m1 := hal a1 ha1R
    have m2 := hal a haR
    omega

/-! ## Accessors after the primitive updates -/

@[simp] theorem freeList_setArena (s : State) (a : Nat) (h : arena) (j : Nat) :
    (s.setArena a h).freeList j = s.freeList j := rfl

@[simp] theorem freeList_incFreeCnt (s : State) (a j : Nat) :
    (s.incFreeCnt a).freeList j = s.freeList j := rfl

@[simp] theorem freeList_decFreeCnt (s : State) (a j : Nat) :
    (s.decFreeCnt a).freeList j = s.freeList j := rfl

@[simp] theorem freeList_storeSize (s : State) (b v j : Nat) :
    (s.storeSize b v).freeList j = s.freeList j := rfl

@[simp] theorem table_setArena (s : State) (a : Nat) (h : arena) :
    Table (s.setArena a h) ↔ Table s := Iff.rfl

@[simp] theorem table_incFreeCnt (s : State) (a : Nat) : Table (s.incFreeCnt a) ↔ Table s :=
  Iff.rfl

@[simp] theorem table_decFreeCnt (s : State) (a : Nat) : Table (s.decFreeCnt a) ↔ Table s :=
  Iff.rfl

@[simp] theorem table_storeSize (s : State) (b v : Nat) : Table (s.storeSize b v) ↔ Table s :=
  Iff.rfl

@[simp] theorem table_setFreeList_iff (s : State) (i : Nat) (l : List Nat) :
    Table (s.setFreeList i l) ↔ Table s := by
  simp only [Table, State.setFreeList, setFL_map]

@[simp] theorem table_insertFree (s : State) (i b : Nat) : Table (s.insertFree i b) ↔ Table s := by
  simp only [State.insertFree, table_setFreeList_iff]

theorem freeList_insertFree (s : State) (h : Table s) (i j b : Nat) (hi : i < 7) :
    (s.insertFree i b).freeList j =
      if j = i then insert_sorted b (s.freeList i) else s.freeList j := by
  simp only [State.insertFree, freeList_setFreeList s h i j _ hi]

@[simp] theorem arenas_setFreeList (s : State) (i : Nat) (l : List Nat) :
    (s.setFreeList i l).arenas = s.arenas := rfl

@[simp] theorem arenas_insertFree (s : State) (i b : Nat) :
    (s.insertFree i b).arenas = s.arenas := rfl

@[simp] theorem arenas_storeSize (s : State) (b v : Nat) :
    (s.storeSize b v).arenas = s.arenas := rfl

@[simp] theorem arenas_setArena (s : State) (a : Nat) (h : arena) (x : Nat) :
    (s.setArena a h).arenas x = if x = a then h else s.arenas x := rfl

theorem arenas_incFreeCnt (s : State) (a x : Nat) :
    (s.incFreeCnt a).arenas x =
      if x = a then { s.arenas a with free_cnt := ((s.arenas a).free_cnt + 1) % WORD }
      else s.arenas x := rfl

theorem arenas_decFreeCnt (s : State) (a x : Nat) :
    (s.decFreeCnt a).arenas x =
      if x = a then { s.arenas a with free_cnt := ((s.arenas a).free_cnt + (WORD - 1)) % WORD }
      else s.arenas x := rfl

@[simp] theorem arena_list_setFreeList (s : State) (i : Nat) (l : List Nat) :
    (s.setFreeList i l).arena_list = s.arena_list := rfl

@[simp] theorem arena_list_insertFree (s : State) (i b : Nat) :
    (s.insertFree i b).arena_list = s.arena_list := rfl

@[simp] theorem arena_list_storeSize (s : State) (b v : Nat) :
    (s.storeSize b v).arena_list = s.arena_list := rfl

@[simp] theorem arena_list_setArena (s : State) (a : Nat) (h : arena) :
    (s.setArena a h).arena_list = s.arena_list := rfl

@[simp] theorem arena_list_incFreeCnt (s : State) (a : Nat) :
    (s.incFreeCnt a).arena_list = s.arena_list := rfl

@[simp] theorem arena_list_decFreeCnt (s : State) (a : Nat) :
    (s.decFreeCnt a).arena_list = s.arena_list := rfl

@[simp] theorem pages_setFreeList (s : State) (i : Nat) (l : List Nat) :
    (s.setFreeList i l).pages = s.pages := rfl

@[simp] theorem pages_insertFree (s : State) (i b : Nat) :
    (s.insertFree i b).pages = s.pages := rfl

@[simp] theorem pages_storeSize (s : State) (b v : Nat) :
    (s.storeSize b v).pages = s.pages := rfl

@[simp] theorem pages_setArena (s : State) (a : Nat) (h : arena) :
    (s.setArena a h).pages = s.pages := rfl

@[simp] theorem pages_incFreeCnt (s : State) (a : Nat) :
    (s.incFreeCnt a).pages = s.pages := rfl

@[simp] theorem pages_decFreeCnt (s : State) (a : Nat) :
    (s.decFreeCnt a).pages = s.pages := rfl

@[simp] theorem mem_setFreeList (s : State) (i : Nat) (l : List Nat) :
    (s.setFreeList i l).mem = s.mem := rfl

@[simp] theorem mem_insertFree (s : State) (i b : Nat) :
    (s.insertFree i b).mem = s.mem := rfl

@[simp] theorem mem_setArena (s : State) (a : Nat) (h : arena) :
    (s.setArena a h).mem = s.mem := rfl

@[simp] theorem mem_incFreeCnt (s : State) (a : Nat) : (s.incFreeCnt a).mem = s.mem := rfl

@[simp] theorem mem_decFreeCnt (s : State) (a : Nat) : (s.decFreeCnt a).mem = s.mem := rfl

@[simp] theorem loadSize_setFreeList (s : State) (i : Nat) (l : List Nat) (x : Nat) :
    (s.setFreeList i l).loadSize x = s.loadSize x := rfl

@[simp] theorem loadSize_insertFree (s : State) (i b x : Nat) :
    (s.insertFree i b).loadSize x = s.loadSize x := rfl

@[simp] theorem loadSize_setArena (s : State) (a : Nat) (h : arena) (x : Nat) :
    (s.setArena a h).loadSize x = s.loadSize x := rfl

@[simp] theorem loadSize_incFreeCnt (s : State) (a x : Nat) :
    (s.incFreeCnt a).loadSize x = s.loadSize x := rfl

@[simp] theorem loadSize_decFreeCnt (s : State) (a x : Nat) :
    (s.decFreeCnt a).loadSize x = s.loadSize x := rfl

@[simp] theorem freeList_setMem (s : State) (m : Nat → Nat) (j : Nat) :
    (s.setMem m).freeList j = s.freeList j := rfl

@[simp] theorem table_setMem (s : State) (m : Nat → Nat) : Table (s.setMem m) ↔ Table s :=
  Iff.rfl

@[simp] theorem arenas_setMem (s : State) (m : Nat → Nat) : (s.setMem m).arenas = s.arenas := rfl

@[simp] theorem arena_list_setMem (s : State) (m : Nat → Nat) :
    (s.setMem m).arena_list = s.arena_list := rfl

@[simp] theorem pages_setMem (s : State) (m : Nat → Nat) : (s.setMem m).pages = s.pages := rfl

@[simp] theorem mem_setMem (s : State) (m : Nat → Nat) : (s.setMem m).mem = m := rfl

/-! ## Counting free blocks -/

theorem cntAt_congr (s1 s2 : State) (i a : Nat) (h : s1.freeList i = s2.freeList i) :
    cntAt s1 i a = cntAt s2 i a := by
  simp only [cntAt, h]

theorem freeCount_congr (s1 s2 : State) (a : Nat) (h : ∀ i, s1.freeList i = s2.freeList i) :
    freeCount s1 a = freeCount s2 a := by
  simp only [freeCount, cntAt, h]

/-- When only the free list of class `i` changes, the count of a page changes by the
change of its count in that list. -/
theorem freeCount_change (s1 s2 : State) (i a : Nat) (hi : i < 7)
    (h : ∀ j, j ≠ i → s2.freeList j = s1.freeList j) :
    freeCount s2 a + cntAt s1 i a = freeCount s1 a + cntAt s2 i a := by
  have e : ∀ j, j ≠ i → cntAt s2 j a = cntAt s1 j a := fun j hj =>
    cntAt_congr _ _ _ _ (h j hj)
  simp only [freeCount]
  interval_cases i
  · rw [e 1 (by omega), e 2 (by omega), e 3 (by omega), e 4 (by omega), e 5 (by omega),
      e 6 (by omega)]; omega
  · rw [e 0 (by omega), e 2 (by omega), e 3 (by omega), e 4 (by omega), e 5 (by omega),
      e 6 (by omega)]; omega
  · rw [e 0 (by omega), e 1 (by omega), e 3 (by omega), e 4 (by omega), e 5 (by omega),
      e 6 (by omega)]; omega
  · rw [e 0 (by omega), e 1 (by omega), e 2 (by omega), e 4 (by omega), e 5 (by omega),
      e 6 (by omega)]; omega
  · rw [e 0 (by omega), e 1 (by omega), e 2 (by omega), e 3 (by omega), e 5 (by omega),
      e 6 (by omega)]; omega
  · rw [e 0 (by omega), e 1 (by omega), e 2 (by omega), e 3 (by omega), e 4 (by omega),
      e 6 (by omega)]; omega
  · rw [e 0 (by omega), e 1 (by omega), e 2 (by omega), e 3 (by omega), e 4 (by omega),
      e 5 (by omega)]; omega

theorem cntAt_pos_of_mem (s : State) (i b : Nat) (h : b ∈ s.freeList i) :
    0 < cntAt s i (pg_round_down b) := by
  simp only [cntAt]
  exact List.countP_pos.mpr ⟨b, h, by simp⟩

theorem cntAt_le_freeCount (s : State) (i a : Nat) (hi : i < 7) : cntAt s i a ≤ freeCount s a := by
  simp only [freeCount]
  interval_cases i <;> omega

/-! ## Consequences of the structural invariant -/

theorem WF.free_unique {s : State} {L : List Nat} (h : WF s L) (b i j : Nat)
    (hi : FreeB s b i) (hj : FreeB s b j) : i = j := by
  by_contra hne
  have := h.tiling.disj b i b j (Or.inl hi) (Or.inl hj) (Or.inr hne)
  have := bsz_ge i
  have := bsz_ge j
  omega

theorem WF.not_mem_tail {s : State} {L : List Nat} (h : WF s L) (d b : Nat) (rest : List Nat)
    (hl : s.freeList d = b :: rest) : b ∉ rest := by
  have hs := h.sorted d
  rw [hl, List.pairwise_cons] at hs
  intro hb
  exact Nat.lt_irrefl _ (hs.1 b hb)

theorem WF.free_hdr {s : State} {L : List Nat} (h : WF s L) (b i : Nat) (hb : FreeB s b i) :
    pg_round_down b ∈ s.arena_list ∧ Blk (pg_round_down b) b i ∧
    pg_round_down b ≠ 0 ∧ pg_round_down b % 4096 = 0 ∧
    (s.arenas (pg_round_down b)).magic = ARENA_MAGIC ∧
    (s.arenas (pg_round_down b)).desc = some 0 := by
  obtain ⟨h1, h2⟩ := h.tiling.place b i (Or.inl hb)
  obtain ⟨h3, h4, _⟩ := h.reg_ok _ h1
  obtain ⟨h5, h6, _⟩ := h.hdr _ h1
  exact ⟨h1, h2, h3, h4, h5, h6⟩

theorem WF.bta_free {s : State} {L : List Nat} (h : WF s L) (b i : Nat) (hb : FreeB s b i) :
    block_to_arena s b = .ok (pg_round_down b) := by
  obtain ⟨_, h2, h3, h4, h5, h6⟩ := h.free_hdr b i hb
  exact block_to_arena_blk s _ b i h.table h3 h4 h5 h6 h2

theorem WF.live_of_mem {s : State} {L : List Nat} (h : WF s L) (p : Nat) (hp : p ∈ L) :
    12 ≤ p ∧ ∃ i, LiveB s L (p - 12) i := by
  obtain ⟨h1, i, hi, h2⟩ := h.live_cls p hp
  refine ⟨h1, i, hi, ?_, h2⟩
  have : p - 12 + 12 = p := by omega
  rw [this]; exact hp

theorem printMemory_ok (s : State) (L : List Nat) (h : WF s L) : printMemory s = .ok () := by
  have key : ∀ j, ∀ f ∈ s.freeList j, block_to_arena s f = .ok (pg_round_down f) := by
    intro j f hf
    by_cases hj : j < 7
    · exact h.bta_free f j ⟨hj, hf⟩
    · rw [freeList_of_ge s h.table j (by omega)] at hf
      simp at hf
  unfold printMemory
  rw [if_pos]
  simp only [List.all_eq_true]
  intro _ _ j _ f hf
  rw [key j f hf]

/-! ## The pop at the end of `malloc` -/

theorem freeList_alloc_state (s : State) (ht : Table s) (d b j : Nat) (hd : d < 7) :
    (alloc_state s d b).freeList j = if j = d then (s.freeList d).tail else s.freeList j := by
  simp only [alloc_state, freeList_decFreeCnt, freeList_setFreeList s ht d j _ hd]

theorem wf_alloc (s : State) (L : List Nat) (d b : Nat) (rest : List Nat) (h : WF s L)
    (hd : d < 7) (hl : s.freeList d = b :: rest) :
    WF (alloc_state s d b) ((b + 12) :: L) := by
  have hfb : FreeB s b d := ⟨hd, by rw [hl]; exact List.mem_cons_self _ _⟩
  obtain ⟨haR, hblk, ha0, hal, hmag, hdesc⟩ := h.free_hdr b d hfb
  have hnr := h.not_mem_tail d b rest hl
  have hfl : ∀ j, (alloc_state s d b).freeList j = if j = d then rest else s.freeList j := by
    intro j; rw [freeList_alloc_state s h.table d b j hd, hl]; rfl
  have hls : ∀ x, (alloc_state s d b).loadSize x = s.loadSize x := fun x => rfl
  have hsz : s.loadSize b = bsz d := h.fsize b d hfb
  have hF : ∀ x i, FreeB (alloc_state s d b) x i ↔ FreeB s x i ∧ ¬ (x = b ∧ i = d) := by
    intro x i
    simp only [FreeB, hfl]
    by_cases hid : i = d
    · subst hid
      simp only [if_true, hl, List.mem_cons]
      constructor
      · rintro ⟨h1, h2⟩
        exact ⟨⟨h1, Or.inr h2⟩, fun e => hnr (e.1 ▸ h2)⟩
      · rintro ⟨⟨h1, h2⟩, h3⟩
        rcases h2 with h2 | h2
        · exact absurd ⟨h2, trivial⟩ h3
        · exact ⟨h1, h2⟩
    · simp only [hid, if_false, and_false, not_false_eq_true, and_true]
  have hbL : b + 12 ∉ L := h.excl b d hfb
  have hLv : ∀ x i, LiveB (alloc_state s d b) ((b + 12) :: L) x i ↔
      LiveB s L x i ∨ (x = b ∧ i = d) := by
    intro x i
    simp only [LiveB, hls, List.mem_cons]
    constructor
    · rintro ⟨h1, h2 | h2, h3⟩
      · have e : x = b := by omega
        subst e
        exact Or.inr ⟨rfl, bsz_inj i d h1 hd (by rw [← h3, hsz])⟩
      · exact Or.inl ⟨h1, h2, h3⟩
    · rintro (⟨h1, h2, h3⟩ | ⟨h1, h2⟩)
      · exact ⟨h1, Or.inr h2, h3⟩
      · subst h1 h2; exact ⟨hd, Or.inl rfl, hsz⟩
  have hU : ∀ x i, Used (alloc_state s d b) ((b + 12) :: L) x i ↔ Used s L x i := by
    intro x i
    simp only [Used, hF, hLv]
    constructor
    · rintro (⟨h1, _⟩ | h1 | ⟨h1, h2⟩)
      · exact Or.inl h1
      · exact Or.inr h1
      · subst h1 h2; exact Or.inl hfb
    · rintro (h1 | h1)
      · by_cases e : x = b ∧ i = d
        · exact Or.inr (Or.inr e)
        · exact Or.inl ⟨h1, e⟩
      · exact Or.inr (Or.inl h1)
  have hcnt : ∀ a1, freeCount (alloc_state s d b) a1 +
      (if pg_round_down b = a1 then 1 else 0) = freeCount s a1 := by
    intro a1
    have hc := freeCount_change s (alloc_state s d b) d a1 hd (fun j hj => by
      rw [hfl j, if_neg hj])
    have e1 : cntAt s d a1 = cntAt (alloc_state s d b) d a1 +
        (if pg_round_down b = a1 then 1 else 0) := by
      simp only [cntAt, hfl, if_true, hl, List.countP_cons, decide_eq_true_eq]
    omega
  refine
    { table := by simp [alloc_state, h.table]
      sorted := ?_
      pages_eq := h.pages_eq
      reg_nodup := h.reg_nodup
      reg_ok := h.reg_ok
      hdr := ?_
      fsize := fun x i hx => by rw [hls]; exact h.fsize x i ((hF x i).mp hx).1
      live_nodup := List.nodup_cons.mpr ⟨hbL, h.live_nodup⟩
      live_cls := ?_
      excl := ?_
      tiling := Tiling.congr _ _ _ hU h.tiling }
  · intro i
    rw [hfl]
    split
    · have := h.sorted d
      rw [hl, List.pairwise_cons] at this
      exact this.2
    · exact h.sorted i
  · intro a1 ha1
    obtain ⟨h1, h2, h3⟩ := h.hdr a1 ha1
    have hc := hcnt a1
    have har : (alloc_state s d b).arenas a1 =
        if a1 = pg_round_down b then
          { s.arenas (pg_round_down b) with
            free_cnt := ((s.arenas (pg_round_down b)).free_cnt + (WORD - 1)) % WORD }
        else s.arenas a1 := rfl
    rw [har]
    by_cases e : a1 = pg_round_down b
    · subst e
      simp only [if_true] at hc ⊢
      refine ⟨h1, h2, ?_⟩
      simp only [h3, WORD]
      omega
    · have e2 : ¬ pg_round_down b = a1 := fun x => e x.symm
      simp only [e, e2, if_false] at hc ⊢
      exact ⟨h1, h2, by rw [h3, ← hc]⟩
  · intro p hp
    rcases List.mem_cons.mp hp with e | hp
    · subst e
      exact ⟨by omega, d, hd, by simp only [Nat.add_sub_cancel, hls, hsz]⟩
    · obtain ⟨h1, i, h2, h3⟩ := h.live_cls p hp
      exact ⟨h1, i, h2, by rw [hls]; exact h3⟩
  · intro x i hx
    obtain ⟨hx1, hx2⟩ := (hF x i).mp hx
    simp only [List.mem_cons, not_or]
    refine ⟨?_, h.excl x i hx1⟩
    intro e
    have e2 : x = b := by omega
    subst e2
    exact hx2 ⟨rfl, h.free_unique x i d hx1 hfb⟩

/-! ## One round of `malloc_breakdown` -/

theorem WF.live_far {s : State} {L : List Nat} (h : WF s L) (b k x i : Nat)
    (hb : FreeB s b k) (hx : LiveB s L x i) : x + bsz i ≤ b ∨ b + bsz k ≤ x := by
  have hne : x ≠ b := fun e => h.excl b k hb (e ▸ hx.2.1)
  exact h.tiling.disj x i b k (Or.inr hx) (Or.inl hb) (Or.inl hne)

theorem WF.free_far {s : State} {L : List Nat} (h : WF s L) (b k x i : Nat)
    (hb : FreeB s b k) (hx : FreeB s x i) (hne : ¬ (x = b ∧ i = k)) :
    x + bsz i ≤ b ∨ b + bsz k ≤ x :=
  h.tiling.disj x i b k (Or.inl hx) (Or.inl hb) (by tauto)

theorem WF.mem_live_far {s : State} {L : List Nat} (h : WF s L) (b k p : Nat)
    (hb : FreeB s b k) (hp : p ∈ L) : p - 12 + 16 ≤ b ∨ b + bsz k ≤ p - 12 := by
  obtain ⟨_, i, hi⟩ := h.live_of_mem p hp
  have := h.live_far b k (p - 12) i hb hi
  have := bsz_ge i
  omega

theorem split_state_spec (s : State) (c b : Nat) (ht : Table s) (hc : c < 6) :
    Table (split_state s c b) ∧
    (split_state s c b).arena_list = s.arena_list ∧
    (split_state s c b).pages = s.pages ∧
    (∀ j, (split_state s c b).freeList j =
      if j = c + 1 then (s.freeList (c + 1)).tail
      else if j = c then insert_sorted (b + bsz c) (insert_sorted b (s.freeList c))
      else s.freeList j) ∧
    (∀ x, (split_state s c b).arenas x =
      if x = pg_round_down b then
        { s.arenas (pg_round_down b) with
          free_cnt := ((((s.arenas (pg_round_down b)).free_cnt + (WORD - 1)) % WORD + 1) % WORD
            + 1) % WORD }
      else s.arenas x) ∧
    (split_state s c b).loadSize b = bsz c ∧
    (split_state s c b).loadSize (b + bsz c) = bsz c ∧
    (∀ x, (x + 4 ≤ b ∨ b + 4 ≤ x) → (x + 4 ≤ b + bsz c ∨ b + bsz c + 4 ≤ x) →
      (split_state s c b).loadSize x = s.loadSize x) := by
  have hge := bsz_ge c
  have hlt := bsz_lt_word c (by omega)
  have t2 : Table ((s.setFreeList (c + 1) (s.freeList (c + 1)).tail).decFreeCnt
      (pg_round_down b)) := by simp [ht]
  have t3 : Table ((((s.setFreeList (c + 1) (s.freeList (c + 1)).tail).decFreeCnt
      (pg_round_down b)).storeSize b (bsz c)).storeSize (b + bsz c) (bsz c)) := by simp [ht]
  have t4 : Table ((((((s.setFreeList (c + 1) (s.freeList (c + 1)).tail).decFreeCnt
      (pg_round_down b)).storeSize b (bsz c)).storeSize (b + bsz c) (bsz c)).insertFree c
      b).incFreeCnt (pg_round_down b)) := by simp [ht]
  refine ⟨by simp [split_state, ht], rfl, rfl, ?_, ?_, ?_, ?_, ?_⟩
  · intro j
    simp only [split_state, freeList_incFreeCnt, freeList_insertFree _ t4 c j _ (by omega),
      freeList_insertFree _ t3 c _ _ (by omega), freeList_storeSize, freeList_decFreeCnt,
      freeList_setFreeList s ht (c + 1) _ _ (by omega)]
    by_cases h1 : j = c
    · subst h1
      have : ¬ j = j + 1 := by omega
      simp [this]
    · simp [h1]
  · intro x
    simp only [split_state, arenas_incFreeCnt, arenas_insertFree, arenas_storeSize,
      arenas_decFreeCnt, arenas_setFreeList]
    by_cases h1 : x = pg_round_down b
    · simp [h1]
    · simp [h1]
  · simp only [split_state, loadSize_incFreeCnt, loadSize_insertFree]
    rw [loadSize_storeSize_far _ _ _ _ (by omega), loadSize_storeSize_self _ _ _ hlt]
  · simp only [split_state, loadSize_incFreeCnt, loadSize_insertFree]
    rw [loadSize_storeSize_self _ _ _ hlt]
  · intro x h1 h2
    simp only [split_state, loadSize_incFreeCnt, loadSize_insertFree]
    rw [loadSize_storeSize_far _ _ _ _ (by omega), loadSize_storeSize_far _ _ _ _ (by omega)]
    rfl

/-- The free blocks after a split. -/
theorem freeB_split (s : State) (L : List Nat) (c b : Nat) (rest : List Nat) (h : WF s L)
    (hc : c < 6) (hl : s.freeList (c + 1) = b :: rest) (x i : Nat) :
    FreeB (split_state s c b) x i ↔
      (FreeB s x i ∧ ¬ (x = b ∧ i = c + 1)) ∨ (i = c ∧ (x = b ∨ x = b + bsz c)) := by
  obtain ⟨_, _, _, hfl, _⟩ := split_state_spec s c b h.table hc
  have hnr := h.not_mem_tail (c + 1) b rest hl
  by_cases h1 : i = c + 1
  · subst h1
    have hcc : ¬ c + 1 = c := by omega
    simp only [FreeB, hfl, hl, List.tail_cons, if_true, List.mem_cons, hcc, false_and,
      or_false, and_true]
    constructor
    · rintro ⟨h2, h3⟩
      exact ⟨⟨h2, Or.inr h3⟩, fun e => hnr (e ▸ h3)⟩
    · rintro ⟨⟨h2, h3 | h3⟩, h4⟩
      · exact absurd h3 h4
      · exact ⟨h2, h3⟩
  · by_cases h2 : i = c
    · subst h2
      simp only [FreeB, hfl, h1, if_false, if_true, mem_insert_sorted, and_false,
        not_false_eq_true, and_true, true_and]
      constructor
      · rintro ⟨h3, h4 | h4 | h4⟩
        · exact Or.inr (Or.inr h4)
        · exact Or.inr (Or.inl h4)
        · exact Or.inl ⟨h3, h4⟩
      · rintro (⟨h3, h4⟩ | h4 | h4)
        · exact ⟨h3, Or.inr (Or.inr h4)⟩
        · exact ⟨by omega, Or.inr (Or.inl h4)⟩
        · exact ⟨by omega, Or.inl h4⟩
    · simp [FreeB, hfl, h1, h2]

theorem wf_split (s : State) (L : List Nat) (c b : Nat) (rest : List Nat) (h : WF s L)
    (hc : c < 6) (hl : s.freeList (c + 1) = b :: rest) :
    WF (split_state s c b) L ∧
    (∀ x i, LiveB (split_state s c b) L x i ↔ LiveB s L x i) := by
  have hfb : FreeB s b (c + 1) := ⟨by omega, by rw [hl]; exact List.mem_cons_self _ _⟩
  obtain ⟨haR, hblk, ha0, hal, hmag, hdesc⟩ := h.free_hdr b (c + 1) hfb
  obtain ⟨_, hlo, hmod, hhi⟩ := hblk
  obtain ⟨htab, hreg, hpag, hfl, harn, hsz1, hsz2, hszo⟩ := split_state_spec s c b h.table hc
  have hF := freeB_split s L c b rest h hc hl
  have h2 := bsz_succ c
  have hge := bsz_ge c
  have hp2 : pg_round_down (b + bsz c) = pg_round_down b :=
    pg_round_down_eq _ _ hal (by omega) (by omega)
  -- size fields of blocks away from the split block are unchanged
  have hkeep : ∀ x, (x + 16 ≤ b ∨ b + bsz (c + 1) ≤ x) →
      (split_state s c b).loadSize x = s.loadSize x := fun x hx =>
    hszo x (by omega) (by omega)
  have hLv : ∀ x i, LiveB (split_state s c b) L x i ↔ LiveB s L x i := by
    intro x i
    simp only [LiveB]
    constructor
    · rintro ⟨h3, h4, h5⟩
      have := h.mem_live_far b (c + 1) (x + 12) hfb h4
      rw [hkeep x (by omega)] at h5
      exact ⟨h3, h4, h5⟩
    · rintro ⟨h3, h4, h5⟩
      have := h.mem_live_far b (c + 1) (x + 12) hfb h4
      rw [hkeep x (by omega)]
      exact ⟨h3, h4, h5⟩
  have hU : ∀ x i, Used (split_state s c b) L x i ↔
      (Used s L x i ∧ ¬ (x = b ∧ i = c + 1)) ∨ (i = c ∧ (x = b ∨ x = b + bsz c)) := by
    intro x i
    simp only [Used, hF, hLv]
    constructor
    · rintro ((⟨h3, h4⟩ | h3) | h3)
      · exact Or.inl ⟨Or.inl h3, h4⟩
      · exact Or.inr h3
      · refine Or.inl ⟨Or.inr h3, ?_⟩
        rintro ⟨e1, _⟩
        exact h.excl b (c + 1) hfb (e1 ▸ h3.2.1)
    · rintro (⟨h3 | h3, h4⟩ | h3)
      · exact Or.inl (Or.inl ⟨h3, h4⟩)
      · exact Or.inr h3
      · exact Or.inl (Or.inr h3)
  have hnb : b ∉ s.freeList c := by
    intro hb
    have := h.free_far b (c + 1) b c hfb ⟨by omega, hb⟩ (by omega)
    omega
  have hnb2 : b + bsz c ∉ s.freeList c := by
    intro hb
    have := h.free_far b (c + 1) (b + bsz c) c hfb ⟨by omega, hb⟩ (by omega)
    omega
  have hcnt : ∀ a1, freeCount (split_state s c b) a1 =
      freeCount s a1 + (if pg_round_down b = a1 then 1 else 0) := by
    intro a1
    have tm : Table (s.setFreeList (c + 1) rest) := by simp [h.table]
    have hm : ∀ j, (s.setFreeList (c + 1) rest).freeList j =
        if j = c + 1 then rest else s.freeList j := fun j =>
      freeList_setFreeList s h.table (c + 1) j rest (by omega)
    have c1 := freeCount_change s (s.setFreeList (c + 1) rest) (c + 1) a1 (by omega)
      (fun j hj => by rw [hm j, if_neg hj])
    have c2 := freeCount_change (s.setFreeList (c + 1) rest) (split_state s c b) c a1
      (by omega) (fun j hj => by
        rw [hfl j, hm j, hl]
        by_cases e : j = c + 1
        · simp [e]
        · simp [e, hj])
    have e1 : cntAt s (c + 1) a1 = cntAt (s.setFreeList (c + 1) rest) (c + 1) a1 +
        (if pg_round_down b = a1 then 1 else 0) := by
      simp only [cntAt, hm, if_true, hl, List.countP_cons, decide_eq_true_eq]
    have e2 : cntAt (split_state s c b) c a1 = cntAt (s.setFreeList (c + 1) rest) c a1 +
        (if pg_round_down b = a1 then 1 else 0) + (if pg_round_down b = a1 then 1 else 0) := by
      have : ¬ c = c + 1 := by omega
      simp only [cntAt, hfl, hm, this, if_false, if_true, countP_insert_sorted,
        decide_eq_true_eq, hp2]
    omega
  refine ⟨
    { table := htab
      sorted := ?_
      pages_eq := by rw [hpag, hreg]; exact h.pages_eq
      reg_nodup := by rw [hreg]; exact h.reg_nodup
      reg_ok := by rw [hreg]; exact h.reg_ok
      hdr := ?_
      fsize := ?_
      live_nodup := h.live_nodup
      live_cls := ?_
      excl := ?_
      tiling := by
        rw [hreg]
        exact Tiling.split _ _ _ h.tiling b c hc (Or.inl hfb) hU }, hLv⟩
  · intro i
    rw [hfl]
    split
    · have := h.sorted (c + 1)
      rw [hl, List.pairwise_cons] at this
      rw [hl]; exact this.2
    · split
      · apply pairwise_insert_sorted _ _ (pairwise_insert_sorted _ _ (h.sorted c) hnb)
        rw [mem_insert_sorted]
        rintro (e | e)
        · omega
        · exact hnb2 e
      · exact h.sorted i
  · intro a1 ha1
    rw [hreg] at ha1
    obtain ⟨h3, h4, h5⟩ := h.hdr a1 ha1
    rw [harn, hcnt]
    by_cases e : a1 = pg_round_down b
    · subst e
      simp only [if_true]
      refine ⟨h3, h4, ?_⟩
      simp only [h5, WORD]
      omega
    · have e2 : ¬ pg_round_down b = a1 := fun x => e x.symm
      simp only [e, e2, if_false, Nat.add_zero]
      exact ⟨h3, h4, h5⟩
  · intro x i hx
    rcases (hF x i).mp hx with ⟨h3, h4⟩ | ⟨h3, h4 | h4⟩
    · have := h.free_far b (c + 1) x i hfb h3 h4
      have := bsz_ge i
      rw [hkeep x (by omega)]
      exact h.fsize x i h3
    · rw [h3, h4]; exact hsz1
    · rw [h3, h4]; exact hsz2
  · intro p hp
    obtain ⟨h3, i, h4, h5⟩ := h.live_cls p hp
    have := h.mem_live_far b (c + 1) p hfb hp
    exact ⟨h3, i, h4, by rw [hkeep _ (by omega)]; exact h5⟩
  · intro x i hx
    rcases (hF x i).mp hx with ⟨h3, _⟩ | ⟨_, h4 | h4⟩
    · exact h.excl x i h3
    · rw [h4]; exact h.excl b (c + 1) hfb
    · rw [h4]
      intro hin
      have := h.mem_live_far b (c + 1) (b + bsz c + 12) hfb hin
      omega

/-! ## The invariant through `malloc` -/

theorem buddy_upper (b c : Nat) (hc : c < 6) (hlo : pg_round_down b + 20 ≤ b)
    (hmod : (b - (pg_round_down b + 20)) % bsz (c + 1) = 0)
    (hhi : b + bsz (c + 1) ≤ pg_round_down b + 1044) : buddy (b + bsz c) c = b := by
  have hge := bsz_ge c
  have h2 := bsz_succ c
  have hp2 : pg_round_down (b + bsz c) = pg_round_down b :=
    pg_round_down_eq _ _ (pg_round_down_mod b) (by omega) (by omega)
  have e : b + bsz c - (pg_round_down b + 20) = (b - (pg_round_down b + 20)) + bsz c := by omega
  obtain ⟨_, h1⟩ := even_succ _ c hc hmod
  simp only [buddy, hp2, e, h1]
  simp

theorem buddy_lower (b c : Nat) (hc : c < 6)
    (hmod : (b - (pg_round_down b + 20)) % bsz (c + 1) = 0) : buddy b c = b + bsz c := by
  have h0 := mod_bsz_of_succ _ c hc hmod
  have h1 := (parity_iff _ c hc h0).mpr hmod
  simp only [buddy, h1, if_true]

theorem Inv.weaken {s : State} {L : List Nat} (h : Inv s L none) (m : Nat × Nat) :
    Inv s L (some m) where
  wf := h.wf
  paired := fun b i hb hi _ => by
    rcases h.paired b i hb hi (by simp) with h1 | ⟨mb, mi, h2, _⟩
    · exact Or.inl h1
    · simp at h2
  top := fun x hx => by
    have := h.top x hx
    simp at this

theorem Inv.top_nil {s : State} {L : List Nat} (h : Inv s L none) : s.freeList 6 = [] := by
  apply List.eq_nil_iff_forall_not_mem.mpr
  intro x hx
  have := h.top x hx
  simp at this

theorem inv_split (s : State) (L : List Nat) (c b : Nat) (rest : List Nat)
    (h : Inv s L (some (b, c + 1))) (hc : c < 6) (hl : s.freeList (c + 1) = b :: rest) :
    Inv (split_state s c b) L (some (b, c)) := by
  obtain ⟨hwf, hLv⟩ := wf_split s L c b rest h.wf hc hl
  have hF := freeB_split s L c b rest h.wf hc hl
  have hfb : FreeB s b (c + 1) := ⟨by omega, by rw [hl]; exact List.mem_cons_self _ _⟩
  obtain ⟨_, hblk, _, _, _, _⟩ := h.wf.free_hdr b (c + 1) hfb
  obtain ⟨_, hlo, hmod, hhi⟩ := hblk
  have hge := bsz_ge c
  have h2 := bsz_succ c
  refine ⟨hwf, ?_, ?_⟩
  · intro x i hx hi hne
    rcases (hF x i).mp hx with ⟨h3, h4⟩ | ⟨h3, h4 | h4⟩
    · have hne2 : some (x, i) ≠ some (b, c + 1) := by
        intro e
        simp only [Option.some.injEq, Prod.mk.injEq] at e
        exact h4 e
      rcases h.paired x i h3 hi hne2 with ⟨b1, i1, h5, h6, h7⟩ | ⟨mb, mi, h5, h6, h7⟩
      · exact Or.inl ⟨b1, i1, (hLv b1 i1).mpr h5, h6, h7⟩
      · simp only [Option.some.injEq, Prod.mk.injEq] at h5
        obtain ⟨e1, e2⟩ := h5
        subst e1 e2
        exact Or.inr ⟨b, c, rfl, h6, by omega⟩
    · subst h3 h4
      exact absurd rfl hne
    · subst h3 h4
      refine Or.inr ⟨b, i, rfl, ?_, ?_⟩ <;> rw [buddy_upper b i hc hlo hmod hhi]
  · intro x hx
    obtain ⟨_, _, _, hfl, _⟩ := split_state_spec s c b h.wf.table hc
    rw [hfl] at hx
    by_cases e : 6 = c + 1
    · rw [if_pos e, ← e, ] at hx
      have e5 : c = 5 := by omega
      subst e5
      rw [hl] at hx
      have hx2 : x ∈ s.freeList 6 := by rw [hl]; exact List.mem_cons_of_mem _ hx
      have := h.top x hx2
      simp only [Option.some.injEq, Prod.mk.injEq, and_true] at this
      subst this
      exact absurd hx (h.wf.not_mem_tail 6 b rest hl)
    · rw [if_neg e, if_neg (by omega)] at hx
      have := h.top x hx
      simp only [Option.some.injEq, Prod.mk.injEq] at this
      omega

theorem inv_alloc (s : State) (L : List Nat) (d b : Nat) (rest : List Nat)
    (h : Inv s L (some (b, d))) (hd : d < 7) (hl : s.freeList d = b :: rest) :
    Inv (alloc_state s d b) ((b + 12) :: L) none := by
  have hwf := wf_alloc s L d b rest h.wf hd hl
  have hfb : FreeB s b d := ⟨hd, by rw [hl]; exact List.mem_cons_self _ _⟩
  have hfl : ∀ j, (alloc_state s d b).freeList j = if j = d then rest else s.freeList j := by
    intro j; rw [freeList_alloc_state s h.wf.table d b j hd, hl]; rfl
  have hnr := h.wf.not_mem_tail d b rest hl
  have hF : ∀ x i, FreeB (alloc_state s d b) x i → FreeB s x i ∧ ¬ (x = b ∧ i = d) := by
    intro x i ⟨h1, h2⟩
    rw [hfl] at h2
    by_cases e : i = d
    · subst e
      rw [if_pos rfl] at h2
      exact ⟨⟨h1, by rw [hl]; exact List.mem_cons_of_mem _ h2⟩, fun e2 => hnr (e2.1 ▸ h2)⟩
    · rw [if_neg e] at h2
      exact ⟨⟨h1, h2⟩, fun e2 => e e2.2⟩
  have hLv : ∀ x i, LiveB s L x i → LiveB (alloc_state s d b) ((b + 12) :: L) x i :=
    fun x i ⟨h1, h2, h3⟩ => ⟨h1, List.mem_cons_of_mem _ h2, h3⟩
  have hLb : LiveB (alloc_state s d b) ((b + 12) :: L) b d :=
    ⟨hd, List.mem_cons_self _ _, h.wf.fsize b d hfb⟩
  refine ⟨hwf, ?_, ?_⟩
  · intro x i hx hi _
    obtain ⟨h3, h4⟩ := hF x i hx
    have hne2 : some (x, i) ≠ some (b, d) := by
      intro e
      simp only [Option.some.injEq, Prod.mk.injEq] at e
      exact h4 e
    rcases h.paired x i h3 hi hne2 with ⟨b1, i1, h5, h6, h7⟩ | ⟨mb, mi, h5, h6, h7⟩
    · exact Or.inl ⟨b1, i1, hLv b1 i1 h5, h6, h7⟩
    · simp only [Option.some.injEq, Prod.mk.injEq] at h5
      obtain ⟨e1, e2⟩ := h5
      subst e1 e2
      exact Or.inl ⟨b, d, hLb, h6, h7⟩
  · intro x hx
    obtain ⟨h3, h4⟩ := hF x 6 ⟨by omega, hx⟩
    have := h.top x h3.2
    simp only [Option.some.injEq, Prod.mk.injEq] at this
    exact absurd ⟨this.1.symm, this.2.symm⟩ h4

/-! ## A new page -/

theorem newpage_state_spec (s : State) (a : Nat) (ht : Table s) :
    Table (newpage_state s a) ∧
    (newpage_state s a).arena_list = s.arena_list ++ [a] ∧
    (newpage_state s a).pages = s.pages ++ [a] ∧
    (∀ j, (newpage_state s a).freeList j =
      if j = 6 then s.freeList 6 ++ [a + 20] else s.freeList j) ∧
    (∀ x, (newpage_state s a).arenas x =
      if x = a then { magic := ARENA_MAGIC, desc := some 0, free_cnt := 3 } else s.arenas x) ∧
    (newpage_state s a).loadSize (a + 20) = 1024 ∧
    (∀ x, (x + 4 ≤ a + 20 ∨ a + 24 ≤ x) → (newpage_state s a).loadSize x = s.loadSize x) := by
  have t1 : Table ((({ s with arena_list := s.arena_list ++ [a], pages := s.pages ++ [a] } :
      State).setArena a { magic := ARENA_MAGIC, desc := some 0, free_cnt := 3 }).storeSize
      (a + 20) 1024) := ht
  refine ⟨by simp only [newpage_state, table_setFreeList_iff]; exact ht, rfl, rfl, ?_, ?_, ?_, ?_⟩
  · intro j
    simp only [newpage_state, freeList_setFreeList _ t1 6 j _ (by omega)]
    rfl
  · intro x; rfl
  · simp only [newpage_state, loadSize_setFreeList]
    exact loadSize_storeSize_self _ _ _ (by simp [WORD])
  · intro x hx
    simp only [newpage_state, loadSize_setFreeList]
    rw [loadSize_storeSize_far _ _ _ _ (by omega)]
    rfl

theorem WF.cntAt_zero {s : State} {L : List Nat} (h : WF s L) (a i : Nat)
    (ha : a ∉ s.arena_list) : cntAt s i a = 0 := by
  simp only [cntAt, List.countP_eq_zero, decide_eq_true_eq]
  intro b hb e
  by_cases hi : i < 7
  · exact ha (e ▸ (h.tiling.place b i (Or.inl ⟨hi, hb⟩)).1)
  · rw [freeList_of_ge s h.table i (by omega)] at hb
    simp at hb

theorem WF.freeCount_zero {s : State} {L : List Nat} (h : WF s L) (a : Nat)
    (ha : a ∉ s.arena_list) : freeCount s a = 0 := by
  simp only [freeCount, h.cntAt_zero a _ ha]

theorem wf_newpage (s : State) (L : List Nat) (a : Nat) (h : WF s L) (htop : s.freeList 6 = [])
    (ha0 : a ≠ 0) (hal : a % 4096 = 0) (hhi : a + 4096 ≤ WORD) (haR : a ∉ s.arena_list) :
    WF (newpage_state s a) L ∧
    (∀ x i, LiveB (newpage_state s a) L x i ↔ LiveB s L x i) ∧
    (∀ x i, FreeB (newpage_state s a) x i ↔ FreeB s x i ∨ (x = a + 20 ∧ i = 6)) := by
  obtain ⟨htab, hreg, hpag, hfl, harn, hsz1, hszo⟩ := newpage_state_spec s a h.table
  have hpa : pg_round_down (a + 20) = a := pg_round_down_eq a _ hal (by omega) (by omega)
  -- blocks of the old state lie in other pages
  have hfar : ∀ x i, Used s L x i → x + bsz i ≤ a ∨ a + 4096 ≤ x := by
    intro x i hx
    obtain ⟨hxR, _, h1, _, h2⟩ := h.tiling.place x i hx
    have hne : pg_round_down x ≠ a := fun e => haR (e ▸ hxR)
    have := pg_round_down_mod x
    omega
  have hkeep : ∀ x i, Used s L x i → (newpage_state s a).loadSize x = s.loadSize x := by
    intro x i hx
    have := hfar x i hx
    have := bsz_ge i
    exact hszo x (by omega)
  have hF : ∀ x i, FreeB (newpage_state s a) x i ↔ FreeB s x i ∨ (x = a + 20 ∧ i = 6) := by
    intro x i
    simp only [FreeB, hfl]
    by_cases e : i = 6
    · subst e
      simp [htop]
    · simp [e]
  have hLv : ∀ x i, LiveB (newpage_state s a) L x i ↔ LiveB s L x i := by
    intro x i
    simp only [LiveB]
    constructor
    · rintro ⟨h3, h4, h5⟩
      obtain ⟨_, i1, hi1⟩ := h.live_of_mem (x + 12) h4
      rw [Nat.add_sub_cancel] at hi1
      rw [hkeep x i1 (Or.inr hi1)] at h5
      exact ⟨h3, h4, h5⟩
    · rintro ⟨h3, h4, h5⟩
      rw [hkeep x i (Or.inr ⟨h3, h4, h5⟩)]
      exact ⟨h3, h4, h5⟩
  have hU : ∀ x i, Used (newpage_state s a) L x i ↔ Used s L x i ∨ (x = a + 20 ∧ i = 6) := by
    intro x i
    simp only [Used, hF, hLv]
    tauto
  have hcnt : ∀ a1, freeCount (newpage_state s a) a1 =
      freeCount s a1 + (if a = a1 then 1 else 0) := by
    intro a1
    have c1 := freeCount_change s (newpage_state s a) 6 a1 (by omega)
      (fun j hj => by rw [hfl j, if_neg hj])
    have e1 : cntAt (newpage_state s a) 6 a1 = cntAt s 6 a1 + (if a = a1 then 1 else 0) := by
      simp only [cntAt, hfl, if_true, htop, List.nil_append, List.countP_cons, List.countP_nil,
        decide_eq_true_eq, hpa]
    omega
  refine ⟨
    { table := htab
      sorted := ?_
      pages_eq := by
        rw [hpag, hreg]
        intro x hx
        rcases List.mem_append.mp hx with hx | hx
        · exact List.mem_append_left _ (h.pages_eq x hx)
        · exact List.mem_append_right _ hx
      reg_nodup := ?_
      reg_ok := ?_
      hdr := ?_
      fsize := ?_
      live_nodup := h.live_nodup
      live_cls := ?_
      excl := ?_
      tiling := by
        rw [hreg]
        exact Tiling.newpage _ _ _ h.tiling a hal haR hU }, hLv, hF⟩
  · intro i
    rw [hfl]
    split
    · rw [htop]; simp
    · exact h.sorted i
  · rw [hreg]
    refine List.Nodup.append h.reg_nodup (List.nodup_singleton a) ?_
    intro x hx hx2
    have : x = a := by simpa using hx2
    exact haR (this ▸ hx)
  · intro a1 ha1
    rw [hreg] at ha1
    rcases List.mem_append.mp ha1 with ha1 | ha1
    · exact h.reg_ok a1 ha1
    · have : a1 = a := by simpa using ha1
      subst this
      exact ⟨ha0, hal, hhi⟩
  · intro a1 ha1
    rw [hreg] at ha1
    rw [harn, hcnt]
    rcases List.mem_append.mp ha1 with ha1 | ha1
    · have hne : a1 ≠ a := fun e => haR (e ▸ ha1)
      have hne2 : ¬ a = a1 := fun e => hne e.symm
      simp only [hne, hne2, if_false, Nat.add_zero]
      exact h.hdr a1 ha1
    · have : a1 = a := by simpa using ha1
      subst this
      simp only [if_true, h.freeCount_zero a1 haR, WORD]
      exact ⟨trivial, trivial, by norm_num⟩
  · intro x i hx
    rcases (hF x i).mp hx with h3 | ⟨h3, h4⟩
    · rw [hkeep x i (Or.inl h3)]
      exact h.fsize x i h3
    · rw [h3, h4, hsz1]; simp [bsz]
  · intro p hp
    obtain ⟨h3, i, h4, h5⟩ := h.live_cls p hp
    obtain ⟨_, i1, hi1⟩ := h.live_of_mem p hp
    exact ⟨h3, i, h4, by rw [hkeep _ i1 (Or.inr hi1)]; exact h5⟩
  · intro x i hx
    rcases (hF x i).mp hx with h3 | ⟨h3, h4⟩
    · exact h.excl x i h3
    · rw [h3]
      intro hin
      obtain ⟨_, i1, hi1⟩ := h.live_of_mem _ hin
      rw [Nat.add_sub_cancel] at hi1
      have := hfar _ i1 (Or.inr hi1)
      have := bsz_ge i1
      omega

theorem inv_newpage (s : State) (L : List Nat) (a : Nat) (h : Inv s L none)
    (ha0 : a ≠ 0) (hal : a % 4096 = 0) (hhi : a + 4096 ≤ WORD) (haR : a ∉ s.arena_list) :
    Inv (newpage_state s a) L (some (a + 20, 6)) ∧
    (newpage_state s a).freeList 6 = [a + 20] ∧
    (∀ j, j ≠ 6 → (newpage_state s a).freeList j = s.freeList j) := by
  obtain ⟨hwf, hLv, hF⟩ := wf_newpage s L a h.wf h.top_nil ha0 hal hhi haR
  obtain ⟨_, _, _, hfl, _⟩ := newpage_state_spec s a h.wf.table
  have h6 : (newpage_state s a).freeList 6 = [a + 20] := by
    rw [hfl, if_pos rfl, h.top_nil]; rfl
  refine ⟨⟨hwf, ?_, ?_⟩, h6, fun j hj => by rw [hfl, if_neg hj]⟩
  · intro x i hx hi _
    rcases (hF x i).mp hx with h3 | ⟨_, h4⟩
    · rcases h.paired x i h3 hi (by simp) with ⟨b1, i1, h5, h6, h7⟩ | ⟨mb, mi, h5, _⟩
      · exact Or.inl ⟨b1, i1, (hLv b1 i1).mpr h5, h6, h7⟩
      · simp at h5
    · omega
  · intro x hx
    rw [h6] at hx
    have : x = a + 20 := by simpa using hx
    rw [this]

/-! ## `malloc_breakdown` -/

theorem malloc_breakdown_done (s : State) (ht : Table s) (d : Nat) (hd : d < 7) :
    malloc_breakdown d d s = .ok s := by
  obtain ⟨bpa, hg, _⟩ := table_getDesc s ht d hd
  cases d with
  | zero => simp only [malloc_breakdown, hg, ok_bind, if_true, pure_eq_ok]
  | succ d => simp only [malloc_breakdown, hg, ok_bind, if_true, pure_eq_ok]

theorem malloc_breakdown_step (s : State) (L : List Nat) (c d b : Nat) (rest : List Nat)
    (h : WF s L) (hc : c < 6) (hdc : d ≤ c) (hl : s.freeList (c + 1) = b :: rest) :
    malloc_breakdown (c + 1) d s = malloc_breakdown c d (split_state s c b) := by
  have hfb : FreeB s b (c + 1) := ⟨by omega, by rw [hl]; exact List.mem_cons_self _ _⟩
  obtain ⟨haR, hblk, ha0, hal, hmag, hdesc⟩ := h.free_hdr b (c + 1) hfb
  obtain ⟨bpa1, hg1, _⟩ := table_getDesc s h.table (c + 1) (by omega)
  obtain ⟨bpa2, hg2, _⟩ := table_getDesc s h.table d (by omega)
  have hne : bsz (c + 1) ≠ bsz d := by
    intro e
    have := bsz_inj _ _ (by omega) (by omega) e
    omega
  have h2 := bsz_succ c
  have hge := bsz_ge c
  obtain ⟨_, hlo, hmod, hhi⟩ := hblk
  have hmod0 := mod_bsz_of_succ _ c hc hmod
  have hblk1 : Blk (pg_round_down b) b c := ⟨by omega, hlo, hmod0, by omega⟩
  have hblk2 : Blk (pg_round_down b) (b + bsz c) c := by
    refine ⟨by omega, by omega, ?_, by omega⟩
    have e : b + bsz c - (pg_round_down b + 20) = (b - (pg_round_down b + 20)) + bsz c := by
      omega
    rw [e, Nat.add_mod_right]; exact hmod0
  -- the intermediate states
  have b1 : block_to_arena (s.setFreeList (c + 1) rest) b = .ok (pg_round_down b) :=
    block_to_arena_blk _ _ _ _ (by simp [h.table]) ha0 hal (by simp [hmag]) (by simp [hdesc])
      hblk1
  obtain ⟨bpa3, hg3, _⟩ := table_getDesc ((s.setFreeList (c + 1) rest).decFreeCnt
    (pg_round_down b)) (by simp [h.table]) c (by omega)
  have b2 : block_to_arena
      ((((s.setFreeList (c + 1) rest).decFreeCnt (pg_round_down b)).storeSize b
        (bsz c)).storeSize (b + bsz c) (bsz c)) b = .ok (pg_round_down b) :=
    block_to_arena_blk _ _ _ _ (by simp [h.table]) ha0 hal
      (by simp [arenas_decFreeCnt, hmag]) (by simp [arenas_decFreeCnt, hdesc]) hblk1
  have b3 : block_to_arena
      ((((((s.setFreeList (c + 1) rest).decFreeCnt (pg_round_down b)).storeSize b
        (bsz c)).storeSize (b + bsz c) (bsz c)).insertFree c b).incFreeCnt
        (pg_round_down b)) (b + bsz c) = .ok (pg_round_down b) :=
    block_to_arena_blk _ _ _ _ (by simp [h.table]) ha0 hal
      (by simp [arenas_decFreeCnt, arenas_incFreeCnt, hmag])
      (by simp [arenas_decFreeCnt, arenas_incFreeCnt, hdesc]) hblk2
  rw [malloc_breakdown]
  simp only [hg1, hg2, ok_bind, hne, if_false, hl, b1, hg3, b2, b3]
  simp only [split_state, hl, List.tail_cons]

/-- The result of `malloc_breakdown (t, d)` when the front block `b` of class `t` is the
block in transit and the classes from `d` up to `t - 1` have empty free lists. -/
theorem malloc_breakdown_spec (d : Nat) (L : List Nat) (b : Nat) :
    ∀ k (s : State) (rest : List Nat), d + k < 7 → Inv s L (some (b, d + k)) →
      s.freeList (d + k) = b :: rest → (∀ j, d ≤ j → j < d + k → s.freeList j = []) →
      ∃ s1, malloc_breakdown (d + k) d s = .ok s1 ∧ Inv s1 L (some (b, d)) ∧
        s1.arena_list = s.arena_list ∧ s1.pages = s.pages ∧
        (∀ j, s1.freeList j =
          if d ≤ j ∧ j < d + k then (if j = d then [b, b + bsz j] else [b + bsz j])
          else if j = d + k ∧ 0 < k then rest else s.freeList j) := by
  intro k
  induction k with
  | zero =>
    intro s rest h7 hinv hl hemp
    refine ⟨s, malloc_breakdown_done s hinv.wf.table d h7, hinv, rfl, rfl, ?_⟩
    intro j
    rw [if_neg (by omega), if_neg (by omega)]
  | succ k ih =>
    intro s rest h7 hinv hl hemp
    have hc : d + k < 6 := by omega
    have hstep := malloc_breakdown_step s L (d + k) d b rest hinv.wf hc (by omega) hl
    have hinv1 := inv_split s L (d + k) b rest hinv hc hl
    obtain ⟨_, harl, hpgs, hfl, _⟩ := split_state_spec s (d + k) b hinv.wf.table hc
    have hge := bsz_ge (d + k)
    have hl1 : (split_state s (d + k) b).freeList (d + k) = b :: [b + bsz (d + k)] := by
      rw [hfl, if_neg (by omega), if_pos rfl, hemp (d + k) (by omega) (by omega)]
      simp [insert_sorted]
    have hemp1 : ∀ j, d ≤ j → j < d + k → (split_state s (d + k) b).freeList j = [] := by
      intro j h1 h2
      rw [hfl, if_neg (by omega), if_neg (by omega)]
      exact hemp j h1 (by omega)
    obtain ⟨s1, hr, hi1, ha1, hp1, hf1⟩ := ih (split_state s (d + k) b) [b + bsz (d + k)]
      (by omega) hinv1 hl1 hemp1
    refine ⟨s1, ?_, hi1, by rw [ha1, harl], by rw [hp1, hpgs], ?_⟩
    · rw [show d + (k + 1) = d + k + 1 from rfl, hstep]; exact hr
    · intro j
      have hins : insert_sorted (b + bsz (d + k)) (insert_sorted b (s.freeList (d + k))) =
          [b, b + bsz (d + k)] := by
        rw [hemp (d + k) (by omega) (by omega)]
        simp [insert_sorted]
      have hl2 : s.freeList (d + k + 1) = b :: rest := hl
      rw [hf1 j, hfl j, hins, hl2, List.tail_cons]
      split_ifs <;> first | rfl | omega | (have hj : j = d + k := by omega
                                           rw [hj])

/-! ## `malloc` on the split path -/

theorem find_desc_spec (s : State) (ht : Table s) (size : Nat) (h1 : size ≤ 1024) :
    find_desc size s.descs 0 < 7 ∧ size ≤ bsz (find_desc size s.descs 0) ∧
    ∀ j, j < find_desc size s.descs 0 → bsz j < size := by
  obtain ⟨l0, l1, l2, l3, l4, l5, l6, hds⟩ := table_descs s ht
  simp only [hds, find_desc]
  split_ifs <;> refine ⟨by omega, by simp [bsz]; omega, ?_⟩ <;> intro j hj <;>
    interval_cases j <;> simp [bsz] <;> omega

theorem find_nonempty_gen (ds : List desc) (i : Nat) :
    i ≤ find_nonempty ds i ∧ find_nonempty ds i ≤ i + ds.length ∧
    (∀ k, k < find_nonempty ds i - i → ∃ x, ds[k]? = some x ∧ x.free_list = []) ∧
    (find_nonempty ds i < i + ds.length →
      ∃ x, ds[find_nonempty ds i - i]? = some x ∧ x.free_list ≠ []) := by
  induction ds generalizing i with
  | nil => simp [find_nonempty]
  | cons d ds ih =>
    simp only [find_nonempty]
    split
    · rename_i hne
      refine ⟨Nat.le_refl _, by simp, ?_, ?_⟩
      · intro k hk; omega
      · intro _
        exact ⟨d, by simp, hne⟩
    · rename_i hne
      have hd : d.free_list = [] := by simpa using hne
      obtain ⟨h1, h2, h3, h4⟩ := ih (i + 1)
      refine ⟨by omega, by simp only [List.length_cons]; omega, ?_, ?_⟩
      · intro k hk
        cases k with
        | zero => exact ⟨d, by simp, hd⟩
        | succ k =>
          obtain ⟨x, hx1, hx2⟩ := h3 k (by omega)
          exact ⟨x, by simpa using hx1, hx2⟩
      · intro hlt
        obtain ⟨x, hx1, hx2⟩ := h4 (by simp only [List.length_cons] at hlt; omega)
        refine ⟨x, ?_, hx2⟩
        have e : find_nonempty ds (i + 1) - i = (find_nonempty ds (i + 1) - (i + 1)) + 1 := by
          omega
        rw [e]
        simpa using hx1

theorem find_nonempty_spec (s : State) (d : Nat) (hd : d ≤ s.descs.length) :
    d ≤ find_nonempty (s.descs.drop d) d ∧
    find_nonempty (s.descs.drop d) d ≤ s.descs.length ∧
    (∀ j, d ≤ j → j < find_nonempty (s.descs.drop d) d → s.freeList j = []) ∧
    (find_nonempty (s.descs.drop d) d < s.descs.length →
      s.freeList (find_nonempty (s.descs.drop d) d) ≠ []) := by
  obtain ⟨h1, h2, h3, h4⟩ := find_nonempty_gen (s.descs.drop d) d
  simp only [List.length_drop] at h2 h4
  refine ⟨h1, by omega, ?_, ?_⟩
  · intro j hj1 hj2
    obtain ⟨x, hx1, hx2⟩ := h3 (j - d) (by omega)
    rw [List.getElem?_drop] at hx1
    have e : d + (j - d) = j := by omega
    rw [e] at hx1
    simp [State.freeList, hx1, hx2]
  · intro hlt
    obtain ⟨x, hx1, hx2⟩ := h4 (by omega)
    rw [List.getElem?_drop] at hx1
    have e : d + (find_nonempty (s.descs.drop d) d - d) = find_nonempty (s.descs.drop d) d := by
      omega
    rw [e] at hx1
    simp [State.freeList, hx1, hx2]

theorem arena_to_block_zero (s : State) (a : Nat) (ht : Table s) (ha0 : a ≠ 0)
    (hm : (s.arenas a).magic = ARENA_MAGIC) (hd : (s.arenas a).desc = some 0) :
    arena_to_block s a 0 = .ok (a + 20) := by
  obtain ⟨l, h0⟩ := table_get0 s ht
  simp [arena_to_block, ha0, hm, hd, h0, SIZEOF_ARENA]

theorem malloc_eq_refill_take (pg n : Nat) (s : State) (hn : n ≠ 0)
    (hne : find_desc ((n + SIZEOF_BLOCK) % WORD) s.descs 0 ≠ s.desc_cnt) :
    malloc pg n s = malloc_refill pg (find_desc ((n + SIZEOF_BLOCK) % WORD) s.descs 0) s >>=
      malloc_take (find_desc ((n + SIZEOF_BLOCK) % WORD) s.descs 0) := by
  simp only [malloc, malloc_refill, hn, hne, if_false]
  split_ifs <;> simp only [bind_assoc, pure_bind, ok_bind, error_bind, pure_eq_ok] <;> rfl

/-- The pop at the end of `malloc`, when the front block `b` of class `d` is the block in
transit. -/
theorem malloc_pop (s1 : State) (L : List Nat) (d b : Nat) (rest : List Nat)
    (h : Inv s1 L (some (b, d))) (hd : d < 7) (hl : s1.freeList d = b :: rest) :
    malloc_take d s1 = .ok (b + 12, alloc_state s1 d b) ∧
    Inv (alloc_state s1 d b) ((b + 12) :: L) none := by
  have hinv := inv_alloc s1 L d b rest h hd hl
  have hfb : FreeB s1 b d := ⟨hd, by rw [hl]; exact List.mem_cons_self _ _⟩
  obtain ⟨haR, hblk, ha0, hal, hmag, hdesc⟩ := h.wf.free_hdr b d hfb
  have b1 : block_to_arena (s1.setFreeList d rest) b = .ok (pg_round_down b) :=
    block_to_arena_blk _ _ _ _ (by simp [h.wf.table]) ha0 hal (by simp [hmag])
      (by simp [hdesc]) hblk
  have e : (s1.setFreeList d rest).decFreeCnt (pg_round_down b) = alloc_state s1 d b := by
    simp only [alloc_state, hl, List.tail_cons]
  refine ⟨?_, hinv⟩
  simp only [malloc_take, hl, b1, ok_bind, e, printMemory_ok _ _ hinv.wf, pure_eq_ok,
    SIZEOF_BLOCK]

/-- A split-path `malloc` that is offered a fresh page succeeds and keeps the invariant;
the block it hands out has the smallest class that holds the request and a header, where
the request is the sum `size + sizeof *b` as the machine computes it. The registry and
the pages held stay as they are or both gain the page offered. -/
theorem malloc_spec (s : State) (L : List Nat) (pg n : Nat) (h : Inv s L none) (hn : 0 < n)
    (hn2 : (n + SIZEOF_BLOCK) % WORD ≤ 1024) (hpg : NeedsPage s n → PageOK s pg) :
    ∃ b s1, malloc pg n s = .ok (b + 12, s1) ∧ Inv s1 ((b + 12) :: L) none ∧
      s1.loadSize b = bsz (find_desc ((n + SIZEOF_BLOCK) % WORD) s.descs 0) ∧
      (n + SIZEOF_BLOCK) % WORD ≤ bsz (find_desc ((n + SIZEOF_BLOCK) % WORD) s.descs 0) ∧
      (∀ j, j < find_desc ((n + SIZEOF_BLOCK) % WORD) s.descs 0 →
        bsz j < (n + SIZEOF_BLOCK) % WORD) ∧
      ((s1.arena_list = s.arena_list ∧ s1.pages = s.pages) ∨
       (pg ∉ s.pages ∧ s1.arena_list = s.arena_list ++ [pg] ∧ s1.pages = s.pages ++ [pg])) := by
  generalize hsz : (n + SIZEOF_BLOCK) % WORD = sz at hn2
  obtain ⟨hd7, hdle, hdmin⟩ := find_desc_spec s h.wf.table sz hn2
  have hcnt := table_desc_cnt s h.wf.table
  have hlen := table_length s h.wf.table
  generalize hdd : find_desc sz s.descs 0 = d at hd7 hdle hdmin
  -- the state after the refill
  have hrefill : ∃ s1 b rest, Inv s1 L (some (b, d)) ∧ s1.freeList d = b :: rest ∧
      malloc_refill pg d s = .ok s1 ∧
      ((s1.arena_list = s.arena_list ∧ s1.pages = s.pages) ∨
       (pg ∉ s.pages ∧ s1.arena_list = s.arena_list ++ [pg] ∧ s1.pages = s.pages ++ [pg])) := by
    unfold malloc_refill
    rcases hfd : s.freeList d with _ | ⟨b, rest⟩
    · obtain ⟨ht1, ht2, ht3, ht4⟩ := find_nonempty_spec s d (by omega)
      rw [if_pos rfl]
      by_cases ht : find_nonempty (s.descs.drop d) d = s.desc_cnt
      · rw [ht, hcnt] at ht3
        obtain ⟨hpg0, hpgal, hpghi, hpgP⟩ := hpg (by
          unfold NeedsPage
          rw [hsz, hdd]
          intro j hj
          by_cases hj7 : j < 7
          · exact ht3 j hj hj7
          · exact freeList_of_ge s h.wf.table j (by omega))
        have hpgR : pg ∉ s.arena_list := fun hin => hpgP (h.wf.pages_eq pg hin)
        rw [if_pos ht, if_neg hpg0]
        obtain ⟨hinv1, hl6, hother⟩ := inv_newpage s L pg h hpg0 hpgal hpghi hpgR
        obtain ⟨_, hnreg, hnpag, _⟩ := newpage_state_spec s pg h.wf.table
        have g1 : getDesc (⟨s.descs, s.arena_list ++ [pg], s.arenas, s.mem, s.pages ++ [pg]⟩ : State) (7 - 1) =
            .ok ⟨1024, 3, s.freeList 6⟩ := by
          obtain ⟨bpa, hg, hb⟩ := table_getDesc s h.wf.table 6 (by omega)
          have : getDesc (⟨s.descs, s.arena_list ++ [pg], s.arenas, s.mem, s.pages ++ [pg]⟩ : State) 6 = getDesc s 6 := rfl
          rw [this, hg, hb rfl]; simp [bsz]
        have g2 : arena_to_block ((⟨s.descs, s.arena_list ++ [pg], s.arenas, s.mem, s.pages ++ [pg]⟩ : State).setArena pg
            { magic := ARENA_MAGIC, desc := some 0, free_cnt := 3 }) pg 0 = .ok (pg + 20) :=
          arena_to_block_zero _ _ h.wf.table hpg0 (by simp) (by simp)
        have hk : d + (6 - d) = 6 := by omega
        obtain ⟨s1, hr, hi1, har1, hpg1, hf1⟩ := malloc_breakdown_spec d L (pg + 20) (6 - d)
          (newpage_state s pg) [] (by omega) (by rw [hk]; exact hinv1) (by rw [hk]; exact hl6)
          (fun j hj1 hj2 => by rw [hother j (by omega)]; exact ht3 j hj1 (by omega))
        rw [hk] at hr
        refine ⟨s1, pg + 20, (s1.freeList d).tail, hi1, ?_, ?_,
          Or.inr ⟨hpgP, by rw [har1, hnreg], by rw [hpg1, hnpag]⟩⟩
        · rw [hf1 d]
          by_cases e : d = 6
          · subst e
            rw [if_neg (by omega), if_neg (by omega), hl6]; rfl
          · rw [if_pos (by omega), if_pos rfl]; rfl
        · simp only [hcnt, g1, ok_bind, g2]
          exact hr
      · rw [if_neg ht]
        rw [hcnt] at ht
        rw [hlen] at ht2 ht4
        have ht7 : find_nonempty (s.descs.drop d) d < 7 := by omega
        generalize find_nonempty (s.descs.drop d) d = t at ht1 ht2 ht3 ht4 ht7
        have htne := ht4 ht7
        rcases hft : s.freeList t with _ | ⟨b, rest⟩
        · exact absurd hft htne
        · have hk : d + (t - d) = t := by omega
          obtain ⟨s1, hr, hi1, har1, hpg1, hf1⟩ := malloc_breakdown_spec d L b (t - d) s rest
            (by omega) (by rw [hk]; exact h.weaken _) (by rw [hk]; exact hft)
            (fun j hj1 hj2 => ht3 j hj1 (by omega))
          rw [hk] at hr
          have htd : t ≠ d := fun e => by rw [e, hfd] at hft; simp at hft
          refine ⟨s1, b, (s1.freeList d).tail, hi1, ?_, hr, Or.inl ⟨har1, hpg1⟩⟩
          rw [hf1 d, if_pos (by omega), if_pos rfl]; rfl
    · rw [if_neg (by simp)]
      exact ⟨s, b, rest, h.weaken _, hfd, rfl, Or.inl ⟨rfl, rfl⟩⟩
  obtain ⟨s1, b, rest, hinv1, hl1, hre, hpages⟩ := hrefill
  obtain ⟨hpop, hinv2⟩ := malloc_pop s1 L d b rest hinv1 hd7 hl1
  have hfb : FreeB s1 b d := ⟨hd7, by rw [hl1]; exact List.mem_cons_self _ _⟩
  refine ⟨b, alloc_state s1 d b, ?_, hinv2, hinv1.wf.fsize b d hfb, hdle, hdmin, hpages⟩
  have hd_ne : find_desc ((n + SIZEOF_BLOCK) % WORD) s.descs 0 ≠ s.desc_cnt := by
    rw [hsz, hdd]; omega
  rw [malloc_eq_refill_take pg n s (Nat.pos_iff_ne_zero.mp hn) hd_ne, hsz, hdd, hre, ok_bind]
  exact hpop

/-! ## The insertion at the start of `free` -/

theorem free_state_spec (s : State) (i b : Nat) (ht : Table s) (hi : i < 7) :
    Table (free_state s i b) ∧
    (free_state s i b).arena_list = s.arena_list ∧
    (free_state s i b).pages = s.pages ∧
    (∀ j, (free_state s i b).freeList j =
      if j = i then insert_sorted b (s.freeList i) else s.freeList j) ∧
    (∀ x, (free_state s i b).arenas x =
      if x = pg_round_down b then
        { s.arenas (pg_round_down b) with
          free_cnt := ((s.arenas (pg_round_down b)).free_cnt + 1) % WORD }
      else s.arenas x) ∧
    (∀ x, (free_state s i b).loadSize x = s.loadSize x) := by
  refine ⟨by simp [free_state, ht], rfl, rfl, ?_, fun x => rfl, fun x => rfl⟩
  intro j
  simp only [free_state, freeList_incFreeCnt, freeList_insertFree s ht i j b hi]

theorem wf_free (s : State) (L : List Nat) (b i : Nat) (h : WF s L)
    (hb : LiveB s L b i) :
    WF (free_state s i b) (L.erase (b + 12)) ∧
    (∀ x j, FreeB (free_state s i b) x j ↔ FreeB s x j ∨ (x = b ∧ j = i)) ∧
    (∀ x j, LiveB (free_state s i b) (L.erase (b + 12)) x j ↔ LiveB s L x j ∧ x ≠ b) := by
  obtain ⟨hi, hbL, hsz⟩ := hb
  obtain ⟨htab, hreg, hpag, hfl, harn, hls⟩ := free_state_spec s i b h.table hi
  obtain ⟨haR, hblk⟩ := h.tiling.place b i (Or.inr ⟨hi, hbL, hsz⟩)
  have hnf : ∀ j, b ∉ s.freeList j := by
    intro j hj
    by_cases hj7 : j < 7
    · exact h.excl b j ⟨hj7, hj⟩ hbL
    · rw [freeList_of_ge s h.table j (by omega)] at hj
      simp at hj
  have hF : ∀ x j, FreeB (free_state s i b) x j ↔ FreeB s x j ∨ (x = b ∧ j = i) := by
    intro x j
    simp only [FreeB, hfl]
    by_cases e : j = i
    · subst e
      simp only [if_true, mem_insert_sorted, and_true]
      constructor
      · rintro ⟨h1, h2 | h2⟩
        · exact Or.inr h2
        · exact Or.inl ⟨h1, h2⟩
      · rintro (⟨h1, h2⟩ | h2)
        · exact ⟨h1, Or.inr h2⟩
        · exact ⟨hi, Or.inl h2⟩
    · simp [e]
  have hLv : ∀ x j, LiveB (free_state s i b) (L.erase (b + 12)) x j ↔
      LiveB s L x j ∧ x ≠ b := by
    intro x j
    simp only [LiveB, hls, h.live_nodup.mem_erase_iff]
    constructor
    · rintro ⟨h1, ⟨h2, h3⟩, h4⟩
      exact ⟨⟨h1, h3, h4⟩, fun e => h2 (by rw [e])⟩
    · rintro ⟨⟨h1, h3, h4⟩, h2⟩
      exact ⟨h1, ⟨fun e => h2 (by omega), h3⟩, h4⟩
  have hU : ∀ x j, Used (free_state s i b) (L.erase (b + 12)) x j ↔ Used s L x j := by
    intro x j
    simp only [Used, hF, hLv]
    constructor
    · rintro ((h1 | ⟨h1, h2⟩) | ⟨h1, _⟩)
      · exact Or.inl h1
      · subst h1 h2; exact Or.inr ⟨hi, hbL, hsz⟩
      · exact Or.inr h1
    · rintro (h1 | h1)
      · exact Or.inl (Or.inl h1)
      · by_cases e : x = b
        · subst e
          have : j = i := bsz_inj j i h1.1 hi (by rw [← h1.2.2, hsz])
          exact Or.inl (Or.inr ⟨rfl, this⟩)
        · exact Or.inr ⟨h1, e⟩
  have hcnt : ∀ a1, freeCount (free_state s i b) a1 =
      freeCount s a1 + (if pg_round_down b = a1 then 1 else 0) := by
    intro a1
    have c1 := freeCount_change s (free_state s i b) i a1 hi
      (fun j hj => by rw [hfl j, if_neg hj])
    have e1 : cntAt (free_state s i b) i a1 = cntAt s i a1 +
        (if pg_round_down b = a1 then 1 else 0) := by
      simp only [cntAt, hfl, if_true, countP_insert_sorted, decide_eq_true_eq]
    omega
  refine ⟨
    { table := htab
      sorted := ?_
      pages_eq := by rw [hpag, hreg]; exact h.pages_eq
      reg_nodup := by rw [hreg]; exact h.reg_nodup
      reg_ok := by rw [hreg]; exact h.reg_ok
      hdr := ?_
      fsize := ?_
      live_nodup := h.live_nodup.erase _
      live_cls := ?_
      excl := ?_
      tiling := by
        rw [hreg]
        exact Tiling.congr _ _ _ hU h.tiling }, hF, hLv⟩
  · intro j
    rw [hfl]
    split
    · exact pairwise_insert_sorted _ _ (h.sorted i) (hnf i)
    · exact h.sorted j
  · intro a1 ha1
    rw [hreg] at ha1
    obtain ⟨h3, h4, h5⟩ := h.hdr a1 ha1
    rw [harn, hcnt]
    by_cases e : a1 = pg_round_down b
    · subst e
      simp only [if_true]
      refine ⟨h3, h4, ?_⟩
      simp only [h5, WORD]
      omega
    · have e2 : ¬ pg_round_down b = a1 := fun x => e x.symm
      simp only [e, e2, if_false, Nat.add_zero]
      exact ⟨h3, h4, h5⟩
  · intro x j hx
    rw [hls]
    rcases (hF x j).mp hx with h3 | ⟨h3, h4⟩
    · exact h.fsize x j h3
    · rw [h3, h4]; exact hsz
  · intro p hp
    have hp2 := List.mem_of_mem_erase hp
    obtain ⟨h3, j, h4, h5⟩ := h.live_cls p hp2
    exact ⟨h3, j, h4, by rw [hls]; exact h5⟩
  · intro x j hx
    rcases (hF x j).mp hx with h3 | ⟨h3, _⟩
    · exact fun hin => h.excl x j h3 (List.mem_of_mem_erase hin)
    · rw [h3]
      exact List.Nodup.not_mem_erase h.live_nodup

theorem inv_free (s : State) (L : List Nat) (b i : Nat) (h : Inv s L none)
    (hb : LiveB s L b i) :
    Inv (free_state s i b) (L.erase (b + 12)) (some (b, i)) ∧ FreeB (free_state s i b) b i := by
  obtain ⟨hwf, hF, hLv⟩ := wf_free s L b i h.wf hb
  obtain ⟨_, _, _, hfl, _⟩ := free_state_spec s i b h.wf.table hb.1
  refine ⟨⟨hwf, ?_, ?_⟩, (hF b i).mpr (Or.inr ⟨rfl, rfl⟩)⟩
  · intro x j hx hj hne
    rcases (hF x j).mp hx with h3 | ⟨h3, h4⟩
    · rcases h.paired x j h3 hj (by simp) with ⟨b1, i1, h5, h6, h7⟩ | ⟨mb, mi, h5, _⟩
      · by_cases e : b1 = b
        · subst e
          have : i1 = i := bsz_inj i1 i h5.1 hb.1 (by rw [← h5.2.2, hb.2.2])
          subst this
          exact Or.inr ⟨b1, i1, rfl, h6, h7⟩
        · exact Or.inl ⟨b1, i1, (hLv b1 i1).mpr ⟨h5, e⟩, h6, h7⟩
      · simp at h5
    · subst h3 h4
      exact absurd rfl hne
  · intro x hx
    rw [hfl] at hx
    by_cases e : 6 = i
    · subst e
      rw [if_pos rfl, h.top_nil] at hx
      have : x = b := by simpa [insert_sorted] using hx
      rw [this]
    · rw [if_neg e, h.top_nil] at hx
      simp at hx

/-! ## One merge of `free_buildup` -/

theorem loadSize_memset_far (s : State) (d c n x : Nat) (h : x + 12 ≤ d ∨ d + n ≤ x + 8) :
    (s.setMem (memset s.mem d c n)).loadSize x = s.loadSize x := by
  simp only [State.loadSize, OFS_SIZE, mem_setMem]
  apply read32_congr
  intro y h1 h2
  exact memset_far _ _ _ _ _ (by omega)

theorem merge_state_spec (s : State) (c b b1 : Nat) (ht : Table s) (hc : c < 6) :
    Table (merge_state s c b b1) ∧
    (merge_state s c b b1).arena_list = s.arena_list ∧
    (merge_state s c b b1).pages = s.pages ∧
    (∀ j, (merge_state s c b b1).freeList j =
      if j = c + 1 then insert_sorted b1 (s.freeList (c + 1))
      else if j = c then ((s.freeList c).erase b1).erase (b1 + bsz c)
      else s.freeList j) ∧
    (∀ x, (merge_state s c b b1).arenas x =
      if x = pg_round_down b1 then
        { s.arenas (pg_round_down b1) with
          free_cnt := ((((s.arenas (pg_round_down b1)).free_cnt + (WORD - 1)) % WORD +
            (WORD - 1)) % WORD + 1) % WORD }
      else s.arenas x) ∧
    (merge_state s c b b1).loadSize b1 = bsz (c + 1) ∧
    (∀ x, (x + 12 ≤ b ∨ b + bsz c ≤ x + 8) → (x + 4 ≤ b1 ∨ b1 + 4 ≤ x) →
      (merge_state s c b b1).loadSize x = s.loadSize x) := by
  have h2 := bsz_succ c
  have hlt := bsz_lt_word (c + 1) (by omega)
  have e2 : bsz c * 2 % WORD = bsz (c + 1) := by
    rw [Nat.mod_eq_of_lt (by omega)]; omega
  have t1 : Table ((s.setFreeList c ((s.freeList c).erase b1)).decFreeCnt (pg_round_down b1)) := by
    simp [ht]
  refine ⟨by simp [merge_state, ht], rfl, rfl, ?_, ?_, ?_, ?_⟩
  · intro j
    simp only [merge_state, freeList_incFreeCnt]
    rw [freeList_insertFree _ (by simp [ht]) (c + 1) j b1 (by omega)]
    simp only [freeList_storeSize, freeList_setMem, freeList_decFreeCnt,
      freeList_setFreeList _ t1 c _ _ (by omega), freeList_setFreeList s ht c _ _ (by omega)]
    by_cases e1 : j = c + 1
    · subst e1
      have : ¬ c + 1 = c := by omega
      simp [this]
    · by_cases e3 : j = c
      · simp [e1, e3]
      · simp [e1, e3]
  · intro x
    simp only [merge_state, arenas_incFreeCnt, arenas_insertFree, arenas_storeSize,
      arenas_decFreeCnt, arenas_setFreeList, arenas_setMem]
    by_cases h1 : x = pg_round_down b1
    · simp [h1]
    · simp [h1]
  · simp only [merge_state, loadSize_incFreeCnt, loadSize_insertFree, e2]
    exact loadSize_storeSize_self _ _ _ hlt
  · intro x h3 h4
    simp only [merge_state, loadSize_incFreeCnt, loadSize_insertFree]
    rw [loadSize_storeSize_far _ _ _ _ (by omega)]
    exact loadSize_memset_far _ _ _ _ _ h3

theorem countP_erase_of_mem (p : Nat → Bool) (l : List Nat) (x : Nat) (hx : x ∈ l) :
    l.countP p = (l.erase x).countP p + (if p x then 1 else 0) := by
  rw [(List.perm_cons_erase hx).countP_eq, List.countP_cons]

theorem wf_merge (s : State) (L : List Nat) (c b b1 : Nat) (h : WF s L) (hc : c < 6)
    (hf1 : FreeB s b1 c) (hf2 : FreeB s (b1 + bsz c) c)
    (hev : (b1 - (pg_round_down b1 + 20)) % bsz (c + 1) = 0)
    (hbb : b = b1 ∨ b = b1 + bsz c) :
    WF (merge_state s c b b1) L ∧
    (∀ x j, FreeB (merge_state s c b b1) x j ↔
      (FreeB s x j ∧ ¬ (j = c ∧ (x = b1 ∨ x = b1 + bsz c))) ∨ (x = b1 ∧ j = c + 1)) ∧
    (∀ x j, LiveB (merge_state s c b b1) L x j ↔ LiveB s L x j) := by
  obtain ⟨haR, hblk, ha0, hal, hmag, hdesc⟩ := h.free_hdr b1 c hf1
  obtain ⟨_, hlo, hmod, hhi⟩ := hblk
  obtain ⟨_, hblk2⟩ := h.tiling.place _ _ (Or.inl hf2)
  obtain ⟨htab, hreg, hpag, hfl, harn, hsz1, hszo⟩ := merge_state_spec s c b b1 h.table hc
  have h2 := bsz_succ c
  have hge := bsz_ge c
  have hp2 : pg_round_down (b1 + bsz c) = pg_round_down b1 :=
    pg_round_down_eq _ _ hal (by omega) (by omega)
  rw [hp2] at hblk2
  obtain ⟨_, _, _, hhi2⟩ := hblk2
  have hnd : (s.freeList c).Nodup := (h.sorted c).imp (fun hlt => Nat.ne_of_lt hlt)
  have hkeep : ∀ x, (x + 16 ≤ b1 ∨ b1 + bsz (c + 1) ≤ x) →
      (merge_state s c b b1).loadSize x = s.loadSize x := fun x hx =>
    hszo x (by rcases hbb with e | e <;> omega) (by omega)
  have hF : ∀ x j, FreeB (merge_state s c b b1) x j ↔
      (FreeB s x j ∧ ¬ (j = c ∧ (x = b1 ∨ x = b1 + bsz c))) ∨ (x = b1 ∧ j = c + 1) := by
    intro x j
    by_cases e1 : j = c + 1
    · subst e1
      have hcc : ¬ c + 1 = c := by omega
      simp only [FreeB, hfl, if_true, mem_insert_sorted, hcc, false_and, not_false_eq_true,
        and_true]
      constructor
      · rintro ⟨h3, h4 | h4⟩
        · exact Or.inr h4
        · exact Or.inl ⟨h3, h4⟩
      · rintro (⟨h3, h4⟩ | h4)
        · exact ⟨h3, Or.inr h4⟩
        · exact ⟨by omega, Or.inl h4⟩
    · by_cases e3 : j = c
      · subst e3
        simp only [FreeB, hfl, e1, if_false, if_true, and_false, or_false, true_and,
          (hnd.erase b1).mem_erase_iff, hnd.mem_erase_iff]
        tauto
      · simp [FreeB, hfl, e1, e3]
  have hlivefar : ∀ p, p ∈ L → p - 12 + 16 ≤ b1 ∨ b1 + bsz (c + 1) ≤ p - 12 := by
    intro p hp
    have d1 := h.mem_live_far b1 c p hf1 hp
    have d2 := h.mem_live_far (b1 + bsz c) c p hf2 hp
    omega
  have hLv : ∀ x j, LiveB (merge_state s c b b1) L x j ↔ LiveB s L x j := by
    intro x j
    simp only [LiveB]
    constructor
    · rintro ⟨h3, h4, h5⟩
      have := hlivefar (x + 12) h4
      rw [hkeep x (by omega)] at h5
      exact ⟨h3, h4, h5⟩
    · rintro ⟨h3, h4, h5⟩
      have := hlivefar (x + 12) h4
      rw [hkeep x (by omega)]
      exact ⟨h3, h4, h5⟩
  have hU : ∀ x j, Used (merge_state s c b b1) L x j ↔
      (Used s L x j ∧ ¬ (j = c ∧ (x = b1 ∨ x = b1 + bsz c))) ∨ (x = b1 ∧ j = c + 1) := by
    intro x j
    simp only [Used, hF, hLv]
    constructor
    · rintro ((⟨h3, h4⟩ | h3) | h3)
      · exact Or.inl ⟨Or.inl h3, h4⟩
      · exact Or.inr h3
      · refine Or.inl ⟨Or.inr h3, ?_⟩
        rintro ⟨_, e | e⟩
        · exact h.excl b1 c hf1 (e ▸ h3.2.1)
        · exact h.excl _ c hf2 (e ▸ h3.2.1)
    · rintro (⟨h3 | h3, h4⟩ | h3)
      · exact Or.inl (Or.inl ⟨h3, h4⟩)
      · exact Or.inr h3
      · exact Or.inl (Or.inr h3)
  have hnb : b1 ∉ s.freeList (c + 1) := by
    intro hb
    have := h.free_far b1 c b1 (c + 1) hf1 ⟨by omega, hb⟩ (by omega)
    omega
  have hcnt : ∀ a1, freeCount (merge_state s c b b1) a1 +
      (if pg_round_down b1 = a1 then 1 else 0) = freeCount s a1 := by
    intro a1
    have tm : Table (s.setFreeList c (((s.freeList c).erase b1).erase (b1 + bsz c))) := by
      simp [h.table]
    have hm : ∀ j, (s.setFreeList c (((s.freeList c).erase b1).erase (b1 + bsz c))).freeList j =
        if j = c then ((s.freeList c).erase b1).erase (b1 + bsz c) else s.freeList j := fun j =>
      freeList_setFreeList s h.table c j _ (by omega)
    have c1 := freeCount_change s _ c a1 (by omega) (fun j hj => by rw [hm j, if_neg hj])
    have c2 := freeCount_change (s.setFreeList c (((s.freeList c).erase b1).erase (b1 + bsz c)))
      (merge_state s c b b1) (c + 1) a1 (by omega) (fun j hj => by
        rw [hfl j, hm j, if_neg hj])
    have hin2 : b1 + bsz c ∈ (s.freeList c).erase b1 :=
      (hnd.mem_erase_iff).mpr ⟨by omega, hf2.2⟩
    have e1 : cntAt s c a1 =
        cntAt (s.setFreeList c (((s.freeList c).erase b1).erase (b1 + bsz c))) c a1 +
        (if pg_round_down b1 = a1 then 1 else 0) + (if pg_round_down b1 = a1 then 1 else 0) := by
      simp only [cntAt, hm, if_true]
      rw [countP_erase_of_mem _ _ b1 hf1.2, countP_erase_of_mem _ _ (b1 + bsz c) hin2]
      simp only [decide_eq_true_eq, hp2]
    have e2 : cntAt (merge_state s c b b1) (c + 1) a1 =
        cntAt (s.setFreeList c (((s.freeList c).erase b1).erase (b1 + bsz c))) (c + 1) a1 +
        (if pg_round_down b1 = a1 then 1 else 0) := by
      have : ¬ c + 1 = c := by omega
      simp only [cntAt, hfl, hm, this, if_false, if_true, countP_insert_sorted,
        decide_eq_true_eq]
    omega
  refine ⟨
    { table := htab
      sorted := ?_
      pages_eq := by rw [hpag, hreg]; exact h.pages_eq
      reg_nodup := by rw [hreg]; exact h.reg_nodup
      reg_ok := by rw [hreg]; exact h.reg_ok
      hdr := ?_
      fsize := ?_
      live_nodup := h.live_nodup
      live_cls := ?_
      excl := ?_
      tiling := by
        rw [hreg]
        exact Tiling.merge _ _ _ h.tiling b1 c hc (Or.inl hf1) (Or.inl hf2) hev hU }, hF, hLv⟩
  · intro i
    rw [hfl]
    split
    · exact pairwise_insert_sorted _ _ (h.sorted (c + 1)) hnb
    · split
      · exact ((h.sorted c).sublist (List.erase_sublist _ _)).sublist (List.erase_sublist _ _)
      · exact h.sorted i
  · intro a1 ha1
    rw [hreg] at ha1
    obtain ⟨h3, h4, h5⟩ := h.hdr a1 ha1
    have hc1 := hcnt a1
    rw [harn]
    by_cases e : a1 = pg_round_down b1
    · subst e
      simp only [if_true] at hc1 ⊢
      refine ⟨h3, h4, ?_⟩
      simp only [h5, WORD]
      omega
    · have e2 : ¬ pg_round_down b1 = a1 := fun x => e x.symm
      simp only [e, e2, if_false, Nat.add_zero] at hc1 ⊢
      exact ⟨h3, h4, by rw [hc1]; exact h5⟩
  · intro x j hx
    rcases (hF x j).mp hx with ⟨h3, h4⟩ | ⟨h3, h4⟩
    · have d1 := h.free_far b1 c x j hf1 h3 (by tauto)
      have d2 := h.free_far (b1 + bsz c) c x j hf2 h3 (by tauto)
      have := bsz_ge j
      rw [hkeep x (by omega)]
      exact h.fsize x j h3
    · rw [h3, h4]; exact hsz1
  · intro p hp
    obtain ⟨h3, i, h4, h5⟩ := h.live_cls p hp
    have := hlivefar p hp
    exact ⟨h3, i, h4, by rw [hkeep _ (by omega)]; exact h5⟩
  · intro x j hx
    rcases (hF x j).mp hx with ⟨h3, _⟩ | ⟨h3, _⟩
    · exact h.excl x j h3
    · rw [h3]; exact h.excl b1 c hf1

/-! ## The invariant through one merge -/

theorem bsz_vals : bsz 0 = 16 ∧ bsz 1 = 32 ∧ bsz 2 = 64 ∧ bsz 3 = 128 ∧ bsz 4 = 256 ∧
    bsz 5 = 512 ∧ bsz 6 = 1024 := by
  simp [bsz]

/-- Two well placed blocks of one page that overlap are nested. -/
theorem blk_nest (a y k z i : Nat) (hki : k ≤ i) (hy : Blk a y k) (hz : Blk a z i)
    (h1 : y < z + bsz i) (h2 : z < y + bsz k) : z ≤ y ∧ y + bsz k ≤ z + bsz i := by
  obtain ⟨_, hy1, hy2, _⟩ := hy
  obtain ⟨hi, hz1, hz2, _⟩ := hz
  obtain ⟨v0, v1, v2, v3, v4, v5, v6⟩ := bsz_vals
  interval_cases i <;> interval_cases k <;>
    simp only [v0, v1, v2, v3, v4, v5, v6] at hy2 hz2 h1 h2 ⊢ <;> omega

/-- The parent of a block below the top class: the block of the next class that holds the
block and its buddy. -/
theorem parent_blk (a b c : Nat) (hc : c < 6) (hal : a % 4096 = 0) (hb : Blk a b c) :
    ∃ p, Blk a p (c + 1) ∧
      ((b = p ∧ buddy b c = p + bsz c) ∨ (b = p + bsz c ∧ buddy b c = p)) := by
  have hpg := Blk.page a b c hal hb
  obtain ⟨_, hlo, hmod, hhi⟩ := hb
  have hge := bsz_ge c
  have h2 := bsz_succ c
  by_cases hpar : (b - (a + 20)) / bsz c % 2 = 0
  · have hm1 := (parity_iff _ c hc hmod).mp hpar
    have hhi1 : b + bsz (c + 1) ≤ a + 1044 := by
      clear hpar h2
      obtain ⟨v0, v1, v2, v3, v4, v5, v6⟩ := bsz_vals
      interval_cases c <;>
        simp only [v0, v1, v2, v3, v4, v5, v6, Nat.reduceAdd] at hm1 hhi hmod ⊢ <;> omega
    refine ⟨b, ⟨by omega, hlo, hm1, hhi1⟩, Or.inl ⟨rfl, ?_⟩⟩
    simp only [buddy, hpg, hpar, if_true]
  · have hodd : (b - (a + 20)) / bsz c % 2 = 1 := by omega
    obtain ⟨h3, h4⟩ := odd_pred _ c hc hmod hodd
    have e : b - bsz c - (a + 20) = b - (a + 20) - bsz c := by omega
    refine ⟨b - bsz c, ⟨by omega, by omega, by rw [e]; exact h4, by omega⟩,
      Or.inr ⟨by omega, ?_⟩⟩
    simp only [buddy, hpg, hpar, if_false]

/-- The two halves of a block above the bottom class are well placed. -/
theorem halves_blk (a p c : Nat) (hc : c < 6) (hp : Blk a p (c + 1)) :
    Blk a p c ∧ Blk a (p + bsz c) c := by
  obtain ⟨_, hlo, hmod, hhi⟩ := hp
  have hge := bsz_ge c
  have h2 := bsz_succ c
  have hm0 := mod_bsz_of_succ _ c hc hmod
  refine ⟨⟨by omega, hlo, hm0, by omega⟩, by omega, by omega, ?_, by omega⟩
  have e : p + bsz c - (a + 20) = (p - (a + 20)) + bsz c := by omega
  rw [e, Nat.add_mod_right]; exact hm0

theorem buddy_blk (a b c : Nat) (hc : c < 6) (hal : a % 4096 = 0) (hb : Blk a b c) :
    Blk a (buddy b c) c := by
  obtain ⟨p, hp, hcase⟩ := parent_blk a b c hc hal hb
  obtain ⟨g1, g2⟩ := halves_blk a p c hc hp
  rcases hcase with ⟨_, e⟩ | ⟨_, e⟩ <;> rw [e]
  · exact g2
  · exact g1

theorem buddy_buddy (a b c : Nat) (hc : c < 6) (hal : a % 4096 = 0) (hb : Blk a b c) :
    buddy (buddy b c) c = b := by
  obtain ⟨p, hp, hcase⟩ := parent_blk a b c hc hal hb
  have hpp := Blk.page a p (c + 1) hal hp
  obtain ⟨_, hlo, hmod, hhi⟩ := hp
  rcases hcase with ⟨e1, e2⟩ | ⟨e1, e2⟩
  · rw [e2, e1]
    exact buddy_upper p c hc (by rw [hpp]; exact hlo) (by rw [hpp]; exact hmod)
      (by rw [hpp]; exact hhi)
  · rw [e2, e1]
    exact buddy_lower p c hc (by rw [hpp]; exact hmod)

/-- If the block in transit lies inside the buddy of a free block `x` that is not its own
buddy, then so does its parent. -/
theorem buddy_region_parent (a x j b p c : Nat) (hj : j < 6) (hc : c < 6)
    (hal : a % 4096 = 0) (hx : Blk a x j) (hp : Blk a p (c + 1))
    (hbb : b = p ∨ b = p + bsz c)
    (h1 : buddy x j ≤ b) (h2 : b + bsz c ≤ buddy x j + bsz j)
    (hne : ¬ (j = c ∧ (x = p ∨ x = p + bsz c))) :
    buddy x j ≤ p ∧ p + bsz (c + 1) ≤ buddy x j + bsz j := by
  have hR := buddy_blk a x j hj hal hx
  have hgec := bsz_ge c
  have h2c := bsz_succ c
  have hcj : c ≤ j := by
    by_contra hlt
    have := bsz_lt_of_lt j c (by omega) (by omega)
    have := bsz_ge j
    omega
  rcases Nat.lt_or_ge c j with hlt | hge
  · exact blk_nest a p (c + 1) (buddy x j) j (by omega) hp hR (by omega) (by omega)
  · have e : j = c := by omega
    subst e
    exfalso
    have hb : b = buddy x j := by omega
    have hxx := buddy_buddy a x j hj hal hx
    rw [← hb] at hxx
    have hpp := Blk.page a p (j + 1) hal hp
    obtain ⟨_, hlo, hmod, hhi⟩ := hp
    apply hne
    refine ⟨rfl, ?_⟩
    rcases hbb with e1 | e1
    · right
      rw [← hxx, e1]
      exact buddy_lower p j hc (by rw [hpp]; exact hmod)
    · left
      rw [← hxx, e1]
      exact buddy_upper p j hc (by rw [hpp]; exact hlo) (by rw [hpp]; exact hmod)
        (by rw [hpp]; exact hhi)

theorem inv_merge (s : State) (L : List Nat) (c b b1 : Nat) (h : Inv s L (some (b, c)))
    (hc : c < 6) (hf1 : FreeB s b1 c) (hf2 : FreeB s (b1 + bsz c) c)
    (hev : (b1 - (pg_round_down b1 + 20)) % bsz (c + 1) = 0)
    (hbb : b = b1 ∨ b = b1 + bsz c) :
    Inv (merge_state s c b b1) L (some (b1, c + 1)) ∧ FreeB (merge_state s c b b1) b1 (c + 1) := by
  obtain ⟨hwf, hF, hLv⟩ := wf_merge s L c b b1 h.wf hc hf1 hf2 hev hbb
  have hfn : FreeB (merge_state s c b b1) b1 (c + 1) := (hF b1 (c + 1)).mpr (Or.inr ⟨rfl, rfl⟩)
  obtain ⟨_, hblk1⟩ := hwf.tiling.place b1 (c + 1) (Or.inl hfn)
  have hal1 := pg_round_down_mod b1
  refine ⟨⟨hwf, ?_, ?_⟩, hfn⟩
  · intro x j hx hj hne
    rcases (hF x j).mp hx with ⟨h3, h4⟩ | ⟨h3, h4⟩
    · have hne2 : some (x, j) ≠ some (b, c) := by
        intro e
        simp only [Option.some.injEq, Prod.mk.injEq] at e
        apply h4
        refine ⟨e.2, ?_⟩
        rw [e.1]; exact hbb
      rcases h.paired x j h3 hj hne2 with ⟨y, k, h5, h6, h7⟩ | ⟨mb, mi, h5, h6, h7⟩
      · exact Or.inl ⟨y, k, (hLv y k).mpr h5, h6, h7⟩
      · simp only [Option.some.injEq, Prod.mk.injEq] at h5
        obtain ⟨e1, e2⟩ := h5
        subst e1 e2
        obtain ⟨_, hblkx⟩ := h.wf.tiling.place x j (Or.inl h3)
        have hpx : pg_round_down x = pg_round_down b1 := by
          have hgej := bsz_ge j
          have hgec := bsz_ge c
          have h2c := bsz_succ c
          have hRb := buddy_blk _ x j hj (pg_round_down_mod x) hblkx
          obtain ⟨_, r1, _, r2⟩ := hRb
          obtain ⟨_, r3, _, r4⟩ := hblk1
          have := pg_round_down_mod x
          omega
        rw [hpx] at hblkx
        obtain ⟨g1, g2⟩ := buddy_region_parent _ x j b b1 c hj hc hal1 hblkx hblk1 hbb h6 h7 h4
        exact Or.inr ⟨b1, c + 1, rfl, g1, g2⟩
    · subst h3 h4
      exact absurd rfl hne
  · intro x hx
    have hx2 := (hF x 6).mp ⟨by omega, hx⟩
    rcases hx2 with ⟨h3, _⟩ | ⟨h3, h4⟩
    · have := h.top x h3.2
      simp only [Option.some.injEq, Prod.mk.injEq] at this
      omega
    · rw [h3, h4]

/-! ## The end of coalescing below the top class -/

/-- A block that covers the start of the buddy of `b` and does not overlap `b` lies
inside that buddy, and so does its own buddy when its class is smaller. -/
theorem buddy_cover_cases (a b c y k : Nat) (hc : c < 6) (hal : a % 4096 = 0)
    (hb : Blk a b c) (hy : Blk a y k)
    (h1 : y ≤ buddy b c) (h2 : buddy b c < y + bsz k)
    (hd : y + bsz k ≤ b ∨ b + bsz c ≤ y) :
    k ≤ c ∧ buddy b c ≤ y ∧ y + bsz k ≤ buddy b c + bsz c ∧ (k = c → y = buddy b c) ∧
    (k < c → buddy b c ≤ buddy y k ∧ buddy y k + bsz k ≤ buddy b c + bsz c) := by
  have hB := buddy_blk a b c hc hal hb
  obtain ⟨p, hp, hcase⟩ := parent_blk a b c hc hal hb
  have hgec := bsz_ge c
  have hgek := bsz_ge k
  have h2c := bsz_succ c
  have hkc : k ≤ c := by
    by_contra hlt
    have := blk_nest a p (c + 1) y k (by omega) hp hy
      (by rcases hcase with ⟨_, e⟩ | ⟨_, e⟩ <;> omega)
      (by rcases hcase with ⟨_, e⟩ | ⟨_, e⟩ <;> omega)
    rcases hcase with ⟨e1, e2⟩ | ⟨e1, e2⟩ <;> omega
  obtain ⟨g1, g2⟩ := blk_nest a y k (buddy b c) c hkc hy hB (by omega) (by omega)
  refine ⟨hkc, g1, g2, ?_, ?_⟩
  · intro e
    subst e
    omega
  · intro hlt
    obtain ⟨q, hq, hcase2⟩ := parent_blk a y k (by omega) hal hy
    have h2k := bsz_succ k
    obtain ⟨g3, g4⟩ := blk_nest a q (k + 1) (buddy b c) c (by omega) hq hB
      (by rcases hcase2 with ⟨e1, _⟩ | ⟨e1, _⟩ <;> omega)
      (by rcases hcase2 with ⟨e1, _⟩ | ⟨e1, _⟩ <;> omega)
    rcases hcase2 with ⟨e1, e2⟩ | ⟨e1, e2⟩ <;> omega

/-- When the buddy of the block in transit is not free, a live block lies inside it. -/
theorem live_in_buddy (s : State) (L : List Nat) (b c : Nat) (h : Inv s L (some (b, c)))
    (hc : c < 6) (hf : FreeB s b c) (hnb : buddy b c ∉ s.freeList c) :
    ∃ y k, LiveB s L y k ∧ buddy b c ≤ y ∧ y + bsz k ≤ buddy b c + bsz c := by
  obtain ⟨haR, hblk, _, hal, _, _⟩ := h.wf.free_hdr b c hf
  obtain ⟨_, hBlo, _, hBhi⟩ := buddy_blk _ b c hc hal hblk
  obtain ⟨p, hp, hcase⟩ := parent_blk _ b c hc hal hblk
  have h2 := bsz_succ c
  have hge := bsz_ge c
  obtain ⟨y, k, hU, hy1, hy2⟩ := h.wf.tiling.cover _ haR (buddy b c) hBlo (by omega)
  obtain ⟨_, hblky⟩ := h.wf.tiling.place y k hU
  have hgek := bsz_ge k
  have hpy : pg_round_down y = pg_round_down b := by
    obtain ⟨hk7, hy3, _, hy4⟩ := hblky
    have := pg_round_down_mod y
    have := bsz_le k hk7
    omega
  rw [hpy] at hblky
  have hne : y ≠ b ∨ k ≠ c := by
    by_contra e
    have e1 : y = b := by tauto
    have e2 : k = c := by tauto
    subst e1 e2
    rcases hcase with ⟨c1, c2⟩ | ⟨c1, c2⟩ <;> omega
  have hd := h.wf.tiling.disj y k b c hU (Or.inl hf) hne
  obtain ⟨g1, g2, g3, g4, g5⟩ := buddy_cover_cases _ b c y k hc hal hblk hblky hy1 hy2 hd
  rcases hU with hfy | hly
  · have hkc : k < c := by
      rcases Nat.lt_or_ge k c with e | e
      · exact e
      · have e2 : k = c := by omega
        have := g4 e2
        subst e2
        rw [this] at hfy
        exact absurd hfy.2 hnb
    obtain ⟨g6, g7⟩ := g5 hkc
    have hne2 : some (y, k) ≠ some (b, c) := by
      intro e
      simp only [Option.some.injEq, Prod.mk.injEq] at e
      omega
    rcases h.paired y k hfy (by omega) hne2 with ⟨z, i, h5, h6, h7⟩ | ⟨mb, mi, h5, h6, h7⟩
    · exact ⟨z, i, h5, by omega, by omega⟩
    · simp only [Option.some.injEq, Prod.mk.injEq] at h5
      obtain ⟨e1, e2⟩ := h5
      subst e1 e2
      have := bsz_lt_of_lt k c (by omega) hkc
      omega
  · exact ⟨y, k, hly, g2, g3⟩

/-- Coalescing stops when the buddy of the block in transit is not free: the invariant
between calls holds again. -/
theorem inv_stop (s : State) (L : List Nat) (b c : Nat) (h : Inv s L (some (b, c)))
    (hc : c < 6) (hf : FreeB s b c) (hnb : buddy b c ∉ s.freeList c) : Inv s L none := by
  obtain ⟨y, k, hly, hy1, hy2⟩ := live_in_buddy s L b c h hc hf hnb
  obtain ⟨_, hblk, _, hal, _, _⟩ := h.wf.free_hdr b c hf
  obtain ⟨p, hp, hcase⟩ := parent_blk _ b c hc hal hblk
  have h2 := bsz_succ c
  have hgec := bsz_ge c
  refine ⟨h.wf, ?_, ?_⟩
  · intro x j hx hj _
    by_cases e : x = b ∧ j = c
    · obtain ⟨e1, e2⟩ := e
      subst e1 e2
      exact Or.inl ⟨y, k, hly, hy1, hy2⟩
    · have hne2 : some (x, j) ≠ some (b, c) := by
        intro e3
        simp only [Option.some.injEq, Prod.mk.injEq] at e3
        exact e e3
      rcases h.paired x j hx hj hne2 with h5 | ⟨mb, mi, h5, h6, h7⟩
      · exact Or.inl h5
      · simp only [Option.some.injEq, Prod.mk.injEq] at h5
        obtain ⟨e1, e2⟩ := h5
        subst e1 e2
        obtain ⟨_, hblkx⟩ := h.wf.tiling.place x j (Or.inl hx)
        have hpx : pg_round_down x = pg_round_down b := by
          have hgej := bsz_ge j
          obtain ⟨_, r1, _, r2⟩ := buddy_blk _ x j hj (pg_round_down_mod x) hblkx
          obtain ⟨_, r3, _, r4⟩ := hblk
          have := pg_round_down_mod x
          omega
        rw [hpx] at hblkx
        have hne3 : ¬ (j = c ∧ (x = p ∨ x = p + bsz c)) := by
          rintro ⟨e1, e2⟩
          subst e1
          have hxb : x = b ∨ x = buddy b j := by
            rcases hcase with ⟨c1, c2⟩ | ⟨c1, c2⟩ <;> rcases e2 with e2 | e2 <;> omega
          rcases hxb with e3 | e3
          · exact e ⟨e3, rfl⟩
          · rw [e3] at hx
            exact hnb hx.2
        have hbb : b = p ∨ b = p + bsz c := by
          rcases hcase with ⟨c1, _⟩ | ⟨c1, _⟩
          · exact Or.inl c1
          · exact Or.inr c1
        obtain ⟨g1, g2⟩ := buddy_region_parent _ x j b p c hj hc hal hblkx hp hbb h6 h7 hne3
        refine Or.inl ⟨y, k, hly, ?_, ?_⟩ <;>
          rcases hcase with ⟨c1, c2⟩ | ⟨c1, c2⟩ <;> omega
  · intro x hx
    have := h.top x hx
    simp only [Option.some.injEq, Prod.mk.injEq] at this
    omega

/-! ## Neighbours in an ascending list -/

theorem free_buildup_top (junk : Int) (s : State) (fuel b : Nat) (ht : Table s) :
    free_buildup junk (fuel + 1) b 6 s = .ok (1, s) := by
  obtain ⟨bpa6, hg6, _⟩ := table_getDesc s ht 6 (by omega)
  have hcnt := table_desc_cnt s ht
  rw [free_buildup]
  simp only [hg6, hcnt, Nat.add_one_sub_one, ok_bind, if_true, pure_eq_ok, Nat.reduceSub]

/-! ## The release of a page -/

theorem freeList_unlinkBlock (s : State) (b j : Nat) :
    (s.unlinkBlock b).freeList j = (s.freeList j).erase b := by
  simp only [State.freeList, State.unlinkBlock, List.getElem?_map]
  rcases s.descs[j]? with _ | d <;> simp

theorem release_state_spec (s : State) (a : Nat) (ht : Table s) :
    Table (release_state s a) ∧
    (release_state s a).arena_list = s.arena_list.erase a ∧
    (release_state s a).pages = s.pages.erase a ∧
    (∀ j, (release_state s a).freeList j = (s.freeList j).erase (a + 20)) ∧
    (∀ x, (release_state s a).arenas x = s.arenas x) ∧
    (∀ x, (release_state s a).loadSize x = s.loadSize x) := by
  refine ⟨?_, rfl, rfl, fun j => freeList_unlinkBlock s (a + 20) j, fun x => rfl, fun x => rfl⟩
  unfold Table at ht ⊢
  rw [← ht]
  simp only [release_state, State.unlinkBlock, List.map_map]
  rfl

/-- A free block of the top class is the only block of its page. -/
theorem top_block_alone (s : State) (L : List Nat) (t : Nat) (h : WF s L)
    (hf : FreeB s t 6) :
    t = pg_round_down t + 20 ∧
    (∀ x i, Used s L x i → pg_round_down x = pg_round_down t → x = t ∧ i = 6) := by
  obtain ⟨haR, hblk, _, hal, _, _⟩ := h.free_hdr t 6 hf
  obtain ⟨v0, v1, v2, v3, v4, v5, v6⟩ := bsz_vals
  obtain ⟨_, r1, r2, r3⟩ := hblk
  rw [v6] at r2 r3
  have ht : t = pg_round_down t + 20 := by omega
  refine ⟨ht, ?_⟩
  intro x i hx hpx
  obtain ⟨_, hbx⟩ := h.tiling.place x i hx
  rw [hpx] at hbx
  obtain ⟨_, q1, _, q3⟩ := hbx
  have hge := bsz_ge i
  by_contra hne
  have := h.tiling.disj x i t 6 hx (Or.inl hf) (by tauto)
  rw [v6] at this
  omega

theorem top_block_count (s : State) (L : List Nat) (t : Nat) (h : WF s L)
    (hf : FreeB s t 6) : freeCount s (pg_round_down t) = 1 := by
  obtain ⟨_, halone⟩ := top_block_alone s L t h hf
  have hz : ∀ j, j < 6 → cntAt s j (pg_round_down t) = 0 := by
    intro j hj
    simp only [cntAt, List.countP_eq_zero, decide_eq_true_eq]
    intro x hx e
    have := halone x j (Or.inl ⟨by omega, hx⟩) e
    omega
  have h6 : cntAt s 6 (pg_round_down t) = 1 := by
    have hnd : (s.freeList 6).Nodup := (h.sorted 6).imp (fun hlt => Nat.ne_of_lt hlt)
    have e : cntAt s 6 (pg_round_down t) = (s.freeList 6).count t := by
      simp only [cntAt, List.count]
      apply List.countP_congr
      intro x hx
      simp only [decide_eq_true_eq, beq_iff_eq]
      constructor
      · intro e
        exact (halone x 6 (Or.inl ⟨by omega, hx⟩) e).1
      · intro e
        rw [e]
    rw [e]
    exact List.count_eq_one_of_mem hnd hf.2
  simp only [freeCount, hz 0 (by omega), hz 1 (by omega), hz 2 (by omega), hz 3 (by omega),
    hz 4 (by omega), hz 5 (by omega), h6]

theorem wf_release (s : State) (L : List Nat) (t : Nat) (h : WF s L) (hf : FreeB s t 6) :
    WF (release_state s (pg_round_down t)) L ∧
    (∀ x j, FreeB (release_state s (pg_round_down t)) x j ↔ FreeB s x j ∧ x ≠ t) ∧
    (∀ x j, LiveB (release_state s (pg_round_down t)) L x j ↔ LiveB s L x j) := by
  obtain ⟨haR, hblk, _, hal, _, _⟩ := h.free_hdr t 6 hf
  obtain ⟨ht, halone⟩ := top_block_alone s L t h hf
  obtain ⟨htab, hreg, hpag, hfl, harn, hls⟩ := release_state_spec s (pg_round_down t) h.table
  rw [← ht] at hfl
  have hnd : ∀ j, (s.freeList j).Nodup := fun j => (h.sorted j).imp (fun hlt => Nat.ne_of_lt hlt)
  have hF : ∀ x j, FreeB (release_state s (pg_round_down t)) x j ↔ FreeB s x j ∧ x ≠ t := by
    intro x j
    simp only [FreeB, hfl, (hnd j).mem_erase_iff]
    tauto
  have hLv : ∀ x j, LiveB (release_state s (pg_round_down t)) L x j ↔ LiveB s L x j := by
    intro x j
    simp only [LiveB, hls]
  have hU : ∀ x j, Used (release_state s (pg_round_down t)) L x j ↔
      Used s L x j ∧ ¬ (x = pg_round_down t + 20 ∧ j = 6) := by
    intro x j
    rw [← ht]
    simp only [Used, hF, hLv]
    constructor
    · rintro (⟨h1, h2⟩ | h1)
      · exact ⟨Or.inl h1, fun e => h2 e.1⟩
      · refine ⟨Or.inr h1, ?_⟩
        rintro ⟨e1, _⟩
        exact h.excl t 6 hf (e1 ▸ h1.2.1)
    · rintro ⟨h1 | h1, h2⟩
      · refine Or.inl ⟨h1, fun e => h2 ⟨e, ?_⟩⟩
        exact h.free_unique t j 6 (e ▸ h1) hf
      · exact Or.inr h1
  have hcnt : ∀ a1, a1 ≠ pg_round_down t →
      freeCount (release_state s (pg_round_down t)) a1 = freeCount s a1 := by
    intro a1 hne
    have hc : ∀ j, cntAt (release_state s (pg_round_down t)) j a1 = cntAt s j a1 := by
      intro j
      simp only [cntAt, hfl]
      by_cases hin : t ∈ s.freeList j
      · rw [countP_erase_of_mem _ (s.freeList j) t hin]
        have : ¬ pg_round_down t = a1 := fun e => hne e.symm
        simp [this]
      · rw [List.erase_of_not_mem hin]
    simp only [freeCount, hc]
  refine ⟨
    { table := htab
      sorted := fun j => by
        rw [hfl]
        exact (h.sorted j).sublist (List.erase_sublist _ _)
      pages_eq := by
        rw [hpag, hreg]
        intro x hx
        have hx2 := (h.reg_nodup.mem_erase_iff).mp hx
        exact (List.mem_erase_of_ne hx2.1).mpr (h.pages_eq x hx2.2)
      reg_nodup := by rw [hreg]; exact h.reg_nodup.erase _
      reg_ok := by
        rw [hreg]
        exact fun a1 ha1 => h.reg_ok a1 (List.mem_of_mem_erase ha1)
      hdr := by
        rw [hreg]
        intro a1 ha1
        have hx2 := (h.reg_nodup.mem_erase_iff).mp ha1
        rw [harn, hcnt a1 hx2.1]
        exact h.hdr a1 hx2.2
      fsize := fun x j hx => by
        rw [hls]
        exact h.fsize x j ((hF x j).mp hx).1
      live_nodup := h.live_nodup
      live_cls := fun p hp => by
        obtain ⟨h3, i, h4, h5⟩ := h.live_cls p hp
        exact ⟨h3, i, h4, by rw [hls]; exact h5⟩
      excl := fun x j hx => h.excl x j ((hF x j).mp hx).1
      tiling := by
        rw [hreg]
        exact Tiling.release _ _ _ h.tiling _ (fun a1 ha1 => (h.reg_ok a1 ha1).2.1) haR
          h.reg_nodup (by rw [← ht]; exact Or.inl hf) hU }, hF, hLv⟩

/-- When coalescing has reached the top class, the release of the page restores the
invariant between calls. -/
theorem inv_release (s : State) (L : List Nat) (t : Nat) (h : Inv s L (some (t, 6)))
    (hf : FreeB s t 6) : Inv (release_state s (pg_round_down t)) L none := by
  obtain ⟨hwf, hF, hLv⟩ := wf_release s L t h.wf hf
  refine ⟨hwf, ?_, ?_⟩
  · intro x j hx hj _
    obtain ⟨h1, h2⟩ := (hF x j).mp hx
    have hne : some (x, j) ≠ some (t, 6) := by
      intro e
      simp only [Option.some.injEq, Prod.mk.injEq] at e
      omega
    rcases h.paired x j h1 hj hne with ⟨y, k, h5, h6, h7⟩ | ⟨mb, mi, h5, h6, h7⟩
    · exact Or.inl ⟨y, k, (hLv y k).mpr h5, h6, h7⟩
    · simp only [Option.some.injEq, Prod.mk.injEq] at h5
      obtain ⟨e1, e2⟩ := h5
      subst e1 e2
      have := bsz_lt_of_lt j 6 (by omega) (by omega)
      have := bsz_ge j
      omega
  · intro x hx
    obtain ⟨h1, h2⟩ := (hF x 6).mp ⟨by omega, hx⟩
    have := h.top x h1.2
    simp only [Option.some.injEq, Prod.mk.injEq, and_true] at this
    exact absurd this.symm h2

/-! ## The class index computed by `free` -/

theorem free_index_bsz (i : Nat) (hi : i < 7) : free_index 32 (bsz i) 16 0 = i := by
  interval_cases i <;> rfl

/-! ## The invariant after `malloc_init` and through the huge path -/

theorem freeList_post_init (ar : Nat → arena) (m : Nat → Nat) (i : Nat) :
    (post_init ar m).freeList i = [] := by
  match i with
  | 0 | 1 | 2 | 3 | 4 | 5 | 6 => rfl
  | _ + 7 => rfl

theorem inv_init (ar : Nat → arena) (m : Nat → Nat) : Inv (post_init ar m) [] none := by
  have hfl := freeList_post_init ar m
  have hF : ∀ b i, ¬ FreeB (post_init ar m) b i := fun b i hb => by
    have := hb.2
    rw [hfl] at this
    simp at this
  have hU : ∀ b i, ¬ Used (post_init ar m) [] b i := fun b i hb => by
    rcases hb with h | h
    · exact hF b i h
    · have := h.2.1
      simp at this
  refine ⟨
    { table := rfl
      sorted := fun i => by rw [hfl]; exact List.Pairwise.nil
      pages_eq := fun a ha => by simp [post_init] at ha
      reg_nodup := List.nodup_nil
      reg_ok := fun a ha => by simp [post_init] at ha
      hdr := fun a ha => by simp [post_init] at ha
      fsize := fun b i hb => absurd hb (hF b i)
      live_nodup := List.nodup_nil
      live_cls := fun p hp => by simp at hp
      excl := fun b i hb => absurd hb (hF b i)
      tiling :=
        { place := fun b i hb => absurd hb (hU b i)
          disj := fun b i _ _ hb => absurd hb (hU b i)
          cover := fun a ha => by simp [post_init] at ha } }, ?_, ?_⟩
  · intro b i hb
    exact absurd hb (hF b i)
  · intro x hx
    rw [hfl] at hx
    simp at hx

/-- The invariant reads only the descriptor table, the registry, the headers of the
registered arenas and the size fields of the free and live blocks. -/
theorem Inv.of_agree {s : State} {L : List Nat} (h : Inv s L none) (s1 : State)
    (hd : s1.descs = s.descs) (hr : s1.arena_list = s.arena_list)
    (ha : ∀ a ∈ s.arena_list, s1.arenas a = s.arenas a)
    (hl : ∀ b i, Used s L b i → s1.loadSize b = s.loadSize b)
    (hp : ∀ a ∈ s.arena_list, a ∈ s1.pages) : Inv s1 L none := by
  have hfl : ∀ j, s1.freeList j = s.freeList j := fun j => by
    simp only [State.freeList, hd]
  have hF : ∀ b i, FreeB s1 b i ↔ FreeB s b i := fun b i => by
    simp only [FreeB, hfl]
  have hLv : ∀ b i, LiveB s1 L b i ↔ LiveB s L b i := by
    intro b i
    constructor
    · rintro ⟨h1, h2, h3⟩
      obtain ⟨_, k, hk⟩ := h.wf.live_of_mem _ h2
      rw [Nat.add_sub_cancel] at hk
      rw [hl b k (Or.inr hk)] at h3
      exact ⟨h1, h2, h3⟩
    · rintro ⟨h1, h2, h3⟩
      exact ⟨h1, h2, by rw [hl b i (Or.inr ⟨h1, h2, h3⟩)]; exact h3⟩
  have hU : ∀ b i, Used s1 L b i ↔ Used s L b i := fun b i => by
    simp only [Used, hF, hLv]
  refine ⟨
    { table := by unfold Table; rw [hd]; exact h.wf.table
      sorted := fun i => by rw [hfl]; exact h.wf.sorted i
      pages_eq := by rw [hr]; exact hp
      reg_nodup := by rw [hr]; exact h.wf.reg_nodup
      reg_ok := by rw [hr]; exact h.wf.reg_ok
      hdr := by
        rw [hr]
        intro a haR
        rw [ha a haR, freeCount_congr s1 s a hfl]
        exact h.wf.hdr a haR
      fsize := fun b i hb => by
        have hb2 := (hF b i).mp hb
        rw [hl b i (Or.inl hb2)]
        exact h.wf.fsize b i hb2
      live_nodup := h.wf.live_nodup
      live_cls := fun p hp2 => by
        obtain ⟨h1, i, hi⟩ := h.wf.live_of_mem p hp2
        exact ⟨h1, i, hi.1, by rw [hl _ i (Or.inr hi)]; exact hi.2.2⟩
      excl := fun b i hb => h.wf.excl b i ((hF b i).mp hb)
      tiling := by
        rw [hr]
        exact Tiling.congr _ _ _ hU h.wf.tiling }, ?_, ?_⟩
  · intro b i hb hi hne
    rcases h.paired b i ((hF b i).mp hb) hi hne with ⟨y, k, h5, h6, h7⟩ | ⟨mb, mi, h5, _⟩
    · exact Or.inl ⟨y, k, (hLv y k).mpr h5, h6, h7⟩
    · simp at h5
  · intro x hx
    rw [hfl] at hx
    exact h.top x hx

theorem mem_page_run (a n q : Nat) : q ∈ page_run a n ↔ ∃ k, k < n ∧ q = a + 4096 * k := by
  induction n generalizing a with
  | zero => simp [page_run]
  | succ n ih =>
    simp only [page_run, List.mem_cons, ih, PGSIZE]
    constructor
    · rintro (h | ⟨k, hk, h⟩)
      · exact ⟨0, by omega, by omega⟩
      · exact ⟨k + 1, by omega, by omega⟩
    · rintro ⟨k, hk, h⟩
      cases k with
      | zero => exact Or.inl (by omega)
      | succ k => exact Or.inr ⟨k, by omega, by omega⟩

theorem nodup_page_run (a n : Nat) : (page_run a n).Nodup := by
  induction n generalizing a with
  | zero => simp [page_run]
  | succ n ih =>
    simp only [page_run, List.nodup_cons]
    refine ⟨?_, ih _⟩
    intro hin
    obtain ⟨k, _, hk⟩ := (mem_page_run _ _ _).mp hin
    simp only [PGSIZE] at hk
    omega

theorem find_desc_huge (s : State) (ht : Table s) (size : Nat) (h : 1024 < size) :
    find_desc size s.descs 0 = 7 := by
  obtain ⟨l0, l1, l2, l3, l4, l5, l6, hds⟩ := table_descs s ht
  simp only [hds, find_desc]
  repeat (first | rfl | (rw [if_neg (by omega)]))

theorem malloc_huge_eq (s : State) (pg n : Nat) (ht : Table s) (hn : n ≠ 0)
    (hsz : 1024 < (n + SIZEOF_BLOCK) % WORD) (hpg : pg ≠ 0) :
    malloc pg n s = .ok (pg + 20, huge_state s pg (page_cnt n)) := by
  have hd := find_desc_huge s ht _ hsz
  have hcnt := table_desc_cnt s ht
  simp only [malloc, hn, if_false, hd, hcnt, if_true, hpg, SIZEOF_ARENA, huge_state, page_cnt]

theorem inv_huge (s : State) (L : List Nat) (pg cnt : Nat) (h : Inv s L none)
    (hpg : pg ∉ s.arena_list) : Inv (huge_state s pg cnt) L none := by
  refine h.of_agree _ rfl rfl ?_ (fun b i _ => rfl) ?_
  · intro a ha
    have : a ≠ pg := fun e => hpg (e ▸ ha)
    simp [huge_state, this]
  · intro a ha
    exact List.mem_append_left _ (h.wf.pages_eq a ha)

/-! ## Consequences of the invariant -/

theorem cntAt_le (s : State) (L : List Nat) (h : WF s L) (i a : Nat) : cntAt s i a ≤ 4096 := by
  have hnd : (s.freeList i).Nodup := (h.sorted i).imp (fun hlt => Nat.ne_of_lt hlt)
  have hsub : (s.freeList i).filter (fun b => decide (pg_round_down b = a)) ⊆
      List.range' a 4096 := by
    intro x hx
    obtain ⟨_, hx2⟩ := List.mem_filter.mp hx
    simp only [decide_eq_true_eq] at hx2
    have h1 := pg_round_down_le x
    have h2 := lt_pg_round_down_add x
    rw [List.mem_range'_1]
    omega
  have hle := ((hnd.filter _).subperm hsub).length_le
  rw [List.length_range'] at hle
  simp only [cntAt, List.countP_eq_length_filter]
  exact hle

theorem freeCount_le (s : State) (L : List Nat) (h : WF s L) (a : Nat) :
    freeCount s a ≤ 28672 := by
  have := cntAt_le s L h
  have h0 := this 0 a
  have h1 := this 1 a
  have h2 := this 2 a
  have h3 := this 3 a
  have h4 := this 4 a
  have h5 := this 5 a
  have h6 := this 6 a
  simp only [freeCount]
  omega

/-- The field `free_cnt` of a registered arena is the number of free blocks of its page
plus two. -/
theorem WF.free_cnt_eq {s : State} {L : List Nat} (h : WF s L) (a : Nat)
    (ha : a ∈ s.arena_list) : (s.arenas a).free_cnt = freeCount s a + 2 := by
  obtain ⟨_, _, h3⟩ := h.hdr a ha
  have := freeCount_le s L h a
  rw [h3]
  simp only [WORD]
  omega

theorem mem_descs_freeList (s : State) (ht : Table s) (d : desc) (hd : d ∈ s.descs) :
    ∃ i, i < 7 ∧ s.descs[i]? = some d ∧ s.freeList i = d.free_list := by
  obtain ⟨i, hi, he⟩ := List.getElem_of_mem hd
  have hlen := table_length s ht
  refine ⟨i, by omega, ?_, ?_⟩
  · rw [List.getElem?_eq_getElem hi, he]
  · simp only [State.freeList, List.getElem?_eq_getElem hi, he]

theorem getElem_descs (s : State) (ht : Table s) (c : Nat) (d : desc)
    (hd : s.descs[c]? = some d) : c < 7 ∧ d.block_size = bsz c ∧ s.freeList c = d.free_list := by
  have hlen := table_length s ht
  have hc : c < 7 := by
    by_contra hge
    rw [List.getElem?_eq_none (by omega)] at hd
    simp at hd
  obtain ⟨bpa, hg, _⟩ := table_getDesc s ht c hc
  simp only [getDesc, hd, Except.ok.injEq] at hg
  subst hg
  exact ⟨hc, rfl, rfl⟩

/-- A well placed block lies in one page, behind the arena header, at a multiple of its
size from the end of the header. -/
theorem Blk.layout (a b i : Nat) (hal : a % 4096 = 0) (h : Blk a b i) :
    pg_round_down (b + bsz i - 1) = pg_round_down b ∧ SIZEOF_ARENA ≤ pg_ofs b ∧
    (pg_ofs b - SIZEOF_ARENA) % bsz i = 0 := by
  have hp := Blk.page a b i hal h
  obtain ⟨_, h1, h2, h3⟩ := h
  have hge := bsz_ge i
  have hofs := pg_ofs_eq a b hal (by omega) (by omega)
  refine ⟨?_, ?_, ?_⟩
  · rw [hp]
    exact pg_round_down_eq a _ hal (by omega) (by omega)
  · rw [hofs]; simp only [SIZEOF_ARENA]; omega
  · rw [hofs]
    have e : b - a - SIZEOF_ARENA = b - (a + 20) := by simp only [SIZEOF_ARENA]; omega
    rw [e]; exact h2

theorem Inv.no_free_buddy {s : State} {L : List Nat} (h : Inv s L none) (b i : Nat)
    (hi : i < 6) (hb : b ∈ s.freeList i) : buddy b i ∉ s.freeList i := by
  intro hin
  have hf : FreeB s b i := ⟨by omega, hb⟩
  rcases h.paired b i hf hi (by simp) with ⟨y, k, h5, h6, h7⟩ | ⟨mb, mi, h5, _⟩
  · have := h.wf.live_far (buddy b i) i y k ⟨by omega, hin⟩ h5
    have := bsz_ge k
    omega
  · simp at h5

/-- Every registered page holds a live block. -/
theorem Inv.page_live {s : State} {L : List Nat} (h : Inv s L none) (a : Nat)
    (ha : a ∈ s.arena_list) : ∃ p ∈ L, pg_round_down (p - 12) = a := by
  obtain ⟨_, hal, _⟩ := h.wf.reg_ok a ha
  obtain ⟨y, k, hU, hy1, hy2⟩ := h.wf.tiling.cover a ha (a + 20) (Nat.le_refl _) (by omega)
  obtain ⟨_, hblk⟩ := h.wf.tiling.place y k hU
  have hpy : pg_round_down y = a := by
    obtain ⟨hk7, r1, _, r2⟩ := hblk
    have := pg_round_down_mod y
    have := bsz_le k hk7
    omega
  rcases hU with hf | hl
  · by_cases hk : k < 6
    · rcases h.paired y k hf hk (by simp) with ⟨z, i, h5, h6, h7⟩ | ⟨mb, mi, h5, _⟩
      · refine ⟨z + 12, h5.2.1, ?_⟩
        rw [Nat.add_sub_cancel]
        rw [hpy] at hblk
        obtain ⟨_, r1, _, r2⟩ := buddy_blk a y k hk hal hblk
        have := bsz_ge i
        exact pg_round_down_eq a z hal (by omega) (by omega)
      · simp at h5
    · have hk6 : k = 6 := by have := hf.1; omega
      subst hk6
      have := h.top y hf.2
      simp at this
  · exact ⟨y + 12, hl.2.1, by rw [Nat.add_sub_cancel]; exact hpy⟩

theorem Inv.freeList_nil {s : State} {L : List Nat} (h : Inv s L none) (hL : L = []) (i : Nat) :
    s.freeList i = [] := by
  subst hL
  apply List.eq_nil_iff_forall_not_mem.mpr
  intro x hx
  by_cases hi : i < 7
  · obtain ⟨haR, _⟩ := h.wf.tiling.place x i (Or.inl ⟨hi, hx⟩)
    obtain ⟨p, hp, _⟩ := h.page_live _ haR
    simp at hp
  · rw [freeList_of_ge s h.wf.table i (by omega)] at hx
    simp at hx

theorem Inv.registry_nil {s : State} {L : List Nat} (h : Inv s L none) (hL : L = []) :
    s.arena_list = [] := by
  subst hL
  apply List.eq_nil_iff_forall_not_mem.mpr
  intro a ha
  obtain ⟨p, hp, _⟩ := h.page_live a ha
  simp at hp

theorem descs_of_nil (s : State) (ht : Table s) (hnil : ∀ i, s.freeList i = []) :
    s.descs = [⟨16, 254, []⟩, ⟨32, 127, []⟩, ⟨64, 63, []⟩, ⟨128, 31, []⟩, ⟨256, 15, []⟩,
      ⟨512, 7, []⟩, ⟨1024, 3, []⟩] := by
  obtain ⟨l0, l1, l2, l3, l4, l5, l6, hds⟩ := table_descs s ht
  have h0 := hnil 0
  have h1 := hnil 1
  have h2 := hnil 2
  have h3 := hnil 3
  have h4 := hnil 4
  have h5 := hnil 5
  have h6 := hnil 6
  simp only [State.freeList, hds, List.getElem?_cons_zero, List.getElem?_cons_succ] at h0 h1 h2 h3 h4 h5 h6
  rw [hds, h0, h1, h2, h3, h4, h5, h6]

theorem WF.blocks_used {s : State} {L : List Nat} (h : WF s L) :
    ∀ x ∈ all_blocks s L, ∃ i, Used s L x i := by
  intro x hx
  simp only [all_blocks, List.mem_append, List.mem_map] at hx
  rcases hx with ((((((h0 | h1) | h2) | h3) | h4) | h5) | h6) | ⟨p, hp, e⟩
  · exact ⟨0, Or.inl ⟨by omega, h0⟩⟩
  · exact ⟨1, Or.inl ⟨by omega, h1⟩⟩
  · exact ⟨2, Or.inl ⟨by omega, h2⟩⟩
  · exact ⟨3, Or.inl ⟨by omega, h3⟩⟩
  · exact ⟨4, Or.inl ⟨by omega, h4⟩⟩
  · exact ⟨5, Or.inl ⟨by omega, h5⟩⟩
  · exact ⟨6, Or.inl ⟨by omega, h6⟩⟩
  · obtain ⟨_, i, hi⟩ := h.live_of_mem p hp
    exact ⟨i, Or.inr (e ▸ hi)⟩

/-- No block is on two free lists, twice on one, or both free and live. -/
theorem WF.blocks_nodup {s : State} {L : List Nat} (h : WF s L) : (all_blocks s L).Nodup := by
  have hl : ∀ i, (s.freeList i).Nodup := fun i =>
    (h.sorted i).imp (fun hlt => Nat.ne_of_lt hlt)
  have hdis : ∀ i j, i < 7 → j < 7 → i ≠ j → ∀ x, x ∈ s.freeList i → x ∉ s.freeList j :=
    fun i j hi hj hne x hx hx2 => hne (h.free_unique x i j ⟨hi, hx⟩ ⟨hj, hx2⟩)
  have hlm : (L.map (· - 12)).Nodup := by
    refine (List.nodup_map_iff_inj_on h.live_nodup).mpr ?_
    intro p hp q hq e
    have := (h.live_cls p hp).1
    have := (h.live_cls q hq).1
    omega
  have hfl : ∀ i, i < 7 → ∀ x, x ∈ s.freeList i → x ∉ L.map (· - 12) := by
    intro i hi x hx hx2
    obtain ⟨p, hp, e⟩ := List.mem_map.mp hx2
    have := (h.live_cls p hp).1
    have e2 : x + 12 = p := by omega
    exact h.excl x i ⟨hi, hx⟩ (e2 ▸ hp)
  simp only [all_blocks, List.nodup_append, List.disjoint_left, List.mem_append]
  refine ⟨⟨⟨⟨⟨⟨⟨hl 0, hl 1, ?_⟩, hl 2, ?_⟩, hl 3, ?_⟩, hl 4, ?_⟩, hl 5, ?_⟩, hl 6, ?_⟩, hlm, ?_⟩
  · exact hdis 0 1 (by omega) (by omega) (by omega)
  · rintro x (h0 | h0)
    · exact hdis 0 2 (by omega) (by omega) (by omega) x h0
    · exact hdis 1 2 (by omega) (by omega) (by omega) x h0
  · rintro x ((h0 | h0) | h0)
    · exact hdis 0 3 (by omega) (by omega) (by omega) x h0
    · exact hdis 1 3 (by omega) (by omega) (by omega) x h0
    · exact hdis 2 3 (by omega) (by omega) (by omega) x h0
  · rintro x (((h0 | h0) | h0) | h0)
    · exact hdis 0 4 (by omega) (by omega) (by omega) x h0
    · exact hdis 1 4 (by omega) (by omega) (by omega) x h0
    · exact hdis 2 4 (by omega) (by omega) (by omega) x h0
    · exact hdis 3 4 (by omega) (by omega) (by omega) x h0
  · rintro x ((((h0 | h0) | h0) | h0) | h0)
    · exact hdis 0 5 (by omega) (by omega) (by omega) x h0
    · exact hdis 1 5 (by omega) (by omega) (by omega) x h0
    · exact hdis 2 5 (by omega) (by omega) (by omega) x h0
    · exact hdis 3 5 (by omega) (by omega) (by omega) x h0
    · exact hdis 4 5 (by omega) (by omega) (by omega) x h0
  · rintro x (((((h0 | h0) | h0) | h0) | h0) | h0)
    · exact hdis 0 6 (by omega) (by omega) (by omega) x h0
    · exact hdis 1 6 (by omega) (by omega) (by omega) x h0
    · exact hdis 2 6 (by omega) (by omega) (by omega) x h0
    · exact hdis 3 6 (by omega) (by omega) (by omega) x h0
    · exact hdis 4 6 (by omega) (by omega) (by omega) x h0
    · exact hdis 5 6 (by omega) (by omega) (by omega) x h0
  · rintro x ((((((h0 | h0) | h0) | h0) | h0) | h0) | h0)
    · exact hfl 0 (by omega) x h0
    · exact hfl 1 (by omega) x h0
    · exact hfl 2 (by omega) x h0
    · exact hfl 3 (by omega) x h0
    · exact hfl 4 (by omega) x h0
    · exact hfl 5 (by omega) x h0
    · exact hfl 6 (by omega) x h0

theorem WF.used_size {s : State} {L : List Nat} (h : WF s L) (x i : Nat)
    (hx : Used s L x i) : s.loadSize x = bsz i := by
  rcases hx with hf | hl
  · exact h.fsize x i hf
  · exact hl.2.2

/-- The free and live blocks are pairwise disjoint. -/
theorem WF.blocks_pairwise {s : State} {L : List Nat} (h : WF s L) :
    (all_blocks s L).Pairwise
      (fun b b1 => b + s.loadSize b ≤ b1 ∨ b1 + s.loadSize b1 ≤ b) := by
  refine h.blocks_nodup.pairwise_of_forall_ne ?_
  intro x hx y hy hne
  obtain ⟨i, hi⟩ := h.blocks_used x hx
  obtain ⟨j, hj⟩ := h.blocks_used y hy
  rw [h.used_size x i hi, h.used_size y j hj]
  exact h.tiling.disj x i y j hi hj (Or.inl hne)

/-! ## `malloc_breakdown` as a sequence of splits -/

/-- The rounds of `malloc_breakdown (t, d)` on the front block `b` of class `t = d + k`,
when the classes from `d` up to `t - 1` have empty free lists: the call returns after
exactly `k` splits, and the lists, size fields and `free_cnt` are as stated. -/
theorem malloc_breakdown_eq_splits (d : Nat) (L : List Nat) (b : Nat) :
    ∀ k (s : State) (rest : List Nat), d + k < 7 → WF s L →
      s.freeList (d + k) = b :: rest → (∀ j, d ≤ j → j < d + k → s.freeList j = []) →
      malloc_breakdown (d + k) d s = .ok (splits d b k s) ∧ WF (splits d b k s) L ∧
      (splits d b k s).arena_list = s.arena_list ∧ (splits d b k s).pages = s.pages ∧
      (∀ j, (splits d b k s).freeList j =
        if d ≤ j ∧ j < d + k then (if j = d then [b, b + bsz j] else [b + bsz j])
        else if j = d + k ∧ 0 < k then rest else s.freeList j) ∧
      (∀ j, d ≤ j → j < d + k → (splits d b k s).loadSize (b + bsz j) = bsz j) ∧
      (0 < k → (splits d b k s).loadSize b = bsz d) ∧
      (∀ x, (x + 4 ≤ b ∨ b + bsz (d + k) ≤ x) → (splits d b k s).loadSize x = s.loadSize x) ∧
      ((splits d b k s).arenas (pg_round_down b)).free_cnt =
        (s.arenas (pg_round_down b)).free_cnt + k ∧
      (∀ a, a ≠ pg_round_down b → (splits d b k s).arenas a = s.arenas a) := by
  intro k
  induction k with
  | zero =>
    intro s rest h7 hwf hl hemp
    refine ⟨malloc_breakdown_done s hwf.table d h7, hwf, rfl, rfl, ?_, ?_, ?_, fun x _ => rfl,
      rfl, fun a _ => rfl⟩
    · intro j
      rw [if_neg (by omega), if_neg (by omega)]
      rfl
    · intro j h1 h2; omega
    · intro h; omega
  | succ k ih =>
    intro s rest h7 hwf hl hemp
    have hc : d + k < 6 := by omega
    have hstep := malloc_breakdown_step s L (d + k) d b rest hwf hc (by omega) hl
    obtain ⟨hwf1, _⟩ := wf_split s L (d + k) b rest hwf hc hl
    obtain ⟨_, harl, hpgs, hfl, harn, hsz1, hsz2, hszo⟩ :=
      split_state_spec s (d + k) b hwf.table hc
    have hl2 : s.freeList (d + k + 1) = b :: rest := hl
    have hfb : FreeB s b (d + k + 1) := ⟨by omega, by rw [hl2]; exact List.mem_cons_self _ _⟩
    obtain ⟨haR, _, _, _, _, _⟩ := hwf.free_hdr b (d + k + 1) hfb
    have hge := bsz_ge (d + k)
    have h2 : bsz (d + (k + 1)) = 2 * bsz (d + k) := bsz_succ (d + k)
    have hl1 : (split_state s (d + k) b).freeList (d + k) = b :: [b + bsz (d + k)] := by
      rw [hfl, if_neg (by omega), if_pos rfl, hemp (d + k) (by omega) (by omega)]
      simp [insert_sorted]
    have hemp1 : ∀ j, d ≤ j → j < d + k → (split_state s (d + k) b).freeList j = [] := by
      intro j h1 h2
      rw [hfl, if_neg (by omega), if_neg (by omega)]
      exact hemp j h1 (by omega)
    obtain ⟨hr, hw2, ha1, hp1, hf1, hs1, hs2, hs3, hc1, hc2⟩ :=
      ih (split_state s (d + k) b) [b + bsz (d + k)] (by omega) hwf1 hl1 hemp1
    have hsp : splits d b (k + 1) s = splits d b k (split_state s (d + k) b) := rfl
    rw [hsp]
    refine ⟨?_, hw2, by rw [ha1, harl], by rw [hp1, hpgs], ?_, ?_, ?_, ?_, ?_, ?_⟩
    · rw [show d + (k + 1) = d + k + 1 from rfl, hstep]; exact hr
    · intro j
      have hins : insert_sorted (b + bsz (d + k)) (insert_sorted b (s.freeList (d + k))) =
          [b, b + bsz (d + k)] := by
        rw [hemp (d + k) (by omega) (by omega)]
        simp [insert_sorted]
      rw [hf1 j, hfl j, hins, hl2, List.tail_cons]
      split_ifs <;> first | rfl | omega | (have hj : j = d + k := by omega
                                           rw [hj])
    · intro j h1 h3
      by_cases e : j = d + k
      · rw [e, hs3 _ (Or.inr (Nat.le_refl _))]
        exact hsz2
      · exact hs1 j h1 (by omega)
    · intro _
      by_cases e : k = 0
      · subst e
        exact hsz1
      · exact hs2 (by omega)
    · intro x hx
      rw [hs3 x (by omega)]
      exact hszo x (by omega) (by omega)
    · rw [hc1, harn, if_pos rfl]
      have hfc := hwf.free_cnt_eq _ haR
      have hle := freeCount_le s L hwf (pg_round_down b)
      simp only [hfc, WORD]
      omega
    · intro a ha
      rw [hc2 a ha, harn, if_neg ha]

theorem malloc_refill_newpage (s : State) (L : List Nat) (pg d : Nat) (h : Inv s L none)
    (hd : d < 7) (hemp : ∀ j, d ≤ j → s.freeList j = []) (hpg0 : pg ≠ 0) :
    malloc_refill pg d s = malloc_breakdown 6 d (newpage_state s pg) := by
  have hcnt := table_desc_cnt s h.wf.table
  have hlen := table_length s h.wf.table
  obtain ⟨ht1, ht2, ht3, ht4⟩ := find_nonempty_spec s d (by omega)
  have ht : find_nonempty (s.descs.drop d) d = s.desc_cnt := by
    rw [hcnt]
    by_contra hne
    exact ht4 (by omega) (hemp _ ht1)
  have g1 : getDesc (⟨s.descs, s.arena_list ++ [pg], s.arenas, s.mem, s.pages ++ [pg]⟩ : State) (7 - 1) =
      .ok ⟨1024, 3, s.freeList 6⟩ := by
    obtain ⟨bpa, hg, hb⟩ := table_getDesc s h.wf.table 6 (by omega)
    have : getDesc (⟨s.descs, s.arena_list ++ [pg], s.arenas, s.mem, s.pages ++ [pg]⟩ : State) 6 = getDesc s 6 := rfl
    rw [this, hg, hb rfl]; simp [bsz]
  have g2 : arena_to_block ((⟨s.descs, s.arena_list ++ [pg], s.arenas, s.mem, s.pages ++ [pg]⟩ : State).setArena pg
      { magic := ARENA_MAGIC, desc := some 0, free_cnt := 3 }) pg 0 = .ok (pg + 20) :=
    arena_to_block_zero _ _ h.wf.table hpg0 (by simp) (by simp)
  unfold malloc_refill
  rw [if_pos (hemp d (Nat.le_refl _)), if_pos ht, if_neg hpg0]
  simp only [hcnt, g1, ok_bind, g2]
  rfl

theorem view_free_lists (s : State) (ht : Table s) :
    s.view.free_lists = [s.freeList 0, s.freeList 1, s.freeList 2, s.freeList 3, s.freeList 4,
      s.freeList 5, s.freeList 6] := by
  obtain ⟨l0, l1, l2, l3, l4, l5, l6, hds⟩ := table_descs s ht
  simp [State.view, State.freeList, hds]

/-- The call `malloc (8)` in a state without registered pages and free blocks: one page is
acquired, its top block is split down to the 32-byte class, and the lower 32-byte block is
handed out. -/
theorem malloc8_fresh (s : State) (pg : Nat) (h : Inv s [] none) (hreg : s.arena_list = [])
    (hpages : s.pages = []) (hemp : ∀ j, s.freeList j = []) (hpg : PageOK s pg) :
    ∃ s1, malloc pg 8 s = .ok (pg + 32, s1) ∧ s1.loadSize (pg + 20) = 32 ∧
      s1.view = ⟨[[], [pg + 52], [pg + 84], [pg + 148], [pg + 276], [pg + 532], []],
        [pg], [7], [pg]⟩ := by
  obtain ⟨hpg0, hpgal, hpghi, hpgP⟩ := hpg
  have hpgR : pg ∉ s.arena_list := by rw [hreg]; simp
  have hd : find_desc ((8 + SIZEOF_BLOCK) % WORD) s.descs 0 = 1 := by
    obtain ⟨l0, l1, l2, l3, l4, l5, l6, hds⟩ := table_descs s h.wf.table
    rw [hds]; rfl
  have hcnt := table_desc_cnt s h.wf.table
  obtain ⟨hinv1, hl6, hother⟩ := inv_newpage s [] pg h hpg0 hpgal hpghi hpgR
  obtain ⟨_, hnreg, hnpag, _, hnarn, _, _⟩ := newpage_state_spec s pg h.wf.table
  have hpa : pg_round_down (pg + 20) = pg := pg_round_down_eq pg _ hpgal (by omega) (by omega)
  obtain ⟨hr, hw2, ha1, hp1, hf1, hs1, hs2, hs3, hc1, hc2⟩ :=
    malloc_breakdown_eq_splits 1 [] (pg + 20) 5 (newpage_state s pg) [] (by omega) hinv1.wf hl6
      (fun j hj1 hj2 => by rw [hother j (by omega)]; exact hemp j)
  obtain ⟨s2, hr2, hi2, _, _, _⟩ := malloc_breakdown_spec 1 [] (pg + 20) 5 (newpage_state s pg) []
    (by omega) hinv1 hl6 (fun j hj1 hj2 => by rw [hother j (by omega)]; exact hemp j)
  rw [hr] at hr2
  simp only [Except.ok.injEq] at hr2
  subst hr2
  obtain ⟨v0, v1, v2, v3, v4, v5, v6⟩ := bsz_vals
  generalize splits 1 (pg + 20) 5 (newpage_state s pg) = X at *
  have hl1 : X.freeList 1 = (pg + 20) :: [pg + 52] := by
    rw [hf1 1]; simp [v1]
  obtain ⟨hpop, hinv3⟩ := malloc_pop X [] 1 (pg + 20) [pg + 52] hi2 (by omega) hl1
  have hls : (alloc_state X 1 (pg + 20)).loadSize (pg + 20) = X.loadSize (pg + 20) := rfl
  have har0 : (alloc_state X 1 (pg + 20)).arena_list = X.arena_list := rfl
  have hpg0s : (alloc_state X 1 (pg + 20)).pages = X.pages := rfl
  refine ⟨alloc_state X 1 (pg + 20), ?_, ?_, ?_⟩
  · rw [malloc_eq_refill_take pg 8 s (by omega) (by rw [hd, hcnt]; omega), hd,
      malloc_refill_newpage s [] pg 1 h (by omega) (fun j _ => hemp j) hpg0, hr, ok_bind, hpop]
  · rw [hls, hs2 (by omega), v1]
  · have hfl : ∀ j, (alloc_state X 1 (pg + 20)).freeList j =
        if j = 1 then [pg + 52] else X.freeList j := by
      intro j
      rw [freeList_alloc_state _ hw2.table 1 (pg + 20) j (by omega), hl1]
      rfl
    have hv := view_free_lists _ hinv3.wf.table
    have hfc : ((alloc_state X 1 (pg + 20)).arenas pg).free_cnt = 7 := by
      have e : (alloc_state X 1 (pg + 20)).arenas pg =
          { X.arenas pg with free_cnt := ((X.arenas pg).free_cnt + (WORD - 1)) % WORD } := by
        simp only [alloc_state, hpa, arenas_decFreeCnt, if_true, arenas_setFreeList]
      rw [hpa] at hc1
      rw [e, hc1, hnarn, if_pos rfl]
      simp [WORD]
    have har : (alloc_state X 1 (pg + 20)).arena_list = [pg] := by
      rw [har0, ha1, hnreg, hreg]; rfl
    have hpgs : (alloc_state X 1 (pg + 20)).pages = [pg] := by
      rw [hpg0s, hp1, hnpag, hpages]; rfl
    have hvv : (alloc_state X 1 (pg + 20)).view =
        ⟨(alloc_state X 1 (pg + 20)).view.free_lists,
         (alloc_state X 1 (pg + 20)).arena_list,
         (alloc_state X 1 (pg + 20)).arena_list.map
           (fun a => ((alloc_state X 1 (pg + 20)).arenas a).free_cnt),
         (alloc_state X 1 (pg + 20)).pages⟩ := rfl
    have h0 : (newpage_state s pg).freeList 0 = [] := by
      rw [hother 0 (by omega)]; exact hemp 0
    rw [hvv, hv, har, hpgs]
    simp only [hfl, hf1, h0, hfc, List.map_cons, List.map_nil, v1, v2, v3, v4, v5]
    simp

/-! ## The lock events of a call -/

theorem lockRun_append (a b : List LockEv) (h : Option Nat) :
    lockRun h (a ++ b) = (lockRun h a).bind fun h1 => lockRun h1 b := by
  induction a generalizing h with
  | nil => simp [lockRun]
  | cons ev es ih =>
    cases ev <;> cases h <;> simp [lockRun, ih]
    split <;> simp

theorem lockRun_acquire (tr : List LockEv) (i : Nat) (h : lockRun none tr = some none) :
    lockRun none (tr ++ [.acquire i]) = some (some i) := by
  simp [lockRun_append, h, lockRun]

theorem lockRun_release (tr : List LockEv) (i : Nat) (h : lockRun none tr = some (some i)) :
    lockRun none (tr ++ [.release i]) = some none := by
  simp [lockRun_append, h, lockRun]

theorem lockRun_pair (tr : List LockEv) (i : Nat) (h : lockRun none tr = some none) :
    lockRun none (tr ++ [.acquire i] ++ [.release i]) = some none :=
  lockRun_release _ i (lockRun_acquire tr i h)

theorem agrees_ok {α : Type} (tr : List LockEv) (a : α) (h : lockRun none tr = some none) :
    Agrees (tr, (Except.ok a : Except Fault α)) (.ok a) := ⟨rfl, h⟩

theorem agrees_error {α : Type} (tr : List LockEv) (e e1 : Fault) (hh : Option Nat)
    (h : lockRun none tr = some hh) :
    Agrees (tr, (Except.error e : Except Fault α)) (.error e1) := ⟨rfl, hh, h⟩

theorem agrees_andThen {α β : Type} (x : Except Fault α) (tr : List LockEv)
    (k : α → List LockEv × Except Fault β) (k1 : α → Except Fault β) (hh : Option Nat)
    (h : lockRun none tr = some hh) (hk : ∀ a, x = .ok a → Agrees (k a) (k1 a)) :
    Agrees (andThen x tr k) (x >>= k1) := by
  cases x with
  | error e => exact ⟨rfl, hh, h⟩
  | ok a => exact hk a rfl

theorem agrees_andThen_error {α β : Type} (x : Except Fault α) (tr : List LockEv)
    (k : α → List LockEv × Except Fault β) (e1 : Fault) (hh : Option Nat)
    (h : lockRun none tr = some hh) (hk : ∀ a, Agrees (k a) (.error e1)) :
    Agrees (andThen x tr k) (.error e1) := by
  cases x with
  | error e => exact ⟨rfl, hh, h⟩
  | ok a => exact hk a

theorem agrees_afterCall {α β : Type} (x : List LockEv × Except Fault α) (y : Except Fault α)
    (k : List LockEv → α → List LockEv × Except Fault β) (k1 : α → Except Fault β)
    (hx : Agrees x y)
    (hk : ∀ tr a, x = (tr, .ok a) → y = .ok a → lockRun none tr = some none →
      Agrees (k tr a) (k1 a)) :
    Agrees (afterCall x k) (y >>= k1) := by
  obtain ⟨tr, r⟩ := x
  obtain ⟨h1, h2⟩ := hx
  cases r with
  | error e =>
    cases y with
    | error e1 => exact ⟨rfl, h2⟩
    | ok b => cases h1
  | ok a =>
    cases y with
    | error e1 => cases h1
    | ok b =>
      have hab : a = b := by simpa [Except.toOption] using h1
      subst hab
      exact hk tr a rfl rfl h2

theorem malloc_breakdown_locks_spec (t d : Nat) (s : State) (tr : List LockEv)
    (h : lockRun none tr = some none) :
    Agrees (malloc_breakdown_locks t d s tr) (malloc_breakdown t d s) := by
  induction t generalizing s tr with
  | zero =>
    simp only [malloc_breakdown_locks, malloc_breakdown]
    refine agrees_andThen _ _ _ _ _ h fun td _ => ?_
    refine agrees_andThen _ _ _ _ _ h fun dd _ => ?_
    by_cases hb : td.block_size = dd.block_size
    · simp only [hb, if_true]; exact agrees_ok _ _ h
    · simp only [hb, if_false]
      cases td.free_list with
      | nil => exact agrees_error _ _ _ _ (lockRun_acquire tr 0 h)
      | cons b rest =>
        exact agrees_andThen_error _ _ _ _ _ (lockRun_acquire tr 0 h) fun _ =>
          agrees_error _ _ _ _ (lockRun_pair tr 0 h)
  | succ t ih =>
    simp only [malloc_breakdown_locks, malloc_breakdown]
    refine agrees_andThen _ _ _ _ _ h fun td _ => ?_
    refine agrees_andThen _ _ _ _ _ h fun dd _ => ?_
    by_cases hb : td.block_size = dd.block_size
    · simp only [hb, if_true]; exact agrees_ok _ _ h
    · simp only [hb, if_false]
      have h1 := lockRun_acquire tr (t + 1) h
      have h2 := lockRun_release _ (t + 1) h1
      have h3 := lockRun_acquire _ t h2
      cases td.free_list with
      | nil => exact agrees_error _ _ _ _ h1
      | cons b rest =>
        refine agrees_andThen _ _ _ _ _ h1 fun a _ => ?_
        refine agrees_andThen _ _ _ _ _ h2 fun nd _ => ?_
        refine agrees_andThen _ _ _ _ _ h3 fun a1 _ => ?_
        refine agrees_andThen _ _ _ _ _ h3 fun a2 _ => ?_
        exact ih _ _ (lockRun_release _ t h3)
theorem merge_up_locks_spec (s : State) (d b b1 b2 : Nat) (l : List Nat) (bs : Nat)
    (tr : List LockEv) (h : lockRun none tr = some (some d)) :
    Agrees (merge_up_locks s d b b1 b2 l bs tr) (merge_up s d b b1 b2 l bs) := by
  simp only [merge_up_locks, merge_up]
  have h1 := lockRun_release _ d h
  have h2 := lockRun_acquire _ (d + 1) h1
  refine agrees_andThen _ _ _ _ _ h fun a1 _ => ?_
  refine agrees_andThen _ _ _ _ _ h fun a2 _ => ?_
  refine agrees_andThen _ _ _ _ _ h2 fun a _ => ?_
  exact agrees_ok _ _ (lockRun_release _ _ h2)

theorem free_buildup_locks_spec (junk : Int) (fuel b d : Nat) (s : State) (tr : List LockEv)
    (h : lockRun none tr = some none) :
    Agrees (free_buildup_locks junk fuel b d s tr) (free_buildup junk fuel b d s) := by
  induction fuel generalizing b d s tr with
  | zero => exact agrees_error _ _ _ _ h
  | succ fuel ih =>
    simp only [free_buildup_locks, free_buildup]
    refine agrees_andThen _ _ _ _ _ h fun dd _ => ?_
    refine agrees_andThen _ _ _ _ _ h fun top _ => ?_
    by_cases hb : dd.block_size = top.block_size
    · simp only [hb, if_true]; exact agrees_ok _ _ h
    · simp only [hb, if_false]
      have h1 := lockRun_acquire tr d h
      have h2 := lockRun_release _ d h1
      by_cases hl : b ∈ dd.free_list
      · simp only [hl, not_true_eq_false, if_false]
        refine agrees_andThen _ _ _ _ _ h1 fun a _ => ?_
        by_cases hz : dd.block_size = 0
        · simp only [hz, if_true]; exact agrees_error _ _ _ _ h1
        · simp only [hz, if_false]
          generalize (if (b + WORD - (a + SIZEOF_ARENA)) % WORD / dd.block_size % 2 = 1 then
            (List.takeWhile (fun x => decide (x ≠ b)) dd.free_list).getLast? else none) = m
          cases m with
          | some f =>
            simp only []
            by_cases he : b = f + dd.block_size
            · simp only [he, if_true]
              rw [← he]
              refine agrees_afterCall _ _ _ _ (merge_up_locks_spec _ _ _ _ _ _ _ _ h1)
                fun tr2 s1 _ _ h3 => ?_
              refine agrees_afterCall _ _ _ _ (ih _ _ _ _ h3) fun tr3 r _ _ h4 => ?_
              exact agrees_ok _ _ h4
            · simp only [he, if_false]; exact agrees_ok _ _ h2
          | none =>
            simp only []
            by_cases hi : (b + WORD - (a + SIZEOF_ARENA)) % WORD / dd.block_size % 2 = 0
            · simp only [hi, if_true]
              cases (List.dropWhile (fun x => decide (x ≠ b)) dd.free_list).tail with
              | nil => exact agrees_ok _ _ h2
              | cons f rest =>
                simp only []
                by_cases he : f = b + dd.block_size
                · simp only [he, if_true]
                  refine agrees_afterCall _ _ _ _ (merge_up_locks_spec _ _ _ _ _ _ _ _ h1)
                    fun tr2 s1 _ _ h3 => ?_
                  refine agrees_afterCall _ _ _ _ (ih _ _ _ _ h3) fun tr3 r _ _ h4 => ?_
                  exact agrees_ok _ _ h4
                · simp only [he, if_false]; exact agrees_ok _ _ h2
            · simp only [hi, if_false]; exact agrees_ok _ _ h2
      · simp only [hl, not_false_eq_true, if_true]; exact agrees_error _ _ _ _ h1
theorem afterCall_andThen {α β γ : Type} (x : Except Fault α) (tr : List LockEv)
    (k0 : α → List LockEv × Except Fault β)
    (k : List LockEv → β → List LockEv × Except Fault γ) :
    afterCall (andThen x tr k0) k = andThen x tr fun a => afterCall (k0 a) k := by
  cases x <;> rfl

theorem lockRun_nil : lockRun none [] = some none := rfl

theorem malloc_locks_spec (pg n : Nat) (s : State) :
    Agrees (malloc_locks pg n s) (malloc pg n s) := by
  by_cases hn : n = 0
  · simp only [malloc_locks, malloc, hn, if_true]; exact agrees_ok _ _ rfl
  · by_cases hd : find_desc ((n + SIZEOF_BLOCK) % WORD) s.descs 0 = s.desc_cnt
    · simp only [malloc_locks, malloc, hn, if_false, hd, if_true]
      by_cases hp : pg = 0
      · simp only [hp, if_true]; exact agrees_ok _ _ rfl
      · simp only [hp, if_false]; exact agrees_ok _ _ rfl
    · rw [malloc_eq_refill_take pg n s hn hd]
      simp only [malloc_locks, hn, if_false, hd]
      generalize find_desc ((n + SIZEOF_BLOCK) % WORD) s.descs 0 = d
      have h1 : lockRun none [LockEv.acquire d] = some (some d) := rfl
      have h2 : lockRun none ([LockEv.acquire d] ++ [LockEv.release d]) = some none :=
        lockRun_release _ d h1
      refine agrees_afterCall _ _ _ _ ?_ fun tr4 s1 _ _ h4 => ?_
      · simp only [malloc_refill]
        by_cases hl : s.freeList d = []
        · simp only [hl, if_true]
          by_cases ht : find_nonempty (List.drop d s.descs) d = s.desc_cnt
          · simp only [ht, if_true]
            by_cases hp : pg = 0
            · simp only [hp, if_true]; exact agrees_error _ _ _ _ h2
            · simp only [hp, if_false]
              refine agrees_andThen _ _ _ _ _ h2 fun td _ => ?_
              have h3 := lockRun_acquire _ (s.desc_cnt - 1) h2
              refine agrees_andThen _ _ _ _ _ h3 fun b _ => ?_
              exact malloc_breakdown_locks_spec _ _ _ _ (lockRun_release _ _ h3)
          · simp only [ht, if_false]
            exact malloc_breakdown_locks_spec _ _ _ _ h2
        · simp only [hl, if_false]; exact agrees_ok _ _ h2
      · have h5 := lockRun_acquire _ d h4
        simp only [malloc_take]
        cases s1.freeList d with
        | nil => exact agrees_error _ _ _ _ h5
        | cons b rest =>
          simp only []
          refine agrees_andThen _ _ _ _ _ h5 fun a _ => ?_
          have h6 := lockRun_release _ d h5
          refine agrees_andThen _ _ _ _ _ h6 fun _ _ => ?_
          exact agrees_ok _ _ h6

theorem free_locks_spec (junk : Int) (p : Nat) (s : State) :
    Agrees (free_locks junk p s) (free junk p s) := by
  simp only [free_locks, free]
  by_cases hp : p = 0
  · simp only [hp, if_true]
    refine agrees_andThen _ _ _ _ _ lockRun_nil fun _ _ => ?_
    exact agrees_ok _ _ rfl
  · simp only [hp, if_false]
    refine agrees_andThen _ _ _ _ _ lockRun_nil fun a _ => ?_
    cases (s.arenas a).desc with
    | none => exact agrees_ok _ _ rfl
    | some i =>
      simp only []
      refine agrees_andThen _ _ _ _ _ lockRun_nil fun _ _ => ?_
      generalize free_index 32 (if s.loadSize ((p + WORD - SIZEOF_BLOCK) % WORD) ≥ 2147483648
        then p % 256 else s.loadSize ((p + WORD - SIZEOF_BLOCK) % WORD)) 16 0 = index
      have h1 : lockRun none [LockEv.acquire index] = some (some index) := rfl
      have h2 : lockRun none ([LockEv.acquire index] ++ [LockEv.release index]) = some none :=
        lockRun_release _ _ h1
      refine agrees_afterCall _ _ _ _ (free_buildup_locks_spec _ _ _ _ _ _ h2)
        fun tr3 r _ _ h3 => ?_
      obtain ⟨res, s2⟩ := r
      simp only []
      refine agrees_andThen _ _ _ _ _ h3 fun top _ => ?_
      have h4 := lockRun_acquire _ (s2.desc_cnt - 1) h3
      have h5 := lockRun_release _ (s2.desc_cnt - 1) h4
      by_cases hr : res = 1 ∧ (s2.arenas a).free_cnt = top.blocks_per_arena
      · simp only [hr, and_self, if_true, afterCall_andThen]
        refine agrees_andThen _ _ _ _ _ h4 fun b0 _ => ?_
        simp only [afterCall, pure_bind]
        refine agrees_andThen _ _ _ _ _ h5 fun _ _ => ?_
        exact agrees_ok _ _ h5
      · simp only [hr, if_false, afterCall, pure_bind]
        refine agrees_andThen _ _ _ _ _ h5 fun _ _ => ?_
        exact agrees_ok _ _ h5
/-- A sequence of events that the lock automaton accepts keeps the discipline, and the lock
the automaton ends with is the one held. -/
theorem lockRun_held (tr : List LockEv) (h h1 : Option Nat) (hr : lockRun h tr = some h1) :
    tr.foldl heldStep h.toList = h1.toList ∧
    ∀ k, ((tr.take k).foldl heldStep h.toList).length ≤ 1 ∧
      ∀ i, tr[k]? = some (.acquire i) → i ∉ (tr.take k).foldl heldStep h.toList := by
  induction tr generalizing h with
  | nil =>
    simp only [lockRun, Option.some.injEq] at hr
    subst hr
    refine ⟨rfl, fun k => ⟨?_, ?_⟩⟩
    · cases h <;> simp
    · intro i hi; simp at hi
  | cons ev es ih =>
    cases ev with
    | acquire i =>
      cases h with
      | some j => simp [lockRun] at hr
      | none =>
        simp only [lockRun] at hr
        obtain ⟨h2, h3⟩ := ih (some i) hr
        refine ⟨h2, fun k => ?_⟩
        cases k with
        | zero => simp
        | succ k =>
          have e : heldStep (none : Option Nat).toList (.acquire i) = (some i).toList := rfl
          simp only [List.take_succ_cons, List.foldl_cons, e, List.getElem?_cons_succ]
          exact h3 k
    | release i =>
      cases h with
      | none => simp [lockRun] at hr
      | some j =>
        simp only [lockRun] at hr
        by_cases hij : i = j
        · subst hij
          simp only [if_true] at hr
          obtain ⟨h2, h3⟩ := ih none hr
          have e : heldStep (some i).toList (.release i) = (none : Option Nat).toList := by
            simp [heldStep]
          refine ⟨?_, fun k => ?_⟩
          · simp only [List.foldl_cons, e]; exact h2
          · cases k with
            | zero => simp
            | succ k =>
              simp only [List.take_succ_cons, List.foldl_cons, e, List.getElem?_cons_succ]
              exact h3 k
        · simp [hij] at hr

theorem settled_disciplined {α : Type} (out : List LockEv × Except Fault α)
    (h : Settled out) :
    Disciplined out.1 ∧ ∀ a, out.2.toOption = some a → held out.1 = [] := by
  obtain ⟨tr, r⟩ := out
  cases r with
  | error e =>
    obtain ⟨hh, h1⟩ := h
    refine ⟨fun k => (lockRun_held tr none hh h1).2 k, fun a ha => ?_⟩
    cases ha
  | ok b =>
    have h1 : lockRun none tr = some none := h
    exact ⟨fun k => (lockRun_held tr none none h1).2 k, fun _ _ => (lockRun_held tr none none h1).1⟩


/-! ## Runs of `malloc` and `free` -/

theorem pageOK_state0 : PageOK state0 pageA := by
  refine ⟨by decide, by decide, by decide, ?_⟩
  simp [state0, post_init]

theorem malloc8_state0 : malloc pageA 8 state0 = .ok (pageA + 32, state1) := rfl

theorem free_state1 : free 0 (pageA + 32) state1 = .ok state2 := rfl

theorem reach_state1 : Reach 0 state1 [pageA + 32] [] :=
  Reach.malloc pageA 8 (pageA + 32) state1 (Reach.init arena0 mem0) (by decide) (by decide)
    (fun _ => pageOK_state0) malloc8_state0

theorem reach_state2 : Reach 0 state2 [] [] := by
  have h := Reach.free (pageA + 32) state2 reach_state1 (List.mem_cons_self _ _) free_state1
  simpa using h

theorem malloc_one_live :
    malloc pageA 500 state0 = .ok (pageA + 32, after_malloc pageA 500 state0) := rfl

theorem malloc_two_live :
    malloc 0 500 (after_malloc pageA 500 state0) = .ok (pageA + 544, two_live) := rfl

theorem free_released : free 1 (pageA + 32) two_live = .ok released := rfl

theorem free_all_freed : free 1 (pageA + 544) released = .ok all_freed := rfl

theorem malloc_overlap : malloc pageA 1000 released = .ok (pageA + 32, overlap) := rfl

theorem malloc_reissued : malloc pageA 1000 all_freed = .ok (pageA + 32, reissued) := rfl

theorem malloc_reused : malloc pageA 500 released = .ok (pageA + 32, reused) := rfl

theorem free_stranded : free 1 (pageA + 544) overlap = .ok stranded := rfl

theorem free_top_stale : free 1 (pageA + 32) stranded = .ok top_stale := rfl

theorem reach_two_live : Reach 1 two_live [pageA + 544, pageA + 32] [] :=
  Reach.malloc 0 500 (pageA + 544) two_live
    (Reach.malloc pageA 500 (pageA + 32) _ (Reach.init arena0 mem0) (by decide) (by decide)
      (fun _ => pageOK_state0) malloc_one_live)
    (by decide) (by decide) (fun h => absurd (h 5 (by decide)) (by decide)) malloc_two_live

theorem reach_released : Reach 1 released [pageA + 544] [] := by
  have h := Reach.free (pageA + 32) released reach_two_live (by decide) free_released
  exact h

theorem pageOK_released : PageOK released pageA :=
  ⟨by decide, by decide, by decide, by decide⟩

theorem reach_all_freed : Reach 1 all_freed [] [] := by
  have h := Reach.free (pageA + 544) all_freed reach_released (by decide) free_all_freed
  exact h

theorem pageOK_all_freed : PageOK all_freed pageA :=
  ⟨by decide, by decide, by decide, by decide⟩

theorem reach_overlap : Reach 1 overlap [pageA + 32, pageA + 544] [] :=
  Reach.malloc pageA 1000 (pageA + 32) overlap reach_released (by decide) (by decide)
    (fun _ => pageOK_released) malloc_overlap

theorem reach_reissued : Reach 1 reissued [pageA + 32] [] :=
  Reach.malloc pageA 1000 (pageA + 32) reissued reach_all_freed (by decide) (by decide)
    (fun _ => pageOK_all_freed) malloc_reissued

theorem reach_reused : Reach 1 reused [pageA + 32, pageA + 544] [] :=
  Reach.malloc pageA 500 (pageA + 32) reused reach_released (by decide) (by decide)
    (fun _ => pageOK_released) malloc_reused

theorem reach_stranded : Reach 1 stranded [pageA + 32] [] := by
  have h := Reach.free (pageA + 544) stranded reach_overlap (by decide) free_stranded
  exact h

theorem reach_top_stale : Reach 1 top_stale [] [] := by
  have h := Reach.free (pageA + 32) top_stale reach_stranded (by decide) free_top_stale
  exact h

theorem reach_poked : Reach 1 (reissued.poke (pageA + 540) 255) [pageA + 32] [] :=
  Reach.write (pageA + 540) 255 reach_reissued
    (Or.inl ⟨pageA + 32, by decide, by decide, by decide⟩)

/-! ## The claims about runs, merges, splits and locks -/

/-- C7 (fails on the code): the exits of `free_buildup` below the top class are `return;`
statements without a value, so `free` decides on the release of a page by whatever the
return register holds. If it holds 1: `malloc (500)` twice, then `free` of the first
pointer gives the page back although the second block is live, and after `free` of the
second pointer every pointer is freed but the 512-byte list holds the block at
`pageA + 532`; the post-init state is not restored. If it holds 0: after `malloc (8)` and
`free` of the pointer, the blocks have merged into the top block but the page is neither
unregistered nor given back. -/
theorem all_freed_not_restored :
    (Reach 1 all_freed [] [] ∧
      all_freed.view = ⟨[[], [], [], [], [], [pageA + 532], []], [], [], []⟩) ∧
    (Reach 0 state2 [] [] ∧
      state2.view = ⟨[[], [], [], [], [], [], [pageA + 20]], [pageA], [3], [pageA]⟩) ∧
    state0.view = ⟨[[], [], [], [], [], [], []], [], [], []⟩ :=
  ⟨⟨reach_all_freed, rfl⟩, ⟨reach_state2, rfl⟩, rfl⟩

/-- C9 (fails as stated): `malloc (8)` in the post-init state acquires one page and hands
out a block of the 32-byte class, since the request is 8 + 12 bytes with the block header;
the splitting stops at the 32-byte class, and the free lists of the 16-byte class and of
the 1024-byte class stay empty. -/
theorem malloc8_gives_32_byte_block :
    malloc pageA 8 state0 = .ok (pageA + 32, state1) ∧ state1.loadSize (pageA + 20) = 32 ∧
    state1.view = ⟨[[], [pageA + 52], [pageA + 84], [pageA + 148], [pageA + 276],
      [pageA + 532], []], [pageA], [7], [pageA]⟩ :=
  ⟨rfl, rfl, rfl⟩

/-- C9 (amended): `malloc (8)` in the post-init state, over any contents of memory and
with any fresh page `pg`, acquires exactly that page, splits its top block down to the
32-byte class and returns the lower 32-byte block; afterwards the other 32-byte buddy and
one block of each of the sizes 64, 128, 256 and 512 are on their free lists, the 16-byte
and 1024-byte lists are empty, and the arena's `free_cnt` is 7. -/
theorem malloc8_post_init (ar : Nat → arena) (m : Nat → Nat) (pg : Nat)
    (hpg : PageOK (post_init ar m) pg) :
    ∃ s1, malloc pg 8 (post_init ar m) = .ok (pg + 32, s1) ∧ s1.loadSize (pg + 20) = 32 ∧
      s1.view = ⟨[[], [pg + 52], [pg + 84], [pg + 148], [pg + 276], [pg + 532], []],
        [pg], [7], [pg]⟩ :=
  malloc8_fresh (post_init ar m) pg (inv_init ar m) rfl rfl (freeList_post_init ar m) hpg

/-- C9 (amended), over a zeroed memory with the page `pageA`. -/
theorem malloc8_post_init_witness :
    PageOK (post_init arena0 mem0) pageA ∧
    ∃ s1, malloc pageA 8 (post_init arena0 mem0) = .ok (pageA + 32, s1) ∧
      s1.loadSize (pageA + 20) = 32 ∧
      s1.view = ⟨[[], [pageA + 52], [pageA + 84], [pageA + 148], [pageA + 276],
        [pageA + 532], []], [pageA], [7], [pageA]⟩ :=
  ⟨pageOK_state0, malloc8_post_init arena0 mem0 pageA pageOK_state0⟩

/-- C11 (fails on the code): after `malloc (8)` in the post-init state the registered
arena has `free_cnt` 7, while 5 blocks of its page are on free lists. -/
theorem free_cnt_exceeds_free_count :
    Reach 0 state1 [pageA + 32] [] ∧ state1.arena_list = [pageA] ∧
    (state1.arenas pageA).free_cnt = 7 ∧ freeCount state1 pageA = 5 :=
  ⟨reach_state1, rfl, rfl, by decide⟩

/-- C12 (fails on the code): with 1 in the return register at the value-less returns of
`free_buildup`, the page `pageA` is given back while the block at `pageA + 532` is live;
the page is handed out again and split, which puts the block at `pageA + 532` on the
512-byte free list while the old pointer `pageA + 544` to it is live. `free` of that
pointer finds the arena of the block, reads the size 512, selects class 5 and runs its
sorted insert on the block, which is linked already: the list it leaves is not strictly
ascending. -/
theorem free_list_not_ascending :
    Reach 1 reused [pageA + 32, pageA + 544] [] ∧
    reused.freeList 5 = [pageA + 532] ∧
    block_to_arena reused (pageA + 544 - SIZEOF_BLOCK) = .ok pageA ∧
    (reused.arenas pageA).desc = some 0 ∧
    free_index 32 (reused.loadSize (pageA + 544 - SIZEOF_BLOCK)) 16 0 = 5 ∧
    (reused.insertFree 5 (pageA + 544 - SIZEOF_BLOCK)).freeList 5
      = [pageA + 532, pageA + 532] ∧
    ¬ ((reused.insertFree 5 (pageA + 544 - SIZEOF_BLOCK)).freeList 5).Pairwise (· < ·) :=
  ⟨reach_reused, rfl, rfl, rfl, rfl, rfl, by decide⟩

/-- C13 (fails on the code): with 1 in the return register at the value-less returns of
`free_buildup`, the page `pageA` is given back and handed out again while the block at
`pageA + 532` stays on the 512-byte free list; `malloc (1000)` then returns the top
block of the page, and a store of the caller at `pageA + 540`, inside the 1000 bytes it
was given, changes the size field of that free block to 767. -/
theorem free_block_size_overwritten :
    Reach 1 (reissued.poke (pageA + 540) 255) [pageA + 32] [] ∧
    pageA + 32 ≤ pageA + 540 ∧ pageA + 540 < pageA + 32 + 1000 ∧
    (reissued.poke (pageA + 540) 255).freeList 5 = [pageA + 532] ∧
    getDesc (reissued.poke (pageA + 540) 255) 5 = .ok ⟨512, 7, [pageA + 532]⟩ ∧
    (reissued.poke (pageA + 540) 255).loadSize (pageA + 532) = 767 :=
  ⟨reach_poked, by decide, by decide, rfl, rfl, rfl⟩

/-- C14 (fails on the code): the exits of `free_buildup` below the top class are `return;`
statements without a value, so what `free` reads as the report is whatever the return
register holds. Both 512-byte blocks of the page `pageA` are live and the first is freed:
its buddy is live, `free_buildup` leaves by a value-less return, and one free block gives
`free_cnt` 3, the top class's `blocks_per_arena`. If the register holds 1, `free` unlinks
the block, removes the arena from the registry and gives the page back although the
second block is still allocated; if it holds 0 the page stays. -/
theorem free_junk_one_releases_page_in_use :
    (do let (p1, s1) ← malloc pageA 500 state0
        let (p2, s2) ← malloc 0 500 s1
        let (res, _) ← free_buildup 1 7 (p1 - 12) 5 (free_state s2 5 (p1 - 12))
        let s3 ← free 1 p1 s2
        let s4 ← free 0 p1 s2
        pure (p1, p2, s2.view, res, s3.view, s4.view)) =
    .ok (pageA + 32, pageA + 544,
      ⟨[[], [], [], [], [], [], []], [pageA], [2], [pageA]⟩, 1,
      ⟨[[], [], [], [], [], [], []], [], [], []⟩,
      ⟨[[], [], [], [], [], [pageA + 20], []], [pageA], [3], [pageA]⟩) := by
  rfl

/-- C18 (fails on the code): with 1 in the return register at the value-less returns of
`free_buildup`, `free` of the first of two live 512-byte blocks gives the page `pageA`
back; the page source hands it out again and `malloc (1000)` returns the 1024-byte block
at `pageA + 20`, which contains the live 512-byte block at `pageA + 532`. -/
theorem malloc_overlaps_live_block :
    Reach 1 released [pageA + 544] [] ∧ PageOK released pageA ∧
    malloc pageA 1000 released = .ok (pageA + 32, overlap) ∧
    Reach 1 overlap [pageA + 32, pageA + 544] [] ∧
    overlap.loadSize (pageA + 32 - 12) = 1024 ∧ overlap.loadSize (pageA + 544 - 12) = 512 ∧
    pageA + 32 - 12 ≤ pageA + 544 - 12 ∧ pageA + 544 - 12 + 512 ≤ pageA + 32 - 12 + 1024 ∧
    ¬ (all_blocks overlap [pageA + 32, pageA + 544]).Pairwise
      (fun b b1 => b + overlap.loadSize b ≤ b1 ∨ b1 + overlap.loadSize b1 ≤ b) :=
  ⟨reach_released, pageOK_released, malloc_overlap, reach_overlap, rfl, rfl, by decide,
    by decide, by decide⟩

/-- C19 (fails on the code): with 1 in the return register at the value-less returns of
`free_buildup`, the page `pageA` is given back early, the block at `pageA + 532` stays on
the 512-byte free list, and after the page is handed out again for `malloc (1000)` the
registered arena has `free_cnt` 2 with one block of its page on a free list, where the
top class's `blocks_per_arena` is 3: `free_cnt` is not the count plus 2, and the count is
1 although `free_cnt` is not 3. -/
theorem free_cnt_off_after_reissue :
    Reach 1 reissued [pageA + 32] [] ∧ reissued.arena_list = [pageA] ∧
    getDesc reissued (reissued.desc_cnt - 1) = .ok ⟨1024, 3, []⟩ ∧
    (reissued.arenas pageA).free_cnt = 2 ∧ freeCount reissued pageA = 1 :=
  ⟨reach_reissued, rfl, rfl, rfl, by decide⟩

/-- C20 (fails on the code): `free` decides on the release of a page by the value a
value-less return of `free_buildup` leaves in the return register. If it holds 1, the page
`pageA` is given back while the block at `pageA + 532` is live and handed out again for
`malloc (1000)`; `free` of the old pointer gives the page back once more, and `free` of
the 1024-byte block then leaves it on the top free list: every pointer is freed, and the
top list holds the block at `pageA + 20`. If it holds 0, `malloc (8)` and `free` of the
pointer end with the top block on the top free list as well: the blocks merge into the
top block, and the page, though fully free, is kept. -/
theorem top_block_left_free :
    (Reach 1 top_stale [] [] ∧
      top_stale.view =
        ⟨[[], [], [], [], [], [pageA + 532], [pageA + 20]], [], [], []⟩) ∧
    (Reach 0 state2 [] [] ∧ state2.freeList 6 = [pageA + 20] ∧
      state2.arena_list = [pageA] ∧ state2.pages = [pageA] ∧
      (state2.arenas pageA).free_cnt = 3) :=
  ⟨⟨reach_top_stale, rfl⟩, ⟨reach_state2, rfl, rfl, rfl, rfl⟩⟩

/-- The lock events of `malloc (8)` in the post-init state: the lock of the 32-byte class
for the search, the lock of the top class for the block of the new page, two locks in turn
for each of the five splits, and the lock of the 32-byte class for the pop. -/
theorem malloc8_lock_events :
    (malloc_locks pageA 8 state0).1 =
      [.acquire 1, .release 1, .acquire 6, .release 6,
       .acquire 6, .release 6, .acquire 5, .release 5,
       .acquire 5, .release 5, .acquire 4, .release 4,
       .acquire 4, .release 4, .acquire 3, .release 3,
       .acquire 3, .release 3, .acquire 2, .release 2,
       .acquire 2, .release 2, .acquire 1, .release 1,
       .acquire 1, .release 1] := by
  decide

/-- The lock events of the `free` that gives the page back with a block live: the lock of
the 512-byte class for the insert and again in `free_buildup`, then the lock of the top
class. -/
theorem free_lock_events :
    (free_locks 1 (pageA + 32) two_live).1 =
      [.acquire 5, .release 5, .acquire 5, .release 5, .acquire 6, .release 6] := by
  decide

/-- C17: in the sequence of lock events of a call of `malloc` or of `free`, the events of
the nested calls of `malloc_breakdown` and `free_buildup` included, at most one lock of a
size class is held at any point and no lock is acquired while it is held, on every path,
those that end in a fault included; and when the call returns, with a block, with the
null pointer or early, no lock is held. The routines with lock events return what `malloc`
and `free` return and stop in a fault where they do. -/
theorem lock_discipline (junk : Int) (pg n p : Nat) (s : State) :
    ((malloc_locks pg n s).2.toOption = (malloc pg n s).toOption ∧
      Disciplined (malloc_locks pg n s).1 ∧
      ∀ r, malloc pg n s = .ok r → held (malloc_locks pg n s).1 = []) ∧
    ((free_locks junk p s).2.toOption = (free junk p s).toOption ∧
      Disciplined (free_locks junk p s).1 ∧
      ∀ s1, free junk p s = .ok s1 → held (free_locks junk p s).1 = []) := by
  obtain ⟨hm1, hm2⟩ := malloc_locks_spec pg n s
  obtain ⟨hf1, hf2⟩ := free_locks_spec junk p s
  obtain ⟨hm3, hm4⟩ := settled_disciplined _ hm2
  obtain ⟨hf3, hf4⟩ := settled_disciplined _ hf2
  refine ⟨⟨hm1, hm3, fun r hr => hm4 r ?_⟩, ⟨hf1, hf3, fun s1 hs => hf4 s1 ?_⟩⟩
  · rw [hm1, hr]; rfl
  · rw [hf1, hs]; rfl

end Malloc
